import Mathlib

/-!
LazyTask: tree flattening, normalisation, audit strings and the store.

A shallow embedding of the data and query core of the LazyTask repository:

* `internal/model/model.go`: the `Task`, `Tag`, `View` and `Filter` records;
* `internal/tui/items.go`: `buildVisibleTaskTree`;
* `internal/web/web.go`: `buildTaskRows`;
* `internal/db/store.go`: `normalizeStatus`, `normalizeTags`, `formatTaskDiff`
  and the helpers they call; the methods of `Store` (`CreateTask`,
  `UpdateTask`, `DeleteTask`, `GetTaskWithTags`, `SetTaskTags`, `ListTasks`,
  `ListHistory`, `SaveView`, `GetViewByName`);
* `internal/tui/form.go` and `internal/tui/tui.go`: `taskInputFromTask` and
  the three status toggles.

Go maps with `int64` keys are association lists with unique keys, Go strings
are Lean strings (sequences of Unicode code points; the strings of a `Filter`
that goes through `encoding/json` may also hold bytes that are not valid
UTF-8, see `GoString`), `int64` values are
integers (no arithmetic is done on them here), and the recursive closure
`walk` takes a fuel argument that bounds its nesting depth: `none` means the
bound was reached. The SQL queries that the store calls and the schema are
not part of the sources at hand; they are modelled from the specification
and marked so. Functions of the Go library (`strings`, `fmt`, `time`,
`encoding/json`) are modelled where the code calls them.
-/

namespace LazyTask

/-! ## Data model (`internal/model/model.go`) -/

/-- The part of a `time.Time` that the code reads: the calendar date shown by
`Format("2006-01-02")` in the value's own location, and the rest of the
instant (nanoseconds since midnight of that day), which `Format` with this
layout never prints. A Go `time.Time` always has a month in 1..12 and a day in
1..31. -/
structure Time where
  year : Int
  month : Nat
  day : Nat
  nanoOfDay : Nat
  month_ok : 1 ≤ month ∧ month ≤ 12
  day_ok : 1 ≤ day ∧ day ≤ 31
  deriving DecidableEq

/-- Go `model.Tag`. -/
structure Tag where
  ID : Int
  Name : String
  CreatedAt : Option Time
  deriving DecidableEq

/-- Go `model.Task`. `ParentTaskID` and `DueAt` are pointers in Go: `none` is
the nil pointer. -/
structure Task where
  ID : Int
  ParentTaskID : Option Int
  Title : String
  Description : String
  Status : String
  Priority : Int
  DueAt : Option Time
  CreatedAt : Option Time
  UpdatedAt : Option Time
  Tags : List Tag
  deriving DecidableEq

/-! ## Go maps keyed by `int64` -/

/-- A Go `map[int64]α`: an association list in which every key occurs at most
once. -/
abbrev IntMap (α : Type) := List (Int × α)

/-- Map read `m[k]` with the comma-ok form: `none` when the key is absent. -/
def IntMap.get {α : Type} (m : IntMap α) (k : Int) : Option α :=
  (m.find? (fun e => e.1 == k)).map Prod.snd

/-- Map write `m[k] = v`: replaces the entry of `k` or adds a new one. -/
def IntMap.set {α : Type} (m : IntMap α) (k : Int) (v : α) : IntMap α :=
  match m with
  | [] => [(k, v)]
  | e :: rest => if e.1 == k then (k, v) :: rest else e :: IntMap.set rest k v

/-! ## `buildVisibleTaskTree` (`internal/tui/items.go`) -/

/-- Lines 37-42, first map: `indexByID[task.ID] = i` for every position. -/
def buildIndexByID (tasks : List Task) : IntMap Nat :=
  tasks.enum.foldl (fun m it => m.set it.2.ID it.1) []

/-- Lines 37-42, second map: `existsByID[task.ID] = struct{}{}`. -/
def buildExistsByID (tasks : List Task) : IntMap Unit :=
  tasks.foldl (fun m t => m.set t.ID ()) []

/-- Lines 46-51: the key under which a task is grouped. It is the declared
parent id when that id is a key of `existsByID`, and `0` otherwise. -/
def parentKey (existsByID : IntMap Unit) (task : Task) : Int :=
  match task.ParentTaskID with
  | some p => if (existsByID.get p).isSome then p else 0
  | none => 0

/-- Lines 44-53: `childrenByParent[parentID] = append(childrenByParent[parentID], task)`
for every task in input order. -/
def groupChildren (existsByID : IntMap Unit) (tasks : List Task) : IntMap (List Task) :=
  tasks.foldl
    (fun m t =>
      let parentID := parentKey existsByID t
      m.set parentID ((m.get parentID).getD [] ++ [t]))
    []

/-- The index read `indexByID[id]` (a missing key reads as `0` in Go). -/
def indexOfID (indexByID : IntMap Nat) (id : Int) : Nat :=
  (indexByID.get id).getD 0

/-- Lines 55-61: every group is sorted with
`less(i, j) = indexByID[children[i].ID] < indexByID[children[j].ID]`.
`sort.Slice` does not promise an order for elements that compare equal; the
model is the insertion sort that keeps them in place. -/
def sortChildren (indexByID : IntMap Nat) (m : IntMap (List Task)) : IntMap (List Task) :=
  m.map (fun e =>
    (e.1, e.2.insertionSort (fun a b => indexOfID indexByID a.ID ≤ indexOfID indexByID b.ID)))

/-- Lines 63-71: `hasChildren[parentID] = true` for every key other than `0`
whose group is not empty. -/
def buildHasChildren (childrenByParent : IntMap (List Task)) : IntMap Bool :=
  childrenByParent.foldl
    (fun m e => if e.1 == 0 then m else if e.2.length > 0 then m.set e.1 true else m)
    []

/-- The read `childrenByParent[parentID]`: the nil slice when the key is absent. -/
def childrenOf (childrenByParent : IntMap (List Task)) (parentID : Int) : List Task :=
  (childrenByParent.get parentID).getD []

/-- The test `collapsed != nil && collapsed[id]` of line 81. The `collapsed`
argument is `none` for the nil map, and a missing key reads as `false`. -/
def collapsedAt (collapsed : Option (IntMap Bool)) (id : Int) : Bool :=
  match collapsed with
  | none => false
  | some c => (c.get id).getD false

/-- The test `hasChildren[task.ID] && collapsed != nil && collapsed[task.ID]` of
line 81. -/
def isCollapsed (hasChildren : IntMap Bool) (collapsed : Option (IntMap Bool)) (id : Int) : Bool :=
  (hasChildren.get id).getD false && collapsedAt collapsed id

/-- The two variables that the closure `walk` mutates. -/
structure WalkState where
  visible : List Task
  depthByID : IntMap Nat
  deriving DecidableEq

/-- Lines 76-86: the recursive closure `walk`. One unit of fuel is used per
nested call; `none` is returned when the fuel is exhausted. -/
def walk (childrenByParent : IntMap (List Task)) (hasChildren : IntMap Bool)
    (collapsed : Option (IntMap Bool)) :
    Nat → Int → Nat → WalkState → Option WalkState
  | 0, _, _, _ => none
  | fuel + 1, parentID, depth, st =>
    (childrenOf childrenByParent parentID).foldlM
      (fun st task =>
        let st1 : WalkState :=
          ⟨st.visible ++ [task], st.depthByID.set task.ID depth⟩
        if isCollapsed hasChildren collapsed task.ID then some st1
        else walk childrenByParent hasChildren collapsed fuel task.ID (depth + 1) st1)
      st

/-- The value returned by `buildVisibleTaskTree`: the visible tasks, the depth
map and the `hasChildren` map. -/
structure TreeResult where
  visible : List Task
  depthByID : IntMap Nat
  hasChildren : IntMap Bool
  deriving DecidableEq

/-- Go `buildVisibleTaskTree` (lines 32-90), with the nesting bound `fuel` of
`walk`. -/
def buildVisibleTaskTree (fuel : Nat) (tasks : List Task) (collapsed : Option (IntMap Bool)) :
    Option TreeResult :=
  if tasks.length = 0 then some ⟨[], [], []⟩
  else
    let indexByID := buildIndexByID tasks
    let existsByID := buildExistsByID tasks
    let childrenByParent := sortChildren indexByID (groupChildren existsByID tasks)
    let hasChildren := buildHasChildren childrenByParent
    match walk childrenByParent hasChildren collapsed fuel 0 0 ⟨[], []⟩ with
    | none => none
    | some st => some ⟨st.visible, st.depthByID, hasChildren⟩

/-! ## The forest that the walk follows, read off the task list -/

/-- Whether some task of the list has the given id. -/
def hasID (tasks : List Task) (id : Int) : Bool :=
  tasks.any (fun t => t.ID == id)

/-- The grouping key of a task in terms of the task list alone: the declared
parent id when a task of the list has that id, and `0` otherwise. -/
def effKey (tasks : List Task) (t : Task) : Int :=
  match t.ParentTaskID with
  | some p => if hasID tasks p then p else 0
  | none => 0

/-- The tasks grouped under a key, in input order. -/
def kidsOf (tasks : List Task) (p : Int) : List Task :=
  tasks.filter (fun t => effKey tasks t == p)

/-- Whether a key other than `0` has a non-empty group. -/
def hasKids (tasks : List Task) (k : Int) : Bool :=
  k != 0 && !(kidsOf tasks k).isEmpty

/-- The emissions of the tasks of one group, in order: each task with the
depth of the group, followed by what `sub` gives for it. -/
def emitBlocks (sub : Task → Option (List (Task × Nat))) (d : Nat) :
    List Task → Option (List (Task × Nat))
  | [] => some []
  | c :: cs =>
    match sub c, emitBlocks sub d cs with
    | some s, some r => some ((c, d) :: s ++ r)
    | _, _ => none

/-- The emissions of `walk` as a list of tasks with their depths, for a group
function `kids` and a collapse test `coll`. -/
def walkList (kids : Int → List Task) (coll : Int → Bool) :
    Nat → Int → Nat → Option (List (Task × Nat))
  | 0, _, _ => none
  | fuel + 1, p, d =>
    emitBlocks (fun c => if coll c.ID then some [] else walkList kids coll fuel c.ID (d + 1))
      d (kids p)

/-- The state after a list of emissions: every task is appended to `visible`
and its depth is written to `depthByID`. -/
def applyEmits (st : WalkState) (l : List (Task × Nat)) : WalkState :=
  ⟨st.visible ++ l.map Prod.fst, l.foldl (fun m e => IntMap.set m e.1.ID e.2) st.depthByID⟩

/-- The collapse test of line 81 in terms of the task list. -/
def collOf (tasks : List Task) (collapsed : Option (IntMap Bool)) (id : Int) : Bool :=
  hasKids tasks id && collapsedAt collapsed id

/-- The group of a key after the sort of lines 55-61. -/
def sortedKids (tasks : List Task) (k : Int) : List Task :=
  (kidsOf tasks k).insertionSort
    (fun a b => indexOfID (buildIndexByID tasks) a.ID ≤ indexOfID (buildIndexByID tasks) b.ID)

/-- The `hasChildren` map that `buildVisibleTaskTree` computes for a task list. -/
def hasChildrenMap (tasks : List Task) : IntMap Bool :=
  buildHasChildren
    (sortChildren (buildIndexByID tasks) (groupChildren (buildExistsByID tasks) tasks))

/-- The ids of a task list, in order. -/
def idsOf (tasks : List Task) : List Int :=
  tasks.map (fun t => t.ID)

/-- What `walk` emits below one task of a group: nothing when the task is
collapsed, and the nested walk otherwise. -/
def subWalk (kids : Int → List Task) (coll : Int → Bool) (fuel : Nat) (d : Nat) (c : Task) :
    Option (List (Task × Nat)) :=
  if coll c.ID then some [] else walkList kids coll fuel c.ID (d + 1)

/-- The grouping key of the task with a given id (`0` when no task has the id). -/
def parId (tasks : List Task) (id : Int) : Int :=
  match tasks.find? (fun t => t.ID == id) with
  | some t => effKey tasks t
  | none => 0

/-- An id has rank `r` when `r` steps along the grouping keys lead to the root
key `0` and fewer steps do not. -/
def Rank (tasks : List Task) (id : Int) (r : Nat) : Prop :=
  (parId tasks)^[r] id = 0 ∧ ∀ k, k < r → (parId tasks)^[k] id ≠ 0

/-- A task `x` is a descendant of the task `t`: following the grouping keys
from `x` for one or more steps leads to the id of `t`. -/
def Desc (tasks : List Task) (x t : Task) : Prop :=
  ∃ m : Nat, (parId tasks)^[m + 1] x.ID = t.ID

/-- The input is well formed: ids are pairwise distinct and none is `0`. -/
def WellFormed (tasks : List Task) : Prop :=
  (idsOf tasks).Nodup ∧ ∀ t ∈ tasks, t.ID ≠ 0

/-- The descendants of a task in the forest of the input: `x` is a descendant
of `t` when the declared parent of `x` is `t`, or is a descendant of `t`, all
tasks being tasks of the input. -/
inductive IsDescendant (tasks : List Task) : Task → Task → Prop
  | child (x t : Task) : x ∈ tasks → t ∈ tasks → x.ParentTaskID = some t.ID →
      IsDescendant tasks x t
  | step (x y t : Task) : x ∈ tasks → y ∈ tasks → x.ParentTaskID = some y.ID →
      IsDescendant tasks y t → IsDescendant tasks x t

/-- The chain example of the specification: A(id 1), B(id 2, parent 1),
C(id 3, parent 2). -/
def sampleA : Task := ⟨1, none, "A", "", "todo", 0, none, none, none, []⟩

/-- The task B of the chain example. -/
def sampleB : Task := ⟨2, some 1, "B", "", "todo", 0, none, none, none, []⟩

/-- The task C of the chain example. -/
def sampleC : Task := ⟨3, some 2, "C", "", "todo", 0, none, none, none, []⟩

/-- The map `childrenByParent` as it stands when the walk starts (after lines
44-61). -/
def childrenByParentMap (tasks : List Task) : IntMap (List Task) :=
  sortChildren (buildIndexByID tasks) (groupChildren (buildExistsByID tasks) tasks)

/-- A second child of the task A of the chain example. -/
def sampleD : Task := ⟨4, some 1, "D", "", "todo", 0, none, none, none, []⟩

/-- A task list with a task of id 0: Y(id 1, parent 0), X(id 0, parent 7) and
Z(id 7, parent 7). The tasks X and Z are never reached by the walk. -/
def zeroIdTasks : List Task :=
  [⟨1, some 0, "Y", "", "todo", 0, none, none, none, []⟩,
   ⟨0, some 7, "X", "", "todo", 0, none, none, none, []⟩,
   ⟨7, some 7, "Z", "", "todo", 0, none, none, none, []⟩]

/-! ## Strings (`strings`, `unicode`, `fmt` and `time` of the Go library) -/

/-- Go `unicode.IsSpace`: the Latin-1 cases `\t \n \v \f \r`, space, U+0085 and
U+00A0, and beyond Latin-1 the code points of the `White_Space` property. -/
def isSpace (c : Char) : Bool :=
  (0x09 ≤ c.toNat && c.toNat ≤ 0x0D) || c.toNat == 0x20 || c.toNat == 0x85 ||
  c.toNat == 0xA0 || c.toNat == 0x1680 || (0x2000 ≤ c.toNat && c.toNat ≤ 0x200A) ||
  c.toNat == 0x2028 || c.toNat == 0x2029 || c.toNat == 0x202F || c.toNat == 0x205F ||
  c.toNat == 0x3000

/-- Go `strings.TrimSpace`: the string without its leading and trailing white
space. -/
def trimSpace (s : String) : String :=
  ⟨(s.data.dropWhile isSpace).rdropWhile isSpace⟩

/-- Go `strings.ToLower`: every code point is mapped by `unicode.ToLower`. The
case table of the Go library is the parameter `lower`. -/
def toLower (lower : Char → Char) (s : String) : String :=
  ⟨s.data.map lower⟩

/-- A string is blank when it is empty or holds white space only. -/
def isBlank (s : String) : Bool :=
  s.data.all isSpace

/-- The decimal digits of a natural number, most significant first (`0` has
the one digit `0`). -/
def decimalNat (n : Nat) : List Char :=
  if n = 0 then ['0'] else (Nat.digits 10 n).reverse.map Nat.digitChar

/-- Go `time.appendInt`: a minus sign for a negative value, then the decimal
digits of the absolute value, padded with zeros on the left to `width`. -/
def appendInt (x : Int) (width : Nat) : List Char :=
  (if x < 0 then ['-'] else []) ++
    (List.replicate (width - (decimalNat x.natAbs).length) '0' ++ decimalNat x.natAbs)

/-- Go `fmt.Sprintf("%d", x)` for an integer. -/
def formatInt (x : Int) : String :=
  ⟨appendInt x 0⟩

/-- Go `t.Format("2006-01-02")`: year, month and day of the value, the year on
four digits and the others on two. -/
def formatDate (t : Time) : String :=
  ⟨appendInt t.year 4 ++ ('-' :: appendInt t.month 2) ++ ('-' :: appendInt t.day 2)⟩

/-- The order that `sort.Strings` sorts by: byte-wise comparison of the UTF-8
encodings, which is the lexicographic order of the code points. -/
def strLe (a b : String) : Prop :=
  a.data ≤ b.data

instance strLe.decidable : DecidableRel strLe :=
  fun a b => inferInstanceAs (Decidable (a.data ≤ b.data))

/-! ## Normalisation and audit strings (`internal/db/store.go`) -/

/-- Go `normalizeStatus` (lines 356-362). -/
def normalizeStatus (lower : Char → Char) (status : String) : String :=
  let value := trimSpace (toLower lower status)
  if value = "" then "todo" else value

/-- One step of the loop of `normalizeTags` (lines 367-377) on the pair of the
set `seen` and the slice `result`. -/
def normalizeTagsStep (lower : Char → Char) (st : List String × List String) (tag : String) :
    List String × List String :=
  let trimmed := trimSpace tag
  if trimmed = "" then st
  else
    let lo := toLower lower trimmed
    if lo ∈ st.1 then st else (lo :: st.1, st.2 ++ [trimmed])

/-- Go `normalizeTags` (lines 364-380). The map `seen` is a list of keys. -/
def normalizeTags (lower : Char → Char) (tags : List String) : List String :=
  (tags.foldl (normalizeTagsStep lower) ([], [])).2

/-- Go `valueOrNone` (lines 427-433). -/
def valueOrNone (value : String) : String :=
  let trimmed := trimSpace value
  if trimmed = "" then "none" else trimmed

/-- Go `formatChange` (lines 423-425): `fmt.Sprintf("%s: '%s' -> '%s'", ...)`. -/
def formatChange (field before after : String) : String :=
  field ++ ": '" ++ valueOrNone before ++ "' -> '" ++ valueOrNone after ++ "'"

/-- Go `formatDue` (lines 435-440). -/
def formatDue (value : Option Time) : String :=
  match value with
  | none => "none"
  | some t => formatDate t

/-- Go `formatParent` (lines 442-447). -/
def formatParent (parentID : Option Int) : String :=
  match parentID with
  | none => "none"
  | some p => if p = 0 then "none" else formatInt p

/-- Go `formatTags` (lines 449-460): the names sorted with `sort.Strings` and
joined with commas, or `none` for no tags. -/
def formatTags (tags : List Tag) : String :=
  if tags.length = 0 then "none"
  else String.intercalate "," ((tags.map (fun t => t.Name)).insertionSort strLe)

/-- The slice `changes` that `formatTaskDiff` builds (lines 391-414): one
fragment for every field that differs, in the order of the checks. -/
def diffChanges (before after : Task) : List String :=
  (if before.Title ≠ after.Title
    then [formatChange "title" before.Title after.Title] else []) ++
  (if before.Description ≠ after.Description
    then [formatChange "description" before.Description after.Description] else []) ++
  (if before.Status ≠ after.Status
    then [formatChange "status" before.Status after.Status] else []) ++
  (if before.Priority ≠ after.Priority
    then [formatChange "priority" (formatInt before.Priority) (formatInt after.Priority)]
    else []) ++
  (if formatParent before.ParentTaskID ≠ formatParent after.ParentTaskID
    then [formatChange "parent" (formatParent before.ParentTaskID)
      (formatParent after.ParentTaskID)] else []) ++
  (if formatDue before.DueAt ≠ formatDue after.DueAt
    then [formatChange "due" (formatDue before.DueAt) (formatDue after.DueAt)] else []) ++
  (if formatTags before.Tags ≠ formatTags after.Tags
    then [formatChange "tags" (formatTags before.Tags) (formatTags after.Tags)] else [])

/-- Go `formatTaskDiff` (lines 390-421). -/
def formatTaskDiff (before after : Task) : String :=
  let changes := diffChanges before after
  if changes.length = 0 then "updated: no changes"
  else "updated: " ++ String.intercalate "; " changes

/-- The calendar date of an optional due time: year, month and day. -/
def dueDate (value : Option Time) : Option (Int × Nat × Nat) :=
  value.map (fun t => (t.year, t.month, t.day))

/-- The first of January 2025, at midnight. -/
def jan1of2025 : Time := ⟨2025, 1, 1, 0, by decide, by decide⟩

/-- The nub of a list by a key: every element whose key did not occur before
it is kept, in order. -/
def keepFirstByKey (key : String → String) : List String → List String
  | [] => []
  | x :: xs => x :: keepFirstByKey key (xs.filter (fun y => key y ≠ key x))
termination_by l => l.length
decreasing_by
  simp only [List.length_cons]
  exact Nat.lt_succ_of_le (List.length_filter_le _ _)

/-- The loop of `normalizeTags` as a recursion: what is appended to `result`
for the remaining tags, given the set `seen`. -/
def loopTags (lower : Char → Char) (seen : List String) : List String → List String
  | [] => []
  | tag :: rest =>
    if trimSpace tag = "" then loopTags lower seen rest
    else if toLower lower (trimSpace tag) ∈ seen then loopTags lower seen rest
    else trimSpace tag :: loopTags lower (toLower lower (trimSpace tag) :: seen) rest

/-- The trimmed tag names that are not empty, in order. -/
def cleanedTags (tags : List String) : List String :=
  (tags.map trimSpace).filter (fun t => t ≠ "")

/-- The number that a list of decimal digit characters denotes (most
significant digit first). -/
def decodeDigits (cs : List Char) : Nat :=
  Nat.ofDigits 10 (cs.reverse.map (fun c => c.toNat - 48))

/-- The task A of the chain example with the due date 2025-01-01. -/
def sampleADue : Task := { sampleA with DueAt := some jan1of2025 }

/-- Go `formatCreatedDetails` (lines 382-384):
`fmt.Sprintf("created: title='%s' status=%s priority=%d due=%s tags=%s", ...)`. -/
def formatCreatedDetails (task : Task) : String :=
  "created: title='" ++ task.Title ++ "' status=" ++ task.Status ++
    " priority=" ++ formatInt task.Priority ++ " due=" ++ formatDue task.DueAt ++
    " tags=" ++ formatTags task.Tags

/-- Go `formatDeletedDetails` (lines 386-388):
`fmt.Sprintf("deleted: title='%s' status=%s priority=%d due=%s tags=%s", ...)`. -/
def formatDeletedDetails (task : Task) : String :=
  "deleted: title='" ++ task.Title ++ "' status=" ++ task.Status ++
    " priority=" ++ formatInt task.Priority ++ " due=" ++ formatDue task.DueAt ++
    " tags=" ++ formatTags task.Tags

/-- The parent of a snapshot as the audit trail sees it: a nil pointer and the
id 0 both stand for no parent. -/
def normParent (parentID : Option Int) : Option Int :=
  match parentID with
  | none => none
  | some p => if p = 0 then none else some p

/-- The seven fields of a diff in their fixed order: the name of the field, the
values of the two snapshots as they are handed to `formatChange`, and whether
the field differs (title, description, status and priority by value, the
parent up to nil and 0, the due date by calendar date, the tags by their
sorted comma-joined names). -/
def fieldRows (before after : Task) : List (String × String × String × Bool) :=
  [("title", before.Title, after.Title, decide (before.Title ≠ after.Title)),
   ("description", before.Description, after.Description,
      decide (before.Description ≠ after.Description)),
   ("status", before.Status, after.Status, decide (before.Status ≠ after.Status)),
   ("priority", formatInt before.Priority, formatInt after.Priority,
      decide (before.Priority ≠ after.Priority)),
   ("parent", formatParent before.ParentTaskID, formatParent after.ParentTaskID,
      decide (normParent before.ParentTaskID ≠ normParent after.ParentTaskID)),
   ("due", formatDue before.DueAt, formatDue after.DueAt,
      decide (dueDate before.DueAt ≠ dueDate after.DueAt)),
   ("tags", formatTags before.Tags, formatTags after.Tags,
      decide (formatTags before.Tags ≠ formatTags after.Tags))]

/-- A value inside a fragment: `none` for a blank value, the trimmed value
otherwise. -/
def shownValue (value : String) : String :=
  if isBlank value then "none" else trimSpace value

/-- The task A of the chain example with the title B. -/
def sampleARenamed : Task := { sampleA with Title := "B" }

/-- A calendar date in the form `YYYY-MM-DD`: four digits of the year, two of
the month and two of the day. -/
def isoDate (y m d : Nat) : String :=
  ⟨[Nat.digitChar (y / 1000), Nat.digitChar (y / 100 % 10), Nat.digitChar (y / 10 % 10),
    Nat.digitChar (y % 10), '-', Nat.digitChar (m / 10), Nat.digitChar (m % 10), '-',
    Nat.digitChar (d / 10), Nat.digitChar (d % 10)]⟩

/-- Two tags with the names a and b, and the same tags in the other order. -/
def sampleTagsAB : List Tag := [⟨1, "a", none⟩, ⟨2, "b", none⟩]

/-- The tags of `sampleTagsAB` in the other order. -/
def sampleTagsBA : List Tag := [⟨2, "b", none⟩, ⟨1, "a", none⟩]

/-! ## The store (`internal/db/store.go`)

The methods of `Store` are embedded from the source. The queries they call
(`s.Queries.*`, generated code of the package `internal/db/sqlc`) and the
schema are modelled from the specification. -/

/-- Go `TaskInput` (lines 21-29). -/
structure TaskInput where
  Title : String
  Description : String
  Status : String
  Priority : Int
  DueAt : Option Time
  ParentTaskID : Option Int
  Tags : List String
  deriving DecidableEq

/-- Go `model.HistoryEntry`. -/
structure HistoryEntry where
  ID : Int
  TaskID : Int
  EventType : String
  Details : String
  CreatedAt : Option Time
  deriving DecidableEq

/-- Modelled from the spec: a row of the relation `tasks(id, title, description,
status, priority, due_at nullable, parent_task_id nullable, created_at,
updated_at)`, the type `sqlc.Task` that `mapTask` reads. -/
structure TaskRow where
  ID : Int
  Title : String
  Description : String
  Status : String
  Priority : Int
  DueAt : Option Time
  ParentTaskID : Option Int
  CreatedAt : Option Time
  UpdatedAt : Option Time
  deriving DecidableEq

/-- Modelled from the spec: a row of the relation `tags(id, name, created_at)`,
the type `sqlc.Tag`. -/
structure TagRow where
  ID : Int
  Name : String
  CreatedAt : Option Time
  deriving DecidableEq

/-- Modelled from the spec: a row of the append-only relation `history(id,
task_id, event_type, details, created_at)`. -/
structure HistoryRow where
  ID : Int
  TaskID : Int
  EventType : String
  Details : String
  CreatedAt : Option Time
  deriving DecidableEq

/-- Modelled from the spec: the persisted schema of section 6 as a value. The
relations are lists in insertion order, the three counters give the next
opaque id of each relation, `now` is the clock reading used for time stamps,
and `historyCascade` is the policy that the spec leaves open: whether the
history rows of a task are deleted with it. -/
structure DB where
  tasks : List TaskRow
  tags : List TagRow
  taskTags : List (Int × Int)
  history : List HistoryRow
  nextTaskID : Int
  nextTagID : Int
  nextHistoryID : Int
  now : Option Time
  historyCascade : Bool
  deriving DecidableEq

/-- The errors of the storage layer: `sql.ErrNoRows` of a lookup, and any other
failure of a query (I/O, cancelled context). -/
inductive DBError where
  | notFound
  | failed
  deriving DecidableEq

/-- A connection: the database and, for each of the coming queries, whether it
fails (`true`); when the list is used up no query fails. A failing query
leaves the database as it is. -/
structure Conn where
  db : DB
  faults : List Bool
  deriving DecidableEq

/-- Run one query on a connection. -/
def Conn.query {α : Type} (c : Conn) (f : DB → Except DBError (α × DB)) :
    Except DBError α × Conn :=
  if c.faults.head? = some true then (Except.error DBError.failed, ⟨c.db, c.faults.tail⟩)
  else
    match f c.db with
    | Except.ok (a, db2) => (Except.ok a, ⟨db2, c.faults.tail⟩)
    | Except.error e => (Except.error e, ⟨c.db, c.faults.tail⟩)

/-- Modelled from the spec: the query `GetTask` (single-row read, fails with
not-found when the id does not exist). -/
def dbGetTask (taskID : Int) (db : DB) : Except DBError (TaskRow × DB) :=
  match db.tasks.find? (fun r => r.ID == taskID) with
  | some row => Except.ok (row, db)
  | none => Except.error DBError.notFound

/-- Modelled from the spec: the query `ListTagsForTask` (the tag join of a
task): the tags that the junction `task_tags` links to the task. -/
def dbListTagsForTask (taskID : Int) (db : DB) : Except DBError (List TagRow × DB) :=
  Except.ok (db.tags.filter (fun t => (taskID, t.ID) ∈ db.taskTags), db)

/-- Modelled from the spec: the query `CreateTask` (persists the task row): a
row with the next id and the given fields is added and returned. -/
def dbCreateTask (title description status : String) (priority : Int) (dueAt : Option Time)
    (parentTaskID : Option Int) (db : DB) : Except DBError (TaskRow × DB) :=
  let row : TaskRow :=
    ⟨db.nextTaskID, title, description, status, priority, dueAt, parentTaskID, db.now, db.now⟩
  Except.ok (row, { db with tasks := db.tasks ++ [row], nextTaskID := db.nextTaskID + 1 })

/-- Modelled from the spec: the query `UpdateTask`: the fields of the row with
the given id are replaced and the new row is returned; not-found when the id
does not exist. -/
def dbUpdateTask (title description status : String) (priority : Int) (dueAt : Option Time)
    (parentTaskID : Option Int) (taskID : Int) (db : DB) : Except DBError (TaskRow × DB) :=
  match db.tasks.find? (fun r => r.ID == taskID) with
  | none => Except.error DBError.notFound
  | some old =>
    let row : TaskRow :=
      ⟨taskID, title, description, status, priority, dueAt, parentTaskID, old.CreatedAt, db.now⟩
    Except.ok (row,
      { db with tasks := db.tasks.map (fun r => if r.ID == taskID then row else r) })

/-- Modelled from the spec: the query `DeleteTask` (deletes the row). By the
set-null policy of section 8 (and `db.go` line 63) the rows that have the task
as parent get an absent parent; the links of the task in `task_tags` go with
it; its history rows go with it when `historyCascade` is set. -/
def dbDeleteTask (taskID : Int) (db : DB) : Except DBError (Unit × DB) :=
  Except.ok ((),
    { db with
      tasks := (db.tasks.filter (fun r => r.ID != taskID)).map
        (fun r => if r.ParentTaskID = some taskID then { r with ParentTaskID := none } else r),
      taskTags := db.taskTags.filter (fun l => l.1 != taskID),
      history :=
        if db.historyCascade then db.history.filter (fun h => h.TaskID != taskID)
        else db.history })

/-- Modelled from the spec: the query `AddHistory` (appends a history entry):
a row with the next id is added at the end and returned. -/
def dbAddHistory (taskID : Int) (eventType details : String) (db : DB) :
    Except DBError (HistoryRow × DB) :=
  let row : HistoryRow := ⟨db.nextHistoryID, taskID, eventType, details, db.now⟩
  Except.ok (row,
    { db with history := db.history ++ [row], nextHistoryID := db.nextHistoryID + 1 })

/-- Modelled from the spec: the query `ListHistoryByTask`: the history rows of
a task, oldest first. -/
def dbListHistoryByTask (taskID : Int) (db : DB) : Except DBError (List HistoryRow × DB) :=
  Except.ok (db.history.filter (fun h => h.TaskID == taskID), db)

/-- Modelled from the spec: the query `ClearTagsForTask` (clears all existing
tag links for the task). -/
def dbClearTagsForTask (taskID : Int) (db : DB) : Except DBError (Unit × DB) :=
  Except.ok ((), { db with taskTags := db.taskTags.filter (fun l => l.1 != taskID) })

/-- Modelled from the spec: the query `CreateTag` with get-or-create semantics:
creating a tag with an existing case-insensitive name returns the existing tag
(its original casing is preserved); otherwise a tag with the next id is added.
Names are compared after `toLower`. -/
def dbCreateTag (lower : Char → Char) (name : String) (db : DB) :
    Except DBError (TagRow × DB) :=
  match db.tags.find? (fun t => toLower lower t.Name == toLower lower name) with
  | some tag => Except.ok (tag, db)
  | none =>
    let tag : TagRow := ⟨db.nextTagID, name, db.now⟩
    Except.ok (tag, { db with tags := db.tags ++ [tag], nextTagID := db.nextTagID + 1 })

/-- Modelled from the spec: the query `AssignTagToTask` (links the tag to the
task): the pair is added to the junction `task_tags` unless it is there. -/
def dbAssignTagToTask (taskID tagID : Int) (db : DB) : Except DBError (Unit × DB) :=
  if (taskID, tagID) ∈ db.taskTags then Except.ok ((), db)
  else Except.ok ((), { db with taskTags := db.taskTags ++ [(taskID, tagID)] })

/-- Go `mapTask` (lines 316-340). -/
def mapTask (task : TaskRow) (tags : List TagRow) : Task :=
  { ID := task.ID
    ParentTaskID := task.ParentTaskID
    Title := task.Title
    Description := task.Description
    Status := task.Status
    Priority := task.Priority
    DueAt := task.DueAt
    CreatedAt := task.CreatedAt
    UpdatedAt := task.UpdatedAt
    Tags := tags.map (fun tag => ⟨tag.ID, tag.Name, tag.CreatedAt⟩) }

/-- Go `Store.GetTaskWithTags` (lines 148-160). -/
def Store.GetTaskWithTags (taskID : Int) (c : Conn) : Except DBError Task × Conn :=
  match c.query (dbGetTask taskID) with
  | (Except.error err, c1) => (Except.error err, c1)
  | (Except.ok row, c1) =>
    match c1.query (dbListTagsForTask taskID) with
    | (Except.error err, c2) => (Except.error err, c2)
    | (Except.ok tags, c2) => (Except.ok (mapTask row tags), c2)

/-- The loop of `Store.SetTaskTags` (lines 212-220) over the normalised names. -/
def Store.assignTags (lower : Char → Char) (taskID : Int) :
    List String → Conn → Except DBError Unit × Conn
  | [], c => (Except.ok (), c)
  | name :: rest, c =>
    match c.query (dbCreateTag lower name) with
    | (Except.error err, c1) => (Except.error err, c1)
    | (Except.ok tag, c1) =>
      match c1.query (dbAssignTagToTask taskID tag.ID) with
      | (Except.error err, c2) => (Except.error err, c2)
      | (Except.ok _, c2) => Store.assignTags lower taskID rest c2

/-- Go `Store.SetTaskTags` (lines 207-223). -/
def Store.SetTaskTags (lower : Char → Char) (taskID : Int) (tagNames : List String) (c : Conn) :
    Except DBError Unit × Conn :=
  match c.query (dbClearTagsForTask taskID) with
  | (Except.error err, c1) => (Except.error err, c1)
  | (Except.ok _, c1) => Store.assignTags lower taskID (normalizeTags lower tagNames) c1

/-- Go `Store.CreateTask` (lines 35-78). The conversions to `sql.NullTime` and
`sql.NullInt64` keep an optional value as it is. -/
def Store.CreateTask (lower : Char → Char) (input : TaskInput) (c : Conn) :
    Except DBError Task × Conn :=
  let status := normalizeStatus lower input.Status
  match c.query (dbCreateTask input.Title input.Description status input.Priority input.DueAt
      input.ParentTaskID) with
  | (Except.error err, c1) => (Except.error err, c1)
  | (Except.ok created, c1) =>
    match Store.SetTaskTags lower created.ID input.Tags c1 with
    | (Except.error err, c2) => (Except.error err, c2)
    | (Except.ok _, c2) =>
      match Store.GetTaskWithTags created.ID c2 with
      | (Except.error err, c3) => (Except.error err, c3)
      | (Except.ok createdTask, c3) =>
        match c3.query (dbAddHistory created.ID "created" (formatCreatedDetails createdTask)) with
        | (Except.error err, c4) => (Except.error err, c4)
        | (Except.ok _, c4) => (Except.ok createdTask, c4)

/-- Go `Store.UpdateTask` (lines 80-129). -/
def Store.UpdateTask (lower : Char → Char) (taskID : Int) (input : TaskInput) (c : Conn) :
    Except DBError Task × Conn :=
  match Store.GetTaskWithTags taskID c with
  | (Except.error err, c0) => (Except.error err, c0)
  | (Except.ok before, c0) =>
    let status := normalizeStatus lower input.Status
    match c0.query (dbUpdateTask input.Title input.Description status input.Priority input.DueAt
        input.ParentTaskID taskID) with
    | (Except.error err, c1) => (Except.error err, c1)
    | (Except.ok updated, c1) =>
      match Store.SetTaskTags lower updated.ID input.Tags c1 with
      | (Except.error err, c2) => (Except.error err, c2)
      | (Except.ok _, c2) =>
        match Store.GetTaskWithTags updated.ID c2 with
        | (Except.error err, c3) => (Except.error err, c3)
        | (Except.ok after, c3) =>
          match c3.query (dbAddHistory updated.ID "updated" (formatTaskDiff before after)) with
          | (Except.error err, c4) => (Except.error err, c4)
          | (Except.ok _, c4) => (Except.ok after, c4)

/-- Go `Store.DeleteTask` (lines 131-146). -/
def Store.DeleteTask (taskID : Int) (c : Conn) : Except DBError Unit × Conn :=
  match Store.GetTaskWithTags taskID c with
  | (Except.error err, c0) => (Except.error err, c0)
  | (Except.ok before, c0) =>
    match c0.query (dbAddHistory taskID "deleted" (formatDeletedDetails before)) with
    | (Except.error err, c1) => (Except.error err, c1)
    | (Except.ok _, c1) => c1.query (dbDeleteTask taskID)

/-- Go `Store.ListHistory` (lines 242-259). -/
def Store.ListHistory (taskID : Int) (c : Conn) : Except DBError (List HistoryEntry) × Conn :=
  match c.query (dbListHistoryByTask taskID) with
  | (Except.error err, c1) => (Except.error err, c1)
  | (Except.ok rows, c1) =>
    (Except.ok (rows.map (fun row =>
      ⟨row.ID, row.TaskID, row.EventType, row.Details, row.CreatedAt⟩)), c1)

/-- An empty database whose ids start at 1. -/
def emptyDB : DB := ⟨[], [], [], [], 1, 1, 1, none, false⟩

/-- The input of the test `TestCreateTaskPersistsTagsAndHistory`. -/
def sampleInput : TaskInput :=
  ⟨"Write tests", "Add coverage", "ToDo", 2, none, none, ["Work", "Home"]⟩

/-- The tag that `CreateTag` returns and the database it leaves. -/
def getOrCreateTag (lower : Char → Char) (name : String) (db : DB) : TagRow × DB :=
  match db.tags.find? (fun t => toLower lower t.Name == toLower lower name) with
  | some tag => (tag, db)
  | none =>
    (⟨db.nextTagID, name, db.now⟩,
      { db with tags := db.tags ++ [⟨db.nextTagID, name, db.now⟩],
                nextTagID := db.nextTagID + 1 })

/-- The database after `AssignTagToTask`. -/
def linkTag (taskID tagID : Int) (db : DB) : DB :=
  if (taskID, tagID) ∈ db.taskTags then db
  else { db with taskTags := db.taskTags ++ [(taskID, tagID)] }

/-- The database after `ClearTagsForTask`. -/
def clearLinks (taskID : Int) (db : DB) : DB :=
  { db with taskTags := db.taskTags.filter (fun l => l.1 != taskID) }

/-- The database after the loop of `SetTaskTags` when no query fails. -/
def assignTagsDB (lower : Char → Char) (taskID : Int) : List String → DB → DB
  | [], db => db
  | name :: rest, db =>
    assignTagsDB lower taskID rest
      (linkTag taskID (getOrCreateTag lower name db).1.ID (getOrCreateTag lower name db).2)

/-- The database after `SetTaskTags` when no query fails. -/
def setTagsDB (lower : Char → Char) (taskID : Int) (tagNames : List String) (db : DB) : DB :=
  assignTagsDB lower taskID (normalizeTags lower tagNames) (clearLinks taskID db)

/-- The tags linked to a task, as `ListTagsForTask` returns them. -/
def linkedTags (taskID : Int) (db : DB) : List TagRow :=
  db.tags.filter (fun t => (taskID, t.ID) ∈ db.taskTags)

/-- The ids of the tag relation are distinct and below the next id, and so are
the tag ids of the links. -/
def DB.tagsOk (db : DB) : Prop :=
  (db.tags.map (fun t => t.ID)).Nodup ∧ (∀ t ∈ db.tags, t.ID < db.nextTagID) ∧
  (∀ l ∈ db.taskTags, l.2 < db.nextTagID)

/-- The history rows belong to ids that have been given out. -/
def DB.historyOk (db : DB) : Prop :=
  ∀ h ∈ db.history, h.TaskID < db.nextTaskID

/-- The part of the database that `SetTaskTags` does not touch. -/
def DB.core (db : DB) : List TaskRow × List HistoryRow × Int × Int × Option Time × Bool :=
  (db.tasks, db.history, db.nextTaskID, db.nextHistoryID, db.now, db.historyCascade)

/-- The task that `CreateTask` returns for `sampleInput` on the empty store. -/
def sampleCreated : Task :=
  { ID := 1, ParentTaskID := none, Title := "Write tests", Description := "Add coverage",
    Status := "todo", Priority := 2, DueAt := none, CreatedAt := none, UpdatedAt := none,
    Tags := [⟨1, "Work", none⟩, ⟨2, "Home", none⟩] }

instance DB.decTagsOk (db : DB) : Decidable db.tagsOk := by
  unfold DB.tagsOk
  infer_instance

instance DB.decHistoryOk (db : DB) : Decidable db.historyOk := by
  unfold DB.historyOk
  infer_instance

/-- The store after `CreateTask` of `sampleInput` on the empty store. -/
def createdDB : DB := (Store.CreateTask Char.toLower sampleInput ⟨emptyDB, []⟩).2.db

/-- An update of the task of `createdDB`. -/
def sampleUpdate : TaskInput :=
  ⟨"Write more tests", "Add coverage", " Doing ", 3, none, none, ["home", "urgent"]⟩

/-- The task that `UpdateTask` returns for `sampleUpdate` on `createdDB`. -/
def sampleUpdated : Task :=
  { ID := 1, ParentTaskID := none, Title := "Write more tests", Description := "Add coverage",
    Status := "doing", Priority := 3, DueAt := none, CreatedAt := none, UpdatedAt := none,
    Tags := [⟨2, "Home", none⟩, ⟨3, "urgent", none⟩] }

/-- The inputs of the test `TestNestedTasksKeepChildrenOnDelete`. -/
def sampleParent : TaskInput := ⟨"Parent", "", "", 0, none, none, []⟩

/-- The child of the test: its parent is the task 1. -/
def sampleChild : TaskInput := ⟨"Child", "", "", 0, none, some 1, []⟩

/-- The store of the test after the parent and the child are created. -/
def familyDB : DB :=
  (Store.CreateTask Char.toLower sampleChild
    ⟨(Store.CreateTask Char.toLower sampleParent ⟨emptyDB, []⟩).2.db, []⟩).2.db

/-- The child of `familyDB` as `GetTaskWithTags` reads it. -/
def sampleChildTask : Task :=
  { ID := 2, ParentTaskID := some 1, Title := "Child", Description := "",
    Status := "todo", Priority := 0, DueAt := none, CreatedAt := none, UpdatedAt := none,
    Tags := [] }

/-- A database with another tag relation and next tag id. -/
def DB.withTags (s : DB) (tags : List TagRow) (next : Int) : DB :=
  { s with tags := tags, nextTagID := next }

/-! ## `buildTaskRows` (`internal/web/web.go`) -/

/-- Go `web.taskRow` (lines 29-32). -/
structure web.taskRow where
  Task : Task
  IndentPx : Nat
  deriving DecidableEq

/-- Lines 103-110 of `web.go`: the recursive closure `walk` of `buildTaskRows`,
with the same fuel argument as `walk`: one unit per nested call, `none` when
it is used up. -/
def web.walk (childrenByParent : IntMap (List Task)) :
    Nat → Int → Nat → WalkState → Option WalkState
  | 0, _, _, _ => none
  | fuel + 1, parentID, depth, st =>
    (childrenOf childrenByParent parentID).foldlM
      (fun st task =>
        let st1 : WalkState :=
          ⟨st.visible ++ [task], st.depthByID.set task.ID depth⟩
        web.walk childrenByParent fuel task.ID (depth + 1) st1)
      st

/-- Go `web.buildTaskRows` (lines 70-119), with the nesting bound `fuel` of its
`walk`. The maps are built by the same statements as in
`buildVisibleTaskTree`; `IndentPx` is `depthByID[task.ID] * 20`, where a
missing key reads as `0`. -/
def web.buildTaskRows (fuel : Nat) (tasks : List Task) : Option (List web.taskRow) :=
  if tasks.length = 0 then some []
  else
    let indexByID := buildIndexByID tasks
    let existsByID := buildExistsByID tasks
    let childrenByParent := sortChildren indexByID (groupChildren existsByID tasks)
    match web.walk childrenByParent fuel 0 0 ⟨[], []⟩ with
    | none => none
    | some st =>
      some (st.visible.map (fun task => ⟨task, (st.depthByID.get task.ID).getD 0 * 20⟩))

/-- The rows that a result of `buildVisibleTaskTree` stands for: its visible
tasks in order, each with 20 times the depth recorded for its id. -/
def rowsOfTree (r : TreeResult) : List web.taskRow :=
  r.visible.map (fun task => ⟨task, (r.depthByID.get task.ID).getD 0 * 20⟩)

/-- A task whose id is 0 and that has no parent. -/
def zeroRoot : Task := ⟨0, none, "Z", "", "todo", 0, none, none, none, []⟩

/-- Two tasks that are each other's parent. -/
def cycleTasks : List Task :=
  [⟨1, some 2, "A", "", "todo", 0, none, none, none, []⟩,
   ⟨2, some 1, "B", "", "todo", 0, none, none, none, []⟩]

/-- A task that is its own parent. -/
def selfParentTasks : List Task := [⟨1, some 1, "A", "", "todo", 0, none, none, none, []⟩]

/-- A root, and below it nothing; beside it a cycle of two tasks and a task
that hangs below the cycle. -/
def mixedTasks : List Task :=
  [⟨1, none, "R", "", "todo", 0, none, none, none, []⟩,
   ⟨2, some 3, "A", "", "todo", 0, none, none, none, []⟩,
   ⟨3, some 2, "B", "", "todo", 0, none, none, none, []⟩,
   ⟨4, some 2, "C", "", "todo", 0, none, none, none, []⟩,
   ⟨5, some 1, "D", "", "todo", 0, none, none, none, []⟩]

/-- The chain of effective parents of a task ends at a root: following the
grouping keys from its id leads to the root key `0`. -/
def ReachesRoot (tasks : List Task) (t : Task) : Prop :=
  ∃ k : Nat, (parId tasks)^[k] t.ID = 0

/-- A task lies on a parent cycle (`m = 0`) or hangs below one: `m` steps along
the grouping keys lead to an id, not the root key, to which `k > 0` further
steps lead back. -/
def OnCycle (tasks : List Task) (t : Task) : Prop :=
  ∃ m k : Nat, 0 < k ∧ (parId tasks)^[m] t.ID ≠ 0 ∧
    (parId tasks)^[k] ((parId tasks)^[m] t.ID) = (parId tasks)^[m] t.ID

/-- The effective-parent relation has no cycle: no task is led back to itself
by one or more steps along the grouping keys. -/
def NoCycle (tasks : List Task) : Prop :=
  ∀ t ∈ tasks, ∀ k : Nat, 0 < k → (parId tasks)^[k] t.ID ≠ t.ID

/-- The task A of the chain example with a space after its title and a
description of one space. -/
def sampleAPadded : Task := { sampleA with Title := "A ", Description := " " }

/-! ## Status toggles (`internal/tui/form.go`, `internal/tui/tui.go`) -/

/-- Go `strings.Split(value, ",")` on the code points of the value: the pieces
between the commas; a value without a comma is the one piece (the empty
value gives one empty piece). -/
def splitOnComma : List Char → List (List Char)
  | [] => [[]]
  | c :: cs =>
    if c = ',' then [] :: splitOnComma cs
    else
      match splitOnComma cs with
      | [] => [[c]]
      | piece :: rest => (c :: piece) :: rest

/-- Go `parseTags` (form.go lines 100-111): the trimmed pieces that are not
empty. -/
def parseTags (value : String) : List String :=
  ((splitOnComma value.data).map (fun part => trimSpace ⟨part⟩)).filter (fun t => t ≠ "")

/-- Go `joinTags` (form.go lines 113-119): the tag names joined with commas. -/
def joinTags (tags : List Tag) : String :=
  String.intercalate "," (tags.map (fun tag => tag.Name))

/-- Go `taskInputFromTask` (form.go lines 121-130). The literal sets six of
the seven fields of `TaskInput`; `ParentTaskID` is not among them, so it is
the nil pointer. -/
def taskInputFromTask (task : Task) : TaskInput :=
  { Title := task.Title
    Description := task.Description
    Status := task.Status
    Priority := task.Priority
    DueAt := task.DueAt
    ParentTaskID := none
    Tags := parseTags (joinTags task.Tags) }

/-- Go `UI.toggleDoing` (tui.go lines 1655-1675). The arguments are what the
method reads of the UI: whether an input is active and the selected task
(`none` for nil). The result is the status line (`none` for the empty one,
the error of `UpdateTask` otherwise) and the connection; the reload
`loadTasks` that follows a successful update only reads and is left out. -/
def UI.toggleDoing (lower : Char → Char) (inputActive : Bool) (selected : Option Task)
    (c : Conn) : Option DBError × Conn :=
  if inputActive then (none, c)
  else
    match selected with
    | none => (none, c)
    | some selected =>
      let input := taskInputFromTask selected
      let input := if selected.Status = "doing" then { input with Status := "todo" }
        else { input with Status := "doing" }
      match Store.UpdateTask lower selected.ID input c with
      | (Except.error err, c1) => (some err, c1)
      | (Except.ok _, c1) => (none, c1)

/-- Go `UI.toggleDone` (tui.go lines 1677-1697), as `UI.toggleDoing`. -/
def UI.toggleDone (lower : Char → Char) (inputActive : Bool) (selected : Option Task)
    (c : Conn) : Option DBError × Conn :=
  if inputActive then (none, c)
  else
    match selected with
    | none => (none, c)
    | some selected =>
      let input := taskInputFromTask selected
      let input := if selected.Status = "done" then { input with Status := "todo" }
        else { input with Status := "done" }
      match Store.UpdateTask lower selected.ID input c with
      | (Except.error err, c1) => (some err, c1)
      | (Except.ok _, c1) => (none, c1)

/-- Go `UI.toggleEventually` (tui.go lines 1699-1719), as `UI.toggleDoing`. -/
def UI.toggleEventually (lower : Char → Char) (inputActive : Bool) (selected : Option Task)
    (c : Conn) : Option DBError × Conn :=
  if inputActive then (none, c)
  else
    match selected with
    | none => (none, c)
    | some selected =>
      let input := taskInputFromTask selected
      let input := if selected.Status = "eventually" then { input with Status := "todo" }
        else { input with Status := "eventually" }
      match Store.UpdateTask lower selected.ID input c with
      | (Except.error err, c1) => (some err, c1)
      | (Except.ok _, c1) => (none, c1)

/-- The input that a toggle to `target` hands to `UpdateTask`. -/
def toggleInput (target : String) (selected : Task) : TaskInput :=
  if selected.Status = target then { taskInputFromTask selected with Status := "todo" }
  else { taskInputFromTask selected with Status := target }

/-- The task of the test `TestToggleTaskStates`. -/
def toggleTaskInput : TaskInput := ⟨"Toggle status", "", "todo", 1, none, none, []⟩

/-- The store of the test `TestToggleTaskStates`. -/
def toggleDB : DB := (Store.CreateTask Char.toLower toggleTaskInput ⟨emptyDB, []⟩).2.db

/-- The task of `toggleDB` as `GetTaskWithTags` reads it. -/
def toggleTask : Task :=
  { ID := 1, ParentTaskID := none, Title := "Toggle status", Description := "",
    Status := "todo", Priority := 1, DueAt := none, CreatedAt := none, UpdatedAt := none,
    Tags := [] }

/-! ## `ListTasks` (`internal/db/store.go`, lines 162-205) -/

/-- Go `model.Filter`, over the representation `σ` of Go strings: `String` for
strings of valid UTF-8, as everywhere in the store, and `GoString` for all
strings. The two bounds are pointers in Go: `none` is nil. `Tags` is a slice:
`none` is the nil slice and `some []` an empty slice that is not nil. -/
structure Filter (σ : Type) where
  Query : σ
  Status : σ
  Tags : Option (List σ)
  DueBefore : Option Time
  DueAfter : Option Time
  deriving DecidableEq

/-- The elements of a Go slice; the nil slice has none (`len` is 0 and a
`range` over it does nothing). -/
def sliceItems {α : Type} (s : Option (List α)) : List α :=
  match s with
  | none => []
  | some l => l

/-- The order of two times of one location: by date, then by time of day. -/
def Time.le (a b : Time) : Bool :=
  decide (a.year < b.year) ||
  (decide (a.year = b.year) &&
    (decide (a.month < b.month) ||
      (decide (a.month = b.month) &&
        (decide (a.day < b.day) ||
          (decide (a.day = b.day) && decide (a.nanoOfDay ≤ b.nanoOfDay))))))

/-- Modelled from the spec: free-text substring matching over title and
description (an empty query matches every row). -/
def matchesQuery (query : String) (row : TaskRow) : Bool :=
  decide (query.data <:+: row.Title.data) || decide (query.data <:+: row.Description.data)

/-- Modelled from the spec: exact status match when a status is given. -/
def matchesStatus (status : String) (row : TaskRow) : Bool :=
  decide (status = "") || decide (row.Status = status)

/-- Modelled from the spec: inclusive due-date bounds; a row without a due
date matches no bound that is given. -/
def matchesDue (dueBefore dueAfter : Option Time) (row : TaskRow) : Bool :=
  (match dueBefore with
    | none => true
    | some b => match row.DueAt with
      | none => false
      | some d => Time.le d b) &&
  (match dueAfter with
    | none => true
    | some a => match row.DueAt with
      | none => false
      | some d => Time.le a d)

/-- Modelled from the spec: the query `ListTasks` with the parameters `Query`,
`Status`, `DueBefore` and `DueAfter`: the rows that match all four, in the
order of the relation. -/
def dbListTasks (query status : String) (dueBefore dueAfter : Option Time) (db : DB) :
    Except DBError (List TaskRow × DB) :=
  Except.ok (db.tasks.filter (fun row =>
    matchesQuery query row && matchesStatus status row && matchesDue dueBefore dueAfter row), db)

/-- Modelled from the spec: the query `ListTasksByTags` with the parameters
`Tags` and `Query`: the rows that match the query and are linked to at least
one of the tags (names compared without case), in the order of the
relation. -/
def dbListTasksByTags (lower : Char → Char) (tags : List String) (query : String) (db : DB) :
    Except DBError (List TaskRow × DB) :=
  Except.ok (db.tasks.filter (fun row =>
    matchesQuery query row &&
    (db.tags.any (fun t =>
      decide ((row.ID, t.ID) ∈ db.taskTags) &&
      decide (toLower lower t.Name ∈ tags.map (toLower lower))))), db)

/-- The loop of `Store.ListTasks` (lines 193-201): the tags of every row are
read and the row is mapped. -/
def Store.mapRows : List TaskRow → Conn → Except DBError (List Task) × Conn
  | [], c => (Except.ok [], c)
  | row :: rest, c =>
    match c.query (dbListTagsForTask row.ID) with
    | (Except.error err, c1) => (Except.error err, c1)
    | (Except.ok tags, c1) =>
      match Store.mapRows rest c1 with
      | (Except.error err, c2) => (Except.error err, c2)
      | (Except.ok result, c2) => (Except.ok (mapTask row tags :: result), c2)

/-- Go `Store.ListTasks` (lines 162-205). With a non-empty tag list the call is
`ListTasksByTags` with the parameters `Tags` and `Query` only. -/
def Store.ListTasks (lower : Char → Char) (filter : Filter String) (c : Conn) :
    Except DBError (List Task) × Conn :=
  let query := trimSpace filter.Query
  let status := trimSpace filter.Status
  match (if (sliceItems filter.Tags).length > 0
      then c.query (dbListTasksByTags lower (sliceItems filter.Tags) query)
      else c.query (dbListTasks query status filter.DueBefore filter.DueAfter)) with
  | (Except.error err, c1) => (Except.error err, c1)
  | (Except.ok rows, c1) => Store.mapRows rows c1

/-- Whether a task satisfies all conditions of a filter, as the specification
states them for `ListTasks`. -/
def satisfiesFilter (lower : Char → Char) (filter : Filter String) (task : Task) : Bool :=
  (decide ((trimSpace filter.Query).data <:+: task.Title.data) ||
    decide ((trimSpace filter.Query).data <:+: task.Description.data)) &&
  (decide (trimSpace filter.Status = "") || decide (task.Status = trimSpace filter.Status)) &&
  (decide (sliceItems filter.Tags = []) ||
    task.Tags.any (fun t =>
      decide (toLower lower t.Name ∈ (sliceItems filter.Tags).map (toLower lower)))) &&
  (match filter.DueBefore with
    | none => true
    | some b => match task.DueAt with
      | none => false
      | some d => Time.le d b) &&
  (match filter.DueAfter with
    | none => true
    | some a => match task.DueAt with
      | none => false
      | some d => Time.le a d)

/-- A filter with a tag and a status: the tasks tagged `Work` that are done. -/
def doneWorkFilter : Filter String := ⟨"", "done", some ["Work"], none, none⟩

/-! ## `encoding/json` on a `Filter` (Go library) and saved views
(`internal/db/store.go`, lines 261-354) -/

/-- The digits of the Go constant `hex = "0123456789abcdef"`. -/
def hexChar (n : Nat) : Char :=
  if n < 10 then Char.ofNat (48 + n) else Char.ofNat (87 + n)

/-- The table `htmlSafeSet` of `encoding/json` on a code point below 128: the
characters from the space on, without the double quote, `&`, `<`, `>` and the
backslash. -/
def htmlSafe (n : Nat) : Bool :=
  decide (0x20 ≤ n) && decide (n ≠ 0x22) && decide (n ≠ 0x26) && decide (n ≠ 0x3C) &&
    decide (n ≠ 0x3E) && decide (n ≠ 0x5C)

/-- What `appendString` of `encoding/json` (with HTML escaping, as
`json.Marshal` has it) writes for one code point: the character itself when
it is safe; a backslash before the double quote and the backslash; the short
escapes of backspace, form feed, newline, carriage return and tab; `\u00XX`
for the other characters below 128; the escapes `\u2028` and `\u2029` for
these two code points; every other character as it is. -/
def jsonEscape (c : Char) : List Char :=
  if c.toNat < 0x80 then
    if htmlSafe c.toNat then [c]
    else if c.toNat = 0x5C ∨ c.toNat = 0x22 then [Char.ofNat 0x5C, c]
    else if c.toNat = 0x08 then [Char.ofNat 0x5C, 'b']
    else if c.toNat = 0x0C then [Char.ofNat 0x5C, 'f']
    else if c.toNat = 0x0A then [Char.ofNat 0x5C, 'n']
    else if c.toNat = 0x0D then [Char.ofNat 0x5C, 'r']
    else if c.toNat = 0x09 then [Char.ofNat 0x5C, 't']
    else [Char.ofNat 0x5C, 'u', '0', '0', hexChar (c.toNat / 16), hexChar (c.toNat % 16)]
  else if c.toNat = 0x2028 ∨ c.toNat = 0x2029 then
    [Char.ofNat 0x5C, 'u', '2', '0', '2', hexChar (c.toNat % 16)]
  else [c]

/-- One step of reading a Go string, which is a sequence of bytes, with
`utf8.DecodeRuneInString`: the code point that is encoded at the position, or
a byte that begins no encoding of a code point (the decoder reports
`RuneError` with width 1 for it). -/
inductive GoRune where
  | rune (c : Char)
  | bad (b : Nat)
  deriving DecidableEq

/-- A Go string in general: the sequence of its decoding steps, which gives
back its bytes. A string of valid UTF-8, which is what a Lean `String` holds,
has code points only. Not every sequence is that of a string (bytes that
together encode a code point are read as the code point); the sequences of
code points are, and so is the one byte 0xFF, which occurs in no encoding. -/
abbrev GoString := List GoRune

/-- The Go string with the code points of a Lean string. -/
def GoString.ofString (s : String) : GoString :=
  s.data.map GoRune.rune

/-- Go `utf8.ValidString`: no step of the string is an invalid byte. -/
def GoString.validUTF8 (s : GoString) : Bool :=
  s.all (fun r => match r with
    | GoRune.rune _ => true
    | GoRune.bad _ => false)

/-- The code points of a Go string, an invalid byte left out. -/
def GoString.text (s : GoString) : String :=
  ⟨s.filterMap (fun r => match r with
    | GoRune.rune c => some c
    | GoRune.bad _ => none)⟩

/-- What `appendString` of `encoding/json` writes for one step of the string:
a code point as `jsonEscape` has it, and the six characters `\ufffd` for an
invalid byte. -/
def jsonRune (r : GoRune) : List Char :=
  match r with
  | GoRune.rune c => jsonEscape c
  | GoRune.bad _ => [Char.ofNat 0x5C, 'u', 'f', 'f', 'f', 'd']

/-- A string as `json.Marshal` writes it: what is written for its steps,
between double quotes. -/
def jsonString (s : GoString) : List Char :=
  Char.ofNat 0x22 :: (s.flatMap jsonRune ++ [Char.ofNat 0x22])

/-- The key of a field as `json.Marshal` writes it. -/
def jsonKey (name : String) : List Char :=
  jsonString (GoString.ofString name)

/-- The elements of a JSON array of strings, separated by commas. -/
def jsonStrings : List GoString → List Char
  | [] => []
  | s :: rest =>
    match rest with
    | [] => jsonString s
    | _ :: _ => jsonString s ++ ',' :: jsonStrings rest

/-- A `[]string` as `json.Marshal` writes it: `null` for the nil slice, `[]`
for an empty slice that is not nil, an array of strings otherwise. -/
def jsonTags (tags : Option (List GoString)) : List Char :=
  match tags with
  | none => ['n', 'u', 'l', 'l']
  | some l => Char.ofNat 0x5B :: (jsonStrings l ++ [Char.ofNat 0x5D])

/-- The number of days of a month (`daysIn` of the package `time`). -/
def daysIn (year : Int) (month : Nat) : Nat :=
  if month = 2 then
    if year % 4 = 0 ∧ (year % 100 ≠ 0 ∨ year % 400 = 0) then 29 else 28
  else if month = 4 ∨ month = 6 ∨ month = 9 ∨ month = 11 then 30
  else 31

/-- A value of `Time` is a time of the clock: its day exists in its month and
its time of day is below 24 hours, as for every Go `time.Time`. -/
def Time.valid (t : Time) : Prop :=
  t.day ≤ daysIn t.year t.month ∧ t.nanoOfDay < 86400000000000

instance Time.decValid (t : Time) : Decidable t.valid := by
  unfold Time.valid
  infer_instance

/-- The fraction of a second in the layout `RFC3339Nano` (`appendNano` of the
package `time`): nothing for zero, otherwise a dot and the nine digits of the
nanoseconds without the zeros at the end. -/
def jsonFraction (ns : Nat) : List Char :=
  if ns = 0 then [] else '.' :: (appendInt (ns : Int) 9).rdropWhile (fun c => c == '0')

/-- Go `Time.MarshalJSON` for a time in UTC: the layout `RFC3339Nano` between
double quotes, that is date, `T`, time of day, fraction and `Z`. The zone of
a time is not part of `Time`; the times that `parseDue` and
`filterFromRequest` build are in UTC. The call fails (`none`) for a year
outside of 0..9999. -/
def jsonTime (t : Time) : Option (List Char) :=
  if 0 ≤ t.year ∧ t.year ≤ 9999 then
    some (Char.ofNat 0x22 :: ((formatDate t).data ++ 'T' ::
      (appendInt ((t.nanoOfDay / 1000000000 / 3600 : Nat) : Int) 2 ++ ':' ::
      (appendInt ((t.nanoOfDay / 1000000000 % 3600 / 60 : Nat) : Int) 2 ++ ':' ::
      (appendInt ((t.nanoOfDay / 1000000000 % 60 : Nat) : Int) 2 ++
      (jsonFraction (t.nanoOfDay % 1000000000) ++ ['Z', Char.ofNat 0x22]))))))
  else none

/-- An optional bound as `json.Marshal` writes it: `null` for the nil pointer,
the time otherwise. -/
def jsonBound (b : Option Time) : Option (List Char) :=
  match b with
  | none => some ['n', 'u', 'l', 'l']
  | some t => jsonTime t

/-- Go `json.Marshal` on a `model.Filter`: an object with the keys of the
struct tags (`query`, `status`, `tags`, `due_before`, `due_after`) in the
order of the fields, without white space. It fails (`none`) when a bound
cannot be written. -/
def jsonMarshal (f : Filter GoString) : Option String :=
  match jsonBound f.DueBefore, jsonBound f.DueAfter with
  | some b, some a =>
    some ⟨Char.ofNat 0x7B :: (jsonKey "query" ++ ':' :: (jsonString f.Query ++ ',' ::
      (jsonKey "status" ++ ':' :: (jsonString f.Status ++ ',' ::
      (jsonKey "tags" ++ ':' :: (jsonTags f.Tags ++ ',' ::
      (jsonKey "due_before" ++ ':' :: (b ++ ',' ::
      (jsonKey "due_after" ++ ':' :: (a ++ [Char.ofNat 0x7D]))))))))))⟩
  | _, _ => none

/-- Whether the strings of a filter are valid UTF-8. -/
def Filter.validUTF8 (f : Filter GoString) : Bool :=
  GoString.validUTF8 f.Query && GoString.validUTF8 f.Status &&
    (sliceItems f.Tags).all GoString.validUTF8

/-- The task A of the chain example with the one tag `none`. -/
def sampleANone : Task := { sampleA with Tags := [⟨1, "none", none⟩] }

/-- The task A of the chain example with the one tag `a,b`. -/
def sampleAJoined : Task := { sampleA with Tags := [⟨3, "a,b", none⟩] }

/-- The task A of the chain example with the two tags `a` and `b`. -/
def sampleASplit : Task := { sampleA with Tags := sampleTagsAB }

theorem IntMap.get_nil {α : Type} (k : Int) : IntMap.get ([] : IntMap α) k = none := rfl

theorem IntMap.get_set {α : Type} (m : IntMap α) (k : Int) (v : α) (j : Int) :
    IntMap.get (IntMap.set m k v) j = if j = k then some v else IntMap.get m j := by
  induction m with
  | nil =>
    by_cases h : j = k
    · simp [IntMap.set, IntMap.get, h]
    · have h2 : ¬ k = j := fun e => h e.symm
      simp [IntMap.set, IntMap.get, h, h2]
  | cons e rest ih =>
    by_cases hek : e.1 = k
    · by_cases h : j = k
      · simp [IntMap.set, IntMap.get, hek, h]
      · have h2 : ¬ k = j := fun e => h e.symm
        simp [IntMap.set, IntMap.get, hek, h, h2]
    · by_cases hej : e.1 = j
      · have h : ¬ j = k := fun e2 => hek (hej.trans e2)
        simp [IntMap.set, IntMap.get, hek, hej, h]
      · have ih2 := ih
        simp only [IntMap.get] at ih2
        simp [IntMap.set, IntMap.get, hek, hej, ih2]

theorem IntMap.get_map {α β : Type} (m : IntMap α) (f : α → β) (k : Int) :
    IntMap.get (List.map (fun e => (e.1, f e.2)) m) k = (IntMap.get m k).map f := by
  induction m with
  | nil => rfl
  | cons e rest ih =>
    by_cases hek : e.1 = k
    · simp [IntMap.get, hek]
    · have hb : (e.1 == k) = false := beq_eq_false_iff_ne.mpr hek
      simp only [IntMap.get] at ih
      simp only [IntMap.get, List.map_cons, List.find?_cons, hb]
      exact ih

theorem IntMap.get_isSome_iff {α : Type} (m : IntMap α) (k : Int) :
    (IntMap.get m k).isSome = true ↔ ∃ e ∈ m, e.1 = k := by
  induction m with
  | nil => simp [IntMap.get]
  | cons e rest ih =>
    by_cases hek : e.1 = k
    · simp [IntMap.get, hek]
    · simp only [IntMap.get] at ih
      simp [IntMap.get, hek, ih]

theorem IntMap.get_mem {α : Type} (m : IntMap α) (k : Int) (v : α)
    (h : IntMap.get m k = some v) : (k, v) ∈ m := by
  induction m with
  | nil => simp [IntMap.get] at h
  | cons e rest ih =>
    by_cases hek : e.1 = k
    · simp [IntMap.get, hek] at h
      have : e = (k, v) := by
        cases e; simp_all
      simp [this]
    · simp only [IntMap.get] at ih
      simp [IntMap.get, hek] at h
      exact List.mem_cons_of_mem _ (ih (by simpa using h))

/-! ## The maps built before the walk -/

theorem existsByID_fold (ts : List Task) (m : IntMap Unit) (p : Int) :
    (IntMap.get (ts.foldl (fun m t => IntMap.set m t.ID ()) m) p).isSome
      = ((IntMap.get m p).isSome || hasID ts p) := by
  induction ts generalizing m with
  | nil => simp [hasID]
  | cons t ts ih =>
    rw [List.foldl_cons, ih, IntMap.get_set]
    by_cases h : p = t.ID
    · simp [hasID, h]
    · have h2 : (t.ID == p) = false := beq_eq_false_iff_ne.mpr (fun e => h e.symm)
      simp [hasID, h, h2]

theorem existsByID_get (tasks : List Task) (p : Int) :
    (IntMap.get (buildExistsByID tasks) p).isSome = hasID tasks p := by
  unfold buildExistsByID
  rw [existsByID_fold]
  simp [IntMap.get]

theorem parentKey_eq (tasks : List Task) (t : Task) :
    parentKey (buildExistsByID tasks) t = effKey tasks t := by
  unfold parentKey effKey
  cases t.ParentTaskID with
  | none => rfl
  | some p => simp only [existsByID_get]

theorem groupChildren_fold (key : Task → Int) (ts : List Task) (m : IntMap (List Task)) (k : Int) :
    IntMap.get (ts.foldl (fun m t => IntMap.set m (key t) ((IntMap.get m (key t)).getD [] ++ [t])) m) k
      = if ts.filter (fun t => key t == k) = [] then IntMap.get m k
        else some ((IntMap.get m k).getD [] ++ ts.filter (fun t => key t == k)) := by
  induction ts generalizing m with
  | nil => simp
  | cons t ts ih =>
    rw [List.foldl_cons, ih, IntMap.get_set]
    by_cases h : key t = k
    · subst h
      by_cases h2 : List.filter (fun t2 => key t2 == key t) ts = []
      · simp [h2]
      · simp [h2]
    · have h3 : ¬ k = key t := fun e => h e.symm
      simp [h, h3]

theorem groupChildren_get (tasks : List Task) (k : Int) :
    IntMap.get (groupChildren (buildExistsByID tasks) tasks) k
      = if kidsOf tasks k = [] then none else some (kidsOf tasks k) := by
  have h := groupChildren_fold (parentKey (buildExistsByID tasks)) tasks [] k
  have hk : (fun t => parentKey (buildExistsByID tasks) t == k) = (fun t => effKey tasks t == k) := by
    funext t
    rw [parentKey_eq]
  rw [hk] at h
  unfold groupChildren kidsOf
  simpa [IntMap.get] using h

theorem sortChildren_childrenOf (idx : IntMap Nat) (tasks : List Task) (k : Int) :
    childrenOf (sortChildren idx (groupChildren (buildExistsByID tasks) tasks)) k
      = (kidsOf tasks k).insertionSort
          (fun a b => indexOfID idx a.ID ≤ indexOfID idx b.ID) := by
  unfold childrenOf sortChildren
  rw [IntMap.get_map, groupChildren_get]
  by_cases h : kidsOf tasks k = []
  · simp [h]
  · simp [h]

theorem hasChildren_fold (es : IntMap (List Task)) (m : IntMap Bool) (k : Int) :
    IntMap.get (es.foldl
        (fun m e => if e.1 == 0 then m else if e.2.length > 0 then IntMap.set m e.1 true else m) m) k
      = if k ≠ 0 ∧ ∃ e ∈ es, e.1 = k ∧ e.2 ≠ [] then some true else IntMap.get m k := by
  induction es generalizing m with
  | nil => simp
  | cons e es ih =>
    rw [List.foldl_cons, ih]
    by_cases h1 : k ≠ 0 ∧ ∃ e2 ∈ es, e2.1 = k ∧ e2.2 ≠ []
    · have h2 : k ≠ 0 ∧ ∃ e2 ∈ e :: es, e2.1 = k ∧ e2.2 ≠ [] := by
        obtain ⟨hk, e2, he2, hh⟩ := h1
        exact ⟨hk, e2, List.mem_cons_of_mem _ he2, hh⟩
      rw [if_pos h1, if_pos h2]
    · rw [if_neg h1]
      by_cases h0 : e.1 = 0
      · have h2 : ¬ (k ≠ 0 ∧ ∃ e2 ∈ e :: es, e2.1 = k ∧ e2.2 ≠ []) := by
          rintro ⟨hk, e2, he2, hh⟩
          rcases List.mem_cons.mp he2 with rfl | hmem
          · exact hk (hh.1 ▸ h0)
          · exact h1 ⟨hk, e2, hmem, hh⟩
        rw [if_neg h2]
        simp [h0]
      · have hb : (e.1 == 0) = false := beq_eq_false_iff_ne.mpr h0
        by_cases hl : e.2 = []
        · have h2 : ¬ (k ≠ 0 ∧ ∃ e2 ∈ e :: es, e2.1 = k ∧ e2.2 ≠ []) := by
            rintro ⟨hk, e2, he2, hh⟩
            rcases List.mem_cons.mp he2 with rfl | hmem
            · exact hh.2 hl
            · exact h1 ⟨hk, e2, hmem, hh⟩
          rw [if_neg h2]
          simp [hb, hl]
        · have hpos : e.2.length > 0 := List.length_pos.mpr hl
          by_cases hek : k = e.1
          · have h2 : k ≠ 0 ∧ ∃ e2 ∈ e :: es, e2.1 = k ∧ e2.2 ≠ [] :=
              ⟨hek ▸ h0, e, List.mem_cons_self _ _, hek.symm, hl⟩
            rw [if_pos h2]
            simp [hb, hpos, IntMap.get_set, hek]
          · have h2 : ¬ (k ≠ 0 ∧ ∃ e2 ∈ e :: es, e2.1 = k ∧ e2.2 ≠ []) := by
              rintro ⟨hk, e2, he2, hh⟩
              rcases List.mem_cons.mp he2 with rfl | hmem
              · exact hek hh.1.symm
              · exact h1 ⟨hk, e2, hmem, hh⟩
            rw [if_neg h2]
            simp [hb, hpos, IntMap.get_set, hek]

theorem insertionSort_ne_nil {α : Type} (r : α → α → Prop) [DecidableRel r] (l : List α) :
    l.insertionSort r ≠ [] ↔ l ≠ [] := by
  rw [Ne, Ne, ← List.length_eq_zero, ← List.length_eq_zero (l := l), List.length_insertionSort]

theorem hasChildren_get (idx : IntMap Nat) (tasks : List Task) (k : Int) :
    IntMap.get
        (buildHasChildren (sortChildren idx (groupChildren (buildExistsByID tasks) tasks))) k
      = if hasKids tasks k then some true else none := by
  unfold buildHasChildren
  rw [hasChildren_fold]
  have key : (k ≠ 0 ∧ ∃ e ∈ sortChildren idx (groupChildren (buildExistsByID tasks) tasks),
      e.1 = k ∧ e.2 ≠ []) ↔ hasKids tasks k = true := by
    unfold hasKids
    simp only [Bool.and_eq_true, bne_iff_ne, ne_eq, Bool.not_eq_true', List.isEmpty_eq_false]
    constructor
    · rintro ⟨hk, e, he, hek, hne⟩
      refine ⟨hk, ?_⟩
      unfold sortChildren at he
      obtain ⟨e0, he0, rfl⟩ := List.mem_map.mp he
      have hs : (IntMap.get (groupChildren (buildExistsByID tasks) tasks) k).isSome = true :=
        (IntMap.get_isSome_iff _ _).mpr ⟨e0, he0, hek⟩
      rw [groupChildren_get] at hs
      by_cases hn : kidsOf tasks k = []
      · simp [hn] at hs
      · simpa using hn
    · rintro ⟨hk, hne⟩
      refine ⟨hk, ?_⟩
      have hg := groupChildren_get tasks k
      have hne2 : kidsOf tasks k ≠ [] := by simpa using hne
      rw [if_neg hne2] at hg
      have hm := IntMap.get_mem _ _ _ hg
      refine ⟨(k, (kidsOf tasks k).insertionSort
          (fun a b => indexOfID idx a.ID ≤ indexOfID idx b.ID)), ?_, rfl, ?_⟩
      · unfold sortChildren
        exact List.mem_map.mpr ⟨(k, kidsOf tasks k), hm, rfl⟩
      · exact (insertionSort_ne_nil _ _).mpr hne2
  by_cases h : hasKids tasks k = true
  · rw [if_pos (key.mpr h), if_pos h]
  · rw [if_neg (fun hh => h (key.mp hh)), if_neg h]
    rfl

/-! ## The walk as a list of emissions -/

theorem applyEmits_nil (st : WalkState) : applyEmits st [] = st := by
  cases st; simp [applyEmits]

theorem applyEmits_append (st : WalkState) (a b : List (Task × Nat)) :
    applyEmits st (a ++ b) = applyEmits (applyEmits st a) b := by
  simp [applyEmits, List.foldl_append]

theorem applyEmits_cons (st : WalkState) (c : Task) (d : Nat) (l : List (Task × Nat)) :
    applyEmits st ((c, d) :: l)
      = applyEmits ⟨st.visible ++ [c], IntMap.set st.depthByID c.ID d⟩ l := by
  simp [applyEmits]

theorem walk_blocks (cbp : IntMap (List Task)) (hc : IntMap Bool) (collapsed : Option (IntMap Bool))
    (fuel : Nat) (d : Nat)
    (ih : ∀ (p : Int) (d : Nat) (st : WalkState), walk cbp hc collapsed fuel p d st
      = (walkList (childrenOf cbp) (isCollapsed hc collapsed) fuel p d).map (applyEmits st))
    (cs : List Task) (st : WalkState) :
    cs.foldlM
        (fun st task =>
          let st1 : WalkState := ⟨st.visible ++ [task], IntMap.set st.depthByID task.ID d⟩
          if isCollapsed hc collapsed task.ID then some st1
          else walk cbp hc collapsed fuel task.ID (d + 1) st1)
        st
      = (emitBlocks
          (fun c => if isCollapsed hc collapsed c.ID then some []
            else walkList (childrenOf cbp) (isCollapsed hc collapsed) fuel c.ID (d + 1))
          d cs).map (applyEmits st) := by
  induction cs generalizing st with
  | nil => simp [emitBlocks, applyEmits_nil]
  | cons c cs ihc =>
    rw [List.foldlM_cons]
    simp only [emitBlocks]
    by_cases hcoll : isCollapsed hc collapsed c.ID = true
    · simp only [hcoll, if_true]
      simp only [Option.bind_eq_bind, Option.some_bind]
      refine (ihc _).trans ?_
      cases hr : emitBlocks
          (fun c => if isCollapsed hc collapsed c.ID then some []
            else walkList (childrenOf cbp) (isCollapsed hc collapsed) fuel c.ID (d + 1)) d cs with
      | none => simp
      | some r => simp [applyEmits_cons]
    · simp only [hcoll]
      rw [ih]
      cases hs : walkList (childrenOf cbp) (isCollapsed hc collapsed) fuel c.ID (d + 1) with
      | none =>
        simp only [Option.map_none']
        rfl
      | some s =>
        simp only [Option.map_some']
        simp only [Option.bind_eq_bind, Option.some_bind]
        refine (ihc _).trans ?_
        cases hr : emitBlocks
            (fun c => if isCollapsed hc collapsed c.ID then some []
              else walkList (childrenOf cbp) (isCollapsed hc collapsed) fuel c.ID (d + 1)) d cs with
        | none => simp
        | some r =>
          simp only [Option.map_some', Bool.false_eq_true, if_false]
          rw [show (c, d) :: s ++ r = (c, d) :: (s ++ r) from rfl, applyEmits_cons,
            applyEmits_append]

theorem walk_eq (cbp : IntMap (List Task)) (hc : IntMap Bool) (collapsed : Option (IntMap Bool))
    (fuel : Nat) (p : Int) (d : Nat) (st : WalkState) :
    walk cbp hc collapsed fuel p d st
      = (walkList (childrenOf cbp) (isCollapsed hc collapsed) fuel p d).map (applyEmits st) := by
  induction fuel generalizing p d st with
  | zero => simp [walk, walkList]
  | succ fuel ih =>
    rw [walk, walkList]
    exact walk_blocks cbp hc collapsed fuel d ih _ st

theorem build_eq (fuel : Nat) (tasks : List Task) (collapsed : Option (IntMap Bool))
    (hne : tasks ≠ []) :
    buildVisibleTaskTree fuel tasks collapsed
      = (walkList (sortedKids tasks) (collOf tasks collapsed) fuel 0 0).map
          (fun l => ⟨l.map Prod.fst, l.foldl (fun m e => IntMap.set m e.1.ID e.2) [],
            hasChildrenMap tasks⟩) := by
  have hlen : ¬ tasks.length = 0 := fun h => hne (List.length_eq_zero.mp h)
  have hk : childrenOf (sortChildren (buildIndexByID tasks)
      (groupChildren (buildExistsByID tasks) tasks)) = sortedKids tasks := by
    funext k
    rw [sortChildren_childrenOf]
    rfl
  have hcl : isCollapsed (buildHasChildren (sortChildren (buildIndexByID tasks)
      (groupChildren (buildExistsByID tasks) tasks))) collapsed = collOf tasks collapsed := by
    funext id
    unfold isCollapsed collOf
    rw [hasChildren_get]
    by_cases h : hasKids tasks id = true
    · simp [h]
    · simp [h]
  unfold buildVisibleTaskTree
  simp only [hlen, if_false]
  rw [walk_eq, hk, hcl]
  cases walkList (sortedKids tasks) (collOf tasks collapsed) fuel 0 0 with
  | none => rfl
  | some l => simp [applyEmits, hasChildrenMap]

theorem indexByID_fold (ts : List Task) (n : Nat) (m : IntMap Nat) (id : Int)
    (hnd : (idsOf ts).Nodup) :
    IntMap.get ((ts.enumFrom n).foldl (fun m it => IntMap.set m it.2.ID it.1) m) id
      = if id ∈ idsOf ts then some (n + (idsOf ts).indexOf id) else IntMap.get m id := by
  induction ts generalizing n m with
  | nil => simp [idsOf]
  | cons t ts ih =>
    have hnd2 : (idsOf ts).Nodup := (List.nodup_cons.mp hnd).2
    have hnot : t.ID ∉ idsOf ts := (List.nodup_cons.mp hnd).1
    rw [List.enumFrom_cons, List.foldl_cons, ih _ _ hnd2, IntMap.get_set]
    by_cases h1 : id ∈ idsOf ts
    · have hne : t.ID ≠ id := fun e => hnot (e ▸ h1)
      have h2 : id ∈ idsOf (t :: ts) := List.mem_cons_of_mem _ h1
      rw [if_pos h1, if_pos h2]
      simp only [idsOf, List.map_cons]
      rw [List.indexOf_cons_ne _ hne]
      simp only [idsOf] at *
      congr 1
      omega
    · rw [if_neg h1]
      by_cases h3 : id = t.ID
      · subst h3
        simp [idsOf]
      · have h4 : id ∉ idsOf (t :: ts) := by
          simp only [idsOf, List.map_cons, List.mem_cons, not_or]
          exact ⟨h3, h1⟩
        rw [if_neg h3, if_neg h4]

theorem indexOfID_eq (tasks : List Task) (hnd : (idsOf tasks).Nodup) (i : Nat)
    (hi : i < tasks.length) :
    indexOfID (buildIndexByID tasks) (tasks.get ⟨i, hi⟩).ID = i := by
  unfold indexOfID buildIndexByID List.enum
  rw [indexByID_fold _ _ _ _ hnd]
  have hm : (tasks.get ⟨i, hi⟩).ID ∈ idsOf tasks :=
    List.mem_map.mpr ⟨_, List.get_mem _ _ _, rfl⟩
  rw [if_pos hm]
  have hi2 : i < (idsOf tasks).length := by simpa [idsOf] using hi
  have h := List.indexOf_getElem hnd i hi2
  have he : (idsOf tasks)[i] = (tasks.get ⟨i, hi⟩).ID := by simp [idsOf]
  rw [he] at h
  rw [h]
  simp

theorem sortedKids_eq (tasks : List Task) (hnd : (idsOf tasks).Nodup) (k : Int) :
    sortedKids tasks k = kidsOf tasks k := by
  unfold sortedKids
  apply List.Sorted.insertionSort_eq
  have hp : List.Pairwise
      (fun a b => indexOfID (buildIndexByID tasks) a.ID ≤ indexOfID (buildIndexByID tasks) b.ID)
      tasks := by
    rw [List.pairwise_iff_getElem]
    intro i j hi hj hij
    have h1 := indexOfID_eq tasks hnd i hi
    have h2 := indexOfID_eq tasks hnd j hj
    simp only [List.get_eq_getElem] at h1 h2
    rw [h1, h2]
    omega
  exact hp.sublist (List.filter_sublist _)

theorem depth_get_not_mem (l : List (Task × Nat)) (m : IntMap Nat) (id : Int)
    (h : ∀ e ∈ l, e.1.ID ≠ id) :
    IntMap.get (l.foldl (fun m e => IntMap.set m e.1.ID e.2) m) id = IntMap.get m id := by
  induction l generalizing m with
  | nil => rfl
  | cons e l ih =>
    rw [List.foldl_cons, ih _ (fun e2 he2 => h e2 (List.mem_cons_of_mem _ he2)), IntMap.get_set]
    have hne : id ≠ e.1.ID := fun x => h e (List.mem_cons_self _ _) x.symm
    rw [if_neg hne]

theorem depth_get_mem (l : List (Task × Nat)) (m : IntMap Nat)
    (hnd : (l.map (fun e => e.1.ID)).Nodup) (u : Task) (d : Nat) (h : (u, d) ∈ l) :
    IntMap.get (l.foldl (fun m e => IntMap.set m e.1.ID e.2) m) u.ID = some d := by
  induction l generalizing m with
  | nil => simp at h
  | cons e l ih =>
    rw [List.map_cons, List.nodup_cons] at hnd
    rw [List.foldl_cons]
    rcases List.mem_cons.mp h with he | hl
    · subst he
      rw [depth_get_not_mem, IntMap.get_set]
      · simp
      · intro e2 he2 heq
        exact hnd.1 (List.mem_map.mpr ⟨e2, he2, heq⟩)
    · exact ih _ hnd.2 hl

theorem walkList_succ (kids : Int → List Task) (coll : Int → Bool) (fuel : Nat) (p : Int) (d : Nat) :
    walkList kids coll (fuel + 1) p d = emitBlocks (subWalk kids coll fuel d) d (kids p) := rfl

theorem emitBlocks_cons_some (sub : Task → Option (List (Task × Nat))) (d : Nat) (c : Task)
    (cs : List Task) (l : List (Task × Nat)) (h : emitBlocks sub d (c :: cs) = some l) :
    ∃ s r, sub c = some s ∧ emitBlocks sub d cs = some r ∧ l = (c, d) :: (s ++ r) := by
  simp only [emitBlocks] at h
  cases hs : sub c with
  | none => simp [hs] at h
  | some s =>
    cases hr : emitBlocks sub d cs with
    | none => simp [hs, hr] at h
    | some r =>
      simp only [hs, hr, Option.some.injEq] at h
      exact ⟨s, r, rfl, rfl, h.symm⟩

/-- Induction over the calls of the walk: a property `P` of the walks and a
property `Pb` of the groups hold as soon as they are kept by every step. -/
theorem walkList_induct (kids : Int → List Task) (coll : Int → Bool)
    (P : Int → Nat → List (Task × Nat) → Prop)
    (Pb : Int → List Task → Nat → List (Task × Nat) → Prop)
    (hnil : ∀ p d, Pb p [] d [])
    (hcoll : ∀ fuel p c cs d r, (c :: cs) <:+ kids p → coll c.ID = true →
      emitBlocks (subWalk kids coll fuel d) d cs = some r →
      Pb p cs d r → Pb p (c :: cs) d ((c, d) :: r))
    (hopen : ∀ fuel p c cs d s r, (c :: cs) <:+ kids p → coll c.ID = false →
      walkList kids coll fuel c.ID (d + 1) = some s →
      emitBlocks (subWalk kids coll fuel d) d cs = some r →
      P c.ID (d + 1) s → Pb p cs d r → Pb p (c :: cs) d ((c, d) :: (s ++ r)))
    (hwalk : ∀ p d l, Pb p (kids p) d l → P p d l) :
    (∀ fuel p d l, walkList kids coll fuel p d = some l → P p d l) ∧
    (∀ fuel p d cs r, cs <:+ kids p →
      emitBlocks (subWalk kids coll fuel d) d cs = some r → Pb p cs d r) := by
  have step : ∀ fuel, (∀ p d l, walkList kids coll fuel p d = some l → P p d l) →
      ∀ p d cs r, cs <:+ kids p →
        emitBlocks (subWalk kids coll fuel d) d cs = some r → Pb p cs d r := by
    intro fuel ih p d cs
    induction cs with
    | nil =>
      intro r _ h
      simp only [emitBlocks, Option.some.injEq] at h
      subst h
      exact hnil p d
    | cons c cs ihc =>
      intro l hsuf h
      obtain ⟨s, r, hs, hr, rfl⟩ := emitBlocks_cons_some _ _ _ _ _ h
      have hsuf2 : cs <:+ kids p := (List.suffix_cons c cs).trans hsuf
      have hpb := ihc r hsuf2 hr
      by_cases hc : coll c.ID = true
      · simp only [subWalk, hc, if_true, Option.some.injEq] at hs
        subst hs
        exact hcoll fuel p c cs d r hsuf hc hr hpb
      · have hc2 : coll c.ID = false := by simpa using hc
        simp only [subWalk, hc2, Bool.false_eq_true, if_false] at hs
        exact hopen fuel p c cs d s r hsuf hc2 hs hr (ih _ _ _ hs) hpb
  have main : ∀ fuel p d l, walkList kids coll fuel p d = some l → P p d l := by
    intro fuel
    induction fuel with
    | zero =>
      intro p d l h
      simp [walkList] at h
    | succ fuel ih =>
      intro p d l h
      rw [walkList_succ] at h
      exact hwalk p d l (step fuel ih p d (kids p) l (List.suffix_refl _) h)
  exact ⟨main, fun fuel => step fuel (main fuel)⟩

/-! ## Grouping keys, ranks and descendants -/

theorem hasID_iff (tasks : List Task) (id : Int) :
    hasID tasks id = true ↔ ∃ t ∈ tasks, t.ID = id := by
  simp [hasID]

theorem mem_kidsOf (tasks : List Task) (p : Int) (c : Task) :
    c ∈ kidsOf tasks p ↔ c ∈ tasks ∧ effKey tasks c = p := by
  simp [kidsOf]

theorem ids_inj (tasks : List Task) (hnd : (idsOf tasks).Nodup) (a b : Task)
    (ha : a ∈ tasks) (hb : b ∈ tasks) (h : a.ID = b.ID) : a = b :=
  List.inj_on_of_nodup_map hnd ha hb h

theorem tasks_nodup (tasks : List Task) (hnd : (idsOf tasks).Nodup) : tasks.Nodup :=
  List.Nodup.of_map _ hnd

theorem kidsOf_nodup (tasks : List Task) (hnd : (idsOf tasks).Nodup) (p : Int) :
    (kidsOf tasks p).Nodup :=
  (tasks_nodup tasks hnd).sublist (List.filter_sublist _)

theorem parId_of_mem (tasks : List Task) (hnd : (idsOf tasks).Nodup) (t : Task)
    (ht : t ∈ tasks) : parId tasks t.ID = effKey tasks t := by
  unfold parId
  cases hf : tasks.find? (fun x => x.ID == t.ID) with
  | none =>
    have := List.find?_eq_none.mp hf t ht
    simp at this
  | some x =>
    have hx : x ∈ tasks := List.mem_of_find?_eq_some hf
    have hid : x.ID = t.ID := by
      have := List.find?_some hf
      simpa using this
    rw [ids_inj tasks hnd x t hx ht hid]

theorem parId_not_mem (tasks : List Task) (id : Int) (h : hasID tasks id = false) :
    parId tasks id = 0 := by
  unfold parId
  cases hf : tasks.find? (fun x => x.ID == id) with
  | none => rfl
  | some x =>
    have hx : x ∈ tasks := List.mem_of_find?_eq_some hf
    have hid : x.ID = id := by
      have := List.find?_some hf
      simpa using this
    have : hasID tasks id = true := (hasID_iff _ _).mpr ⟨x, hx, hid⟩
    rw [h] at this
    cases this

theorem parId_zero (tasks : List Task) (hz : ∀ t ∈ tasks, t.ID ≠ 0) : parId tasks 0 = 0 := by
  apply parId_not_mem
  cases h : hasID tasks 0 with
  | false => rfl
  | true =>
    obtain ⟨t, ht, h0⟩ := (hasID_iff _ _).mp h
    exact absurd h0 (hz t ht)

theorem parId_iter_zero (tasks : List Task) (hz : ∀ t ∈ tasks, t.ID ≠ 0) (k : Nat) :
    (parId tasks)^[k] 0 = 0 := by
  induction k with
  | zero => rfl
  | succ k ih => rw [Function.iterate_succ_apply, parId_zero tasks hz, ih]

theorem Rank.unique (tasks : List Task) (id : Int) (r s : Nat)
    (hr : Rank tasks id r) (hs : Rank tasks id s) : r = s := by
  rcases Nat.lt_trichotomy r s with h | h | h
  · exact absurd hr.1 (hs.2 r h)
  · exact h
  · exact absurd hs.1 (hr.2 s h)

theorem Rank.root (tasks : List Task) : Rank tasks 0 0 :=
  ⟨rfl, fun k hk => absurd hk (Nat.not_lt_zero k)⟩

theorem Rank.child (tasks : List Task) (hwf : WellFormed tasks) (p : Int) (d : Nat)
    (hp : Rank tasks p d) (c : Task) (hc : c ∈ kidsOf tasks p) : Rank tasks c.ID (d + 1) := by
  obtain ⟨hct, hkey⟩ := (mem_kidsOf _ _ _).mp hc
  have hpar : parId tasks c.ID = p := by rw [parId_of_mem tasks hwf.1 c hct, hkey]
  constructor
  · rw [Function.iterate_succ_apply, hpar]
    exact hp.1
  · intro k hk
    cases k with
    | zero => exact hwf.2 c hct
    | succ k =>
      rw [Function.iterate_succ_apply, hpar]
      exact hp.2 k (by omega)

/-- A descendant of a task of rank `r` that lies `m + 1` steps below it has rank
`m + 1 + r`. -/
theorem Rank.below (tasks : List Task) (hwf : WellFormed tasks) (x tid : Int) (m r : Nat)
    (htid : tid ≠ 0) (hm : (parId tasks)^[m] x = tid) (hr : Rank tasks tid r) :
    Rank tasks x (r + m) := by
  constructor
  · rw [Function.iterate_add_apply, hm]
    exact hr.1
  · intro k hk h0
    by_cases hkm : k < m
    · have : (parId tasks)^[m] x = 0 := by
        have hsplit : m = (m - k) + k := by omega
        rw [hsplit, Function.iterate_add_apply, h0, parId_iter_zero tasks hwf.2]
      exact htid (hm ▸ this)
    · have hsplit : k = (k - m) + m := by omega
      rw [hsplit, Function.iterate_add_apply, hm] at h0
      exact hr.2 (k - m) (by omega) h0

/-! ## What the walk emits -/

theorem walk_rank (tasks : List Task) (hwf : WellFormed tasks) (coll : Int → Bool) :
    (∀ fuel p d l, walkList (kidsOf tasks) coll fuel p d = some l →
      Rank tasks p d → ∀ u e, (u, e) ∈ l → u ∈ tasks ∧ Rank tasks u.ID (e + 1)) ∧
    (∀ fuel p d cs r, cs <:+ kidsOf tasks p →
      emitBlocks (subWalk (kidsOf tasks) coll fuel d) d cs = some r →
      Rank tasks p d → ∀ u e, (u, e) ∈ r → u ∈ tasks ∧ Rank tasks u.ID (e + 1)) := by
  apply walkList_induct (kidsOf tasks) coll
    (fun p d l => Rank tasks p d → ∀ u e, (u, e) ∈ l → u ∈ tasks ∧ Rank tasks u.ID (e + 1))
    (fun p _ d r => Rank tasks p d → ∀ u e, (u, e) ∈ r → u ∈ tasks ∧ Rank tasks u.ID (e + 1))
  · intro p d _ u e h
    simp at h
  · intro fuel p c cs d r hsuf _ _ ih hp u e h
    have hc : c ∈ kidsOf tasks p := hsuf.subset (List.mem_cons_self _ _)
    rcases List.mem_cons.mp h with heq | hr
    · obtain ⟨rfl, rfl⟩ := Prod.mk.inj heq
      exact ⟨((mem_kidsOf _ _ _).mp hc).1, Rank.child tasks hwf p _ hp _ hc⟩
    · exact ih hp u e hr
  · intro fuel p c cs d s r hsuf _ _ _ ihs ih hp u e h
    have hc : c ∈ kidsOf tasks p := hsuf.subset (List.mem_cons_self _ _)
    rcases List.mem_cons.mp h with heq | hr
    · obtain ⟨rfl, rfl⟩ := Prod.mk.inj heq
      exact ⟨((mem_kidsOf _ _ _).mp hc).1, Rank.child tasks hwf p _ hp _ hc⟩
    · rcases List.mem_append.mp hr with h1 | h2
      · exact ihs (Rank.child tasks hwf p d hp c hc) u e h1
      · exact ih hp u e h2
  · intro p d l h
    exact h

/-- Every emission of a walk lies under a task of the group it started from:
`j` steps along the grouping keys lead from the emitted task to that task,
where `j` is the depth of the emission relative to the group. -/
theorem walk_top (tasks : List Task) (hnd : (idsOf tasks).Nodup) (coll : Int → Bool) :
    (∀ fuel p d l, walkList (kidsOf tasks) coll fuel p d = some l →
      ∀ u e, (u, e) ∈ l →
        ∃ j, e = d + j ∧ ∃ c ∈ kidsOf tasks p, (parId tasks)^[j] u.ID = c.ID) ∧
    (∀ fuel p d cs r, cs <:+ kidsOf tasks p →
      emitBlocks (subWalk (kidsOf tasks) coll fuel d) d cs = some r →
      ∀ u e, (u, e) ∈ r → ∃ j, e = d + j ∧ ∃ c ∈ cs, (parId tasks)^[j] u.ID = c.ID) := by
  apply walkList_induct (kidsOf tasks) coll
    (fun p d l => ∀ u e, (u, e) ∈ l →
        ∃ j, e = d + j ∧ ∃ c ∈ kidsOf tasks p, (parId tasks)^[j] u.ID = c.ID)
    (fun _ cs d r => ∀ u e, (u, e) ∈ r →
        ∃ j, e = d + j ∧ ∃ c ∈ cs, (parId tasks)^[j] u.ID = c.ID)
  · intro p d u e h
    simp at h
  · intro fuel p c cs d r _ _ _ ih u e h
    rcases List.mem_cons.mp h with heq | hr
    · obtain ⟨rfl, rfl⟩ := Prod.mk.inj heq
      exact ⟨0, rfl, u, List.mem_cons_self _ _, rfl⟩
    · obtain ⟨j, hj, c2, hc2, hit⟩ := ih u e hr
      exact ⟨j, hj, c2, List.mem_cons_of_mem _ hc2, hit⟩
  · intro fuel p c cs d s r _ _ _ _ ihs ih u e h
    rcases List.mem_cons.mp h with heq | hr
    · obtain ⟨rfl, rfl⟩ := Prod.mk.inj heq
      exact ⟨0, rfl, u, List.mem_cons_self _ _, rfl⟩
    · rcases List.mem_append.mp hr with h1 | h2
      · obtain ⟨j, hj, c2, hc2, hit⟩ := ihs u e h1
        obtain ⟨hc2t, hkey⟩ := (mem_kidsOf _ _ _).mp hc2
        refine ⟨j + 1, by omega, c, List.mem_cons_self _ _, ?_⟩
        rw [Function.iterate_succ_apply', hit, parId_of_mem tasks hnd c2 hc2t, hkey]
      · obtain ⟨j, hj, c2, hc2, hit⟩ := ih u e h2
        exact ⟨j, hj, c2, List.mem_cons_of_mem _ hc2, hit⟩
  · intro p d l h
    exact h

theorem suffix_head_not_mem (tasks : List Task) (hnd : (idsOf tasks).Nodup) (p : Int)
    (c : Task) (cs : List Task) (hsuf : (c :: cs) <:+ kidsOf tasks p) : c ∉ cs :=
  (List.nodup_cons.mp ((kidsOf_nodup tasks hnd p).sublist hsuf.sublist)).1

theorem suffix_mem_tasks (tasks : List Task) (p : Int) (cs : List Task)
    (hsuf : cs <:+ kidsOf tasks p) (c : Task) (hc : c ∈ cs) : c ∈ tasks :=
  ((mem_kidsOf _ _ _).mp (hsuf.subset hc)).1

/-- The emissions of the later tasks of a group do not lie under an earlier
task `c` of the group. -/
theorem blocks_not_under (tasks : List Task) (hwf : WellFormed tasks) (coll : Int → Bool)
    (fuel : Nat) (p : Int) (d : Nat) (c : Task) (cs : List Task) (r : List (Task × Nat))
    (hsuf : (c :: cs) <:+ kidsOf tasks p)
    (hr : emitBlocks (subWalk (kidsOf tasks) coll fuel d) d cs = some r)
    (u : Task) (e : Nat) (hu : (u, e) ∈ r) (j : Nat) (hj : e = d + j) :
    (parId tasks)^[j] u.ID ≠ c.ID := by
  intro hcontra
  have hsuf2 : cs <:+ kidsOf tasks p := (List.suffix_cons c cs).trans hsuf
  obtain ⟨j2, hj2, c2, hc2, hit⟩ := (walk_top tasks hwf.1 coll).2 fuel p d cs r hsuf2 hr u e hu
  have hjj : j2 = j := by omega
  subst hjj
  have hcc : c2 = c :=
    ids_inj tasks hwf.1 c2 c (suffix_mem_tasks tasks p cs hsuf2 c2 hc2)
      (suffix_mem_tasks tasks p (c :: cs) hsuf c (List.mem_cons_self _ _))
      (hit.symm.trans hcontra)
  exact suffix_head_not_mem tasks hwf.1 p c cs hsuf (hcc ▸ hc2)

theorem walk_nodup (tasks : List Task) (hwf : WellFormed tasks) (coll : Int → Bool) :
    (∀ fuel p d l, walkList (kidsOf tasks) coll fuel p d = some l →
      Rank tasks p d → (l.map (fun e => e.1.ID)).Nodup) ∧
    (∀ fuel p d cs r, cs <:+ kidsOf tasks p →
      emitBlocks (subWalk (kidsOf tasks) coll fuel d) d cs = some r →
      Rank tasks p d → (r.map (fun e => e.1.ID)).Nodup) := by
  apply walkList_induct (kidsOf tasks) coll
    (fun p d l => Rank tasks p d → (l.map (fun e => e.1.ID)).Nodup)
    (fun p _ d r => Rank tasks p d → (r.map (fun e => e.1.ID)).Nodup)
  · intro p d _
    simp
  · intro fuel p c cs d r hsuf _ hr ih hp
    have hsuf2 : cs <:+ kidsOf tasks p := (List.suffix_cons c cs).trans hsuf
    have hc : c ∈ kidsOf tasks p := hsuf.subset (List.mem_cons_self _ _)
    rw [List.map_cons, List.nodup_cons]
    refine ⟨?_, ih hp⟩
    intro hmem
    obtain ⟨⟨u, e⟩, hu, hid⟩ := List.mem_map.mp hmem
    have hru := ((walk_rank tasks hwf coll).2 fuel p d cs r hsuf2 hr hp u e hu).2
    have hrc := Rank.child tasks hwf p d hp c hc
    simp only at hid
    rw [hid] at hru
    have he : e + 1 = d + 1 := Rank.unique tasks _ _ _ hru hrc
    exact blocks_not_under tasks hwf coll fuel p d c cs r hsuf hr u e hu 0 (by omega) hid
  · intro fuel p c cs d s r hsuf _ hs hr ihs ih hp
    have hsuf2 : cs <:+ kidsOf tasks p := (List.suffix_cons c cs).trans hsuf
    have hc : c ∈ kidsOf tasks p := hsuf.subset (List.mem_cons_self _ _)
    have hrc := Rank.child tasks hwf p d hp c hc
    have hpar : parId tasks c.ID = p := by
      rw [parId_of_mem tasks hwf.1 c ((mem_kidsOf _ _ _).mp hc).1, ((mem_kidsOf _ _ _).mp hc).2]
    rw [List.map_cons, List.nodup_cons, List.map_append, List.nodup_append]
    refine ⟨?_, ihs hrc, ih hp, ?_⟩
    · intro hmem
      rcases List.mem_append.mp hmem with h1 | h2
      · obtain ⟨⟨u, e⟩, hu, hid⟩ := List.mem_map.mp h1
        have hru := ((walk_rank tasks hwf coll).1 fuel c.ID (d + 1) s hs hrc u e hu).2
        obtain ⟨j, hj, _⟩ := (walk_top tasks hwf.1 coll).1 fuel c.ID (d + 1) s hs u e hu
        simp only at hid
        rw [hid] at hru
        have he : e + 1 = d + 1 := Rank.unique tasks _ _ _ hru hrc
        omega
      · obtain ⟨⟨u, e⟩, hu, hid⟩ := List.mem_map.mp h2
        have hru := ((walk_rank tasks hwf coll).2 fuel p d cs r hsuf2 hr hp u e hu).2
        simp only at hid
        rw [hid] at hru
        have he : e + 1 = d + 1 := Rank.unique tasks _ _ _ hru hrc
        exact blocks_not_under tasks hwf coll fuel p d c cs r hsuf hr u e hu 0 (by omega) hid
    · intro id h1 h2
      obtain ⟨⟨u, e⟩, hu, hid⟩ := List.mem_map.mp h1
      obtain ⟨⟨u2, e2⟩, hu2, hid2⟩ := List.mem_map.mp h2
      simp only at hid hid2
      have hru := ((walk_rank tasks hwf coll).1 fuel c.ID (d + 1) s hs hrc u e hu).2
      have hru2 := ((walk_rank tasks hwf coll).2 fuel p d cs r hsuf2 hr hp u2 e2 hu2).2
      rw [hid] at hru
      rw [hid2] at hru2
      have he : e + 1 = e2 + 1 := Rank.unique tasks _ _ _ hru hru2
      obtain ⟨j, hj, c2, hc2, hit⟩ := (walk_top tasks hwf.1 coll).1 fuel c.ID (d + 1) s hs u e hu
      have hit2 : (parId tasks)^[j + 1] u2.ID = c.ID := by
        rw [Function.iterate_succ_apply', hid2, ← hid, hit,
          parId_of_mem tasks hwf.1 c2 ((mem_kidsOf _ _ _).mp hc2).1, ((mem_kidsOf _ _ _).mp hc2).2]
      exact blocks_not_under tasks hwf coll fuel p d c cs r hsuf hr u2 e2 hu2 (j + 1) (by omega) hit2
  · intro p d l h
    exact h

/-! ## The walk returns -/

theorem effKey_zero_or_hasID (tasks : List Task) (t : Task) :
    effKey tasks t = 0 ∨ hasID tasks (effKey tasks t) = true := by
  unfold effKey
  cases t.ParentTaskID with
  | none => exact Or.inl rfl
  | some p =>
    by_cases h : hasID tasks p = true
    · simp [h]
    · simp [h]

theorem parId_zero_or_hasID (tasks : List Task) (id : Int) :
    parId tasks id = 0 ∨ hasID tasks (parId tasks id) = true := by
  unfold parId
  cases tasks.find? (fun t => t.ID == id) with
  | none => exact Or.inl rfl
  | some t => exact effKey_zero_or_hasID tasks t

theorem Rank.le_length (tasks : List Task) (p : Int) (d : Nat)
    (hp : Rank tasks p d) (hid : hasID tasks p = true) : d ≤ tasks.length := by
  have hsub : (List.range d).map (fun k => (parId tasks)^[k] p) ⊆ idsOf tasks := by
    intro x hx
    obtain ⟨k, hk, rfl⟩ := List.mem_map.mp hx
    have hkd : k < d := List.mem_range.mp hk
    have hmem : hasID tasks ((parId tasks)^[k] p) = true := by
      cases k with
      | zero => exact hid
      | succ k =>
        rw [Function.iterate_succ_apply']
        rcases parId_zero_or_hasID tasks ((parId tasks)^[k] p) with h0 | h1
        · exact absurd (by rw [Function.iterate_succ_apply', h0]) (hp.2 (k + 1) hkd)
        · exact h1
    obtain ⟨t, ht, hte⟩ := (hasID_iff _ _).mp hmem
    exact List.mem_map.mpr ⟨t, ht, hte⟩
  have hinj : ∀ a b, a < b → b < d → (parId tasks)^[a] p ≠ (parId tasks)^[b] p := by
    intro a b hab hbd heq
    have h0 : (parId tasks)^[(d - b) + a] p = 0 := by
      rw [Function.iterate_add_apply, heq, ← Function.iterate_add_apply]
      have : d - b + b = d := by omega
      rw [this]
      exact hp.1
    exact hp.2 _ (by omega) h0
  have hnd : ((List.range d).map (fun k => (parId tasks)^[k] p)).Nodup := by
    rw [List.nodup_map_iff_inj_on (List.nodup_range d)]
    intro a ha b hb heq
    have ha2 := List.mem_range.mp ha
    have hb2 := List.mem_range.mp hb
    rcases Nat.lt_trichotomy a b with h | h | h
    · exact absurd heq (hinj a b h hb2)
    · exact h
    · exact absurd heq.symm (hinj b a h ha2)
  have hle := (hnd.subperm hsub).length_le
  simpa [idsOf] using hle

theorem emitBlocks_isSome (sub : Task → Option (List (Task × Nat))) (d : Nat) (cs : List Task)
    (h : ∀ c ∈ cs, ∃ s, sub c = some s) : ∃ r, emitBlocks sub d cs = some r := by
  induction cs with
  | nil => exact ⟨[], rfl⟩
  | cons c cs ih =>
    obtain ⟨s, hs⟩ := h c (List.mem_cons_self _ _)
    obtain ⟨r, hr⟩ := ih (fun c2 hc2 => h c2 (List.mem_cons_of_mem _ hc2))
    exact ⟨(c, d) :: s ++ r, by simp [emitBlocks, hs, hr]⟩

theorem walk_returns_aux (tasks : List Task) (hwf : WellFormed tasks) (coll : Int → Bool)
    (fuel : Nat) : ∀ (p : Int) (d : Nat), Rank tasks p d → (p = 0 ∨ hasID tasks p = true) →
      tasks.length + 1 ≤ fuel + d → ∃ l, walkList (kidsOf tasks) coll fuel p d = some l := by
  induction fuel with
  | zero =>
    intro p d hp hor hle
    exfalso
    rcases hor with h0 | hid
    · subst h0
      have := Rank.unique tasks 0 d 0 hp (Rank.root tasks)
      omega
    · have := Rank.le_length tasks p d hp hid
      omega
  | succ fuel ih =>
    intro p d hp _ hle
    rw [walkList_succ]
    apply emitBlocks_isSome
    intro c hc
    unfold subWalk
    by_cases hcl : coll c.ID = true
    · exact ⟨[], by simp [hcl]⟩
    · simp only [hcl, Bool.false_eq_true, if_false]
      have hct := ((mem_kidsOf _ _ _).mp hc).1
      exact ih c.ID (d + 1) (Rank.child tasks hwf p d hp c hc)
        (Or.inr ((hasID_iff _ _).mpr ⟨c, hct, rfl⟩)) (by omega)

theorem walk_returns (tasks : List Task) (hwf : WellFormed tasks) (coll : Int → Bool)
    (fuel : Nat) (hfuel : tasks.length < fuel) :
    ∃ l, walkList (kidsOf tasks) coll fuel 0 0 = some l :=
  walk_returns_aux tasks hwf coll fuel 0 0 (Rank.root tasks) (Or.inl rfl) (by omega)

/-- More fuel does not change what a walk returns. -/
theorem walk_mono (kids : Int → List Task) (coll : Int → Bool) (fuel : Nat) :
    ∀ (p : Int) (d : Nat) (l : List (Task × Nat)), walkList kids coll fuel p d = some l →
      ∀ n, walkList kids coll (fuel + n) p d = some l := by
  induction fuel with
  | zero =>
    intro p d l h
    simp [walkList] at h
  | succ fuel ih =>
    intro p d l h n
    have hn : fuel + 1 + n = (fuel + n) + 1 := by omega
    rw [hn, walkList_succ]
    rw [walkList_succ] at h
    have hb : ∀ (cs : List Task) (l : List (Task × Nat)),
        emitBlocks (subWalk kids coll fuel d) d cs = some l →
        emitBlocks (subWalk kids coll (fuel + n) d) d cs = some l := by
      intro cs
      induction cs with
      | nil => intro l h; exact h
      | cons c cs ihc =>
        intro l h
        obtain ⟨s, r, hs, hr, rfl⟩ := emitBlocks_cons_some _ _ _ _ _ h
        have hs2 : subWalk kids coll (fuel + n) d c = some s := by
          unfold subWalk at hs ⊢
          by_cases hcl : coll c.ID = true
          · simpa [hcl] using hs
          · simp only [hcl, Bool.false_eq_true, if_false] at hs ⊢
            exact ih _ _ _ hs n
        simp [emitBlocks, hs2, ihc r hr]
    exact hb _ _ h

/-! ## `buildVisibleTaskTree` in terms of the walk -/

/-- The result of `buildVisibleTaskTree` that belongs to a list of emissions. -/
theorem build_eq_wf (fuel : Nat) (tasks : List Task) (collapsed : Option (IntMap Bool))
    (hne : tasks ≠ []) (hnd : (idsOf tasks).Nodup) :
    buildVisibleTaskTree fuel tasks collapsed
      = (walkList (kidsOf tasks) (collOf tasks collapsed) fuel 0 0).map
          (fun l => ⟨l.map Prod.fst, l.foldl (fun m e => IntMap.set m e.1.ID e.2) [],
            hasChildrenMap tasks⟩) := by
  rw [build_eq fuel tasks collapsed hne]
  have : sortedKids tasks = kidsOf tasks := funext (sortedKids_eq tasks hnd)
  rw [this]

theorem build_mono (fuel : Nat) (tasks : List Task) (collapsed : Option (IntMap Bool))
    (r : TreeResult) (h : buildVisibleTaskTree fuel tasks collapsed = some r) (n : Nat) :
    buildVisibleTaskTree (fuel + n) tasks collapsed = some r := by
  by_cases hne : tasks = []
  · subst hne
    simpa [buildVisibleTaskTree] using h
  · rw [build_eq _ _ _ hne] at h ⊢
    cases hw : walkList (sortedKids tasks) (collOf tasks collapsed) fuel 0 0 with
    | none => simp [hw] at h
    | some l =>
      rw [walk_mono _ _ _ _ _ _ hw n]
      rw [hw] at h
      exact h

theorem hasChildrenMap_get (tasks : List Task) (k : Int) :
    IntMap.get (hasChildrenMap tasks) k = if hasKids tasks k then some true else none :=
  hasChildren_get _ tasks k

theorem sub_top (tasks : List Task) (hnd : (idsOf tasks).Nodup) (coll : Int → Bool)
    (fuel : Nat) (c : Task) (d : Nat) (s : List (Task × Nat))
    (hs : walkList (kidsOf tasks) coll fuel c.ID (d + 1) = some s)
    (x : Task) (e : Nat) (hx : (x, e) ∈ s) :
    ∃ j, e = d + (j + 1) ∧ (parId tasks)^[j + 1] x.ID = c.ID := by
  obtain ⟨j, hj, c2, hc2, hit⟩ := (walk_top tasks hnd coll).1 fuel c.ID (d + 1) s hs x e hx
  refine ⟨j, by omega, ?_⟩
  rw [Function.iterate_succ_apply', hit,
    parId_of_mem tasks hnd c2 ((mem_kidsOf _ _ _).mp hc2).1, ((mem_kidsOf _ _ _).mp hc2).2]

/-- A descendant lies deeper than its ancestor, and both lie under the same
task of the group the walk started from. -/
theorem top_of_desc (tasks : List Task) (hwf : WellFormed tasks) (x t : Task) (ex et d jx jt : Nat)
    (hrx : Rank tasks x.ID (ex + 1)) (hrt : Rank tasks t.ID (et + 1))
    (hx : ex = d + jx) (ht : et = d + jt) (htn : t.ID ≠ 0) (hdesc : Desc tasks x t) :
    et < ex ∧ (parId tasks)^[jx] x.ID = (parId tasks)^[jt] t.ID := by
  obtain ⟨m, hm⟩ := hdesc
  have hr2 := Rank.below tasks hwf x.ID t.ID (m + 1) (et + 1) htn hm hrt
  have he := Rank.unique tasks _ _ _ hrx hr2
  refine ⟨by omega, ?_⟩
  have hj : jx = jt + (m + 1) := by omega
  rw [hj, Function.iterate_add_apply, hm]

theorem walk_block (tasks : List Task) (hwf : WellFormed tasks) (coll : Int → Bool) :
    (∀ fuel p d l, walkList (kidsOf tasks) coll fuel p d = some l →
      Rank tasks p d → ∀ t e, (t, e) ∈ l →
        ∃ pre blk post, l = pre ++ (t, e) :: (blk ++ post) ∧
          (∀ x ∈ blk, Desc tasks x.1 t) ∧ (∀ x ∈ pre, ¬ Desc tasks x.1 t) ∧
          (∀ x ∈ post, ¬ Desc tasks x.1 t)) ∧
    (∀ fuel p d cs r, cs <:+ kidsOf tasks p →
      emitBlocks (subWalk (kidsOf tasks) coll fuel d) d cs = some r →
      Rank tasks p d → ∀ t e, (t, e) ∈ r →
        ∃ pre blk post, r = pre ++ (t, e) :: (blk ++ post) ∧
          (∀ x ∈ blk, Desc tasks x.1 t) ∧ (∀ x ∈ pre, ¬ Desc tasks x.1 t) ∧
          (∀ x ∈ post, ¬ Desc tasks x.1 t)) := by
  apply walkList_induct (kidsOf tasks) coll
    (fun p d l => Rank tasks p d → ∀ t e, (t, e) ∈ l →
        ∃ pre blk post, l = pre ++ (t, e) :: (blk ++ post) ∧
          (∀ x ∈ blk, Desc tasks x.1 t) ∧ (∀ x ∈ pre, ¬ Desc tasks x.1 t) ∧
          (∀ x ∈ post, ¬ Desc tasks x.1 t))
    (fun p _ d r => Rank tasks p d → ∀ t e, (t, e) ∈ r →
        ∃ pre blk post, r = pre ++ (t, e) :: (blk ++ post) ∧
          (∀ x ∈ blk, Desc tasks x.1 t) ∧ (∀ x ∈ pre, ¬ Desc tasks x.1 t) ∧
          (∀ x ∈ post, ¬ Desc tasks x.1 t))
  · intro p d _ t e h
    simp at h
  · -- a collapsed task: its block is empty
    intro fuel p c cs d r hsuf _ hr ih hp t e h
    have hsuf2 : cs <:+ kidsOf tasks p := (List.suffix_cons c cs).trans hsuf
    have hc : c ∈ kidsOf tasks p := hsuf.subset (List.mem_cons_self _ _)
    have hct : c ∈ tasks := ((mem_kidsOf _ _ _).mp hc).1
    have hrc := Rank.child tasks hwf p d hp c hc
    have under_r : ∀ x ∈ r, ¬ Desc tasks x.1 c := by
      intro x hx hdesc
      obtain ⟨jx, hjx, _⟩ := (walk_top tasks hwf.1 coll).2 fuel p d cs r hsuf2 hr x.1 x.2 hx
      have hrx := ((walk_rank tasks hwf coll).2 fuel p d cs r hsuf2 hr hp x.1 x.2 hx).2
      have := top_of_desc tasks hwf x.1 c x.2 d d jx 0 hrx hrc hjx rfl (hwf.2 c hct) hdesc
      exact blocks_not_under tasks hwf coll fuel p d c cs r hsuf hr x.1 x.2 hx jx hjx this.2
    rcases List.mem_cons.mp h with heq | hmem
    · obtain ⟨rfl, rfl⟩ := Prod.mk.inj heq
      exact ⟨[], [], r, rfl, by simp, by simp, under_r⟩
    · obtain ⟨pre, blk, post, hsplit, hblk, hpre, hpost⟩ := ih hp t e hmem
      refine ⟨(c, d) :: pre, blk, post, by rw [hsplit]; rfl, hblk, ?_, hpost⟩
      intro x hx hdesc
      rcases List.mem_cons.mp hx with hxc | hxp
      · subst hxc
        obtain ⟨jt, hjt, c2, hc2, hit⟩ :=
          (walk_top tasks hwf.1 coll).2 fuel p d cs r hsuf2 hr t e hmem
        have hrt := (walk_rank tasks hwf coll).2 fuel p d cs r hsuf2 hr hp t e hmem
        have := top_of_desc tasks hwf c t d e d 0 jt hrc hrt.2 rfl hjt (hwf.2 t hrt.1) hdesc
        omega
      · exact hpre x hxp hdesc
  · -- an open task: its block is the nested walk
    intro fuel p c cs d s r hsuf _ hs hr ihs ih hp t e h
    have hsuf2 : cs <:+ kidsOf tasks p := (List.suffix_cons c cs).trans hsuf
    have hc : c ∈ kidsOf tasks p := hsuf.subset (List.mem_cons_self _ _)
    have hct : c ∈ tasks := ((mem_kidsOf _ _ _).mp hc).1
    have hrc := Rank.child tasks hwf p d hp c hc
    have under_r : ∀ x ∈ r, ¬ Desc tasks x.1 c := by
      intro x hx hdesc
      obtain ⟨jx, hjx, _⟩ := (walk_top tasks hwf.1 coll).2 fuel p d cs r hsuf2 hr x.1 x.2 hx
      have hrx := ((walk_rank tasks hwf coll).2 fuel p d cs r hsuf2 hr hp x.1 x.2 hx).2
      have := top_of_desc tasks hwf x.1 c x.2 d d jx 0 hrx hrc hjx rfl (hwf.2 c hct) hdesc
      exact blocks_not_under tasks hwf coll fuel p d c cs r hsuf hr x.1 x.2 hx jx hjx this.2
    have in_s : ∀ x ∈ s, Desc tasks x.1 c := by
      intro x hx
      obtain ⟨j, _, hit⟩ := sub_top tasks hwf.1 coll fuel c d s hs x.1 x.2 hx
      exact ⟨j, hit⟩
    rcases List.mem_cons.mp h with heq | hmem
    · obtain ⟨rfl, rfl⟩ := Prod.mk.inj heq
      exact ⟨[], s, r, rfl, in_s, by simp, under_r⟩
    · rcases List.mem_append.mp hmem with h1 | h2
      · -- the task lies in the nested walk
        obtain ⟨pre, blk, post, hsplit, hblk, hpre, hpost⟩ := ihs hrc t e h1
        have hrt := (walk_rank tasks hwf coll).1 fuel c.ID (d + 1) s hs hrc t e h1
        obtain ⟨jt, hjt, hitt⟩ := sub_top tasks hwf.1 coll fuel c d s hs t e h1
        refine ⟨(c, d) :: pre, blk, post ++ r, ?_, hblk, ?_, ?_⟩
        · rw [hsplit]
          simp
        · intro x hx hdesc
          rcases List.mem_cons.mp hx with hxc | hxp
          · subst hxc
            have := top_of_desc tasks hwf c t d e d 0 (jt + 1) hrc hrt.2 rfl hjt
              (hwf.2 t hrt.1) hdesc
            omega
          · exact hpre x hxp hdesc
        · intro x hx hdesc
          rcases List.mem_append.mp hx with hxp | hxr
          · exact hpost x hxp hdesc
          · obtain ⟨jx, hjx, _⟩ :=
              (walk_top tasks hwf.1 coll).2 fuel p d cs r hsuf2 hr x.1 x.2 hxr
            have hrx := ((walk_rank tasks hwf coll).2 fuel p d cs r hsuf2 hr hp x.1 x.2 hxr).2
            have := top_of_desc tasks hwf x.1 t x.2 e d jx (jt + 1) hrx hrt.2 hjx hjt
              (hwf.2 t hrt.1) hdesc
            exact blocks_not_under tasks hwf coll fuel p d c cs r hsuf hr x.1 x.2 hxr jx hjx
              (this.2.trans hitt)
      · -- the task lies in a later block
        obtain ⟨pre, blk, post, hsplit, hblk, hpre, hpost⟩ := ih hp t e h2
        have hrt := (walk_rank tasks hwf coll).2 fuel p d cs r hsuf2 hr hp t e h2
        obtain ⟨jt, hjt, c2, hc2, hitt⟩ :=
          (walk_top tasks hwf.1 coll).2 fuel p d cs r hsuf2 hr t e h2
        have hne : c.ID ≠ c2.ID := by
          intro heq
          have hcc : c = c2 := ids_inj tasks hwf.1 c c2 hct
            (suffix_mem_tasks tasks p cs hsuf2 c2 hc2) heq
          exact suffix_head_not_mem tasks hwf.1 p c cs hsuf (hcc ▸ hc2)
        refine ⟨(c, d) :: (s ++ pre), blk, post, ?_, hblk, ?_, hpost⟩
        · rw [hsplit]
          simp
        · intro x hx hdesc
          rcases List.mem_cons.mp hx with hxc | hxp
          · subst hxc
            have := top_of_desc tasks hwf c t d e d 0 jt hrc hrt.2 rfl hjt (hwf.2 t hrt.1) hdesc
            omega
          · rcases List.mem_append.mp hxp with hxs | hxpre
            · have hrx := ((walk_rank tasks hwf coll).1 fuel c.ID (d + 1) s hs hrc x.1 x.2 hxs).2
              obtain ⟨jx, hjx, hitx⟩ := sub_top tasks hwf.1 coll fuel c d s hs x.1 x.2 hxs
              have := top_of_desc tasks hwf x.1 t x.2 e d (jx + 1) jt hrx hrt.2 hjx hjt
                (hwf.2 t hrt.1) hdesc
              exact hne (hitx.symm.trans (this.2.trans hitt))
            · exact hpre x hxpre hdesc
  · intro p d l h
    exact h

/-- Every emission of a walk is either a task of the group the walk started
from, at the depth of the walk, or comes after the emission of the task it is
grouped under, one level deeper. -/
theorem walk_parent (tasks : List Task) (coll : Int → Bool) :
    (∀ fuel p d l, walkList (kidsOf tasks) coll fuel p d = some l →
      ∀ u e, (u, e) ∈ l → (effKey tasks u = p ∧ e = d) ∨
        ∃ (q : Task) (e2 : Nat) (pre mid post : List (Task × Nat)), q.ID = effKey tasks u ∧ e = e2 + 1 ∧
          l = pre ++ (q, e2) :: (mid ++ (u, e) :: post)) ∧
    (∀ fuel p d cs r, cs <:+ kidsOf tasks p →
      emitBlocks (subWalk (kidsOf tasks) coll fuel d) d cs = some r →
      ∀ u e, (u, e) ∈ r → (effKey tasks u = p ∧ e = d) ∨
        ∃ (q : Task) (e2 : Nat) (pre mid post : List (Task × Nat)), q.ID = effKey tasks u ∧ e = e2 + 1 ∧
          r = pre ++ (q, e2) :: (mid ++ (u, e) :: post)) := by
  apply walkList_induct (kidsOf tasks) coll
    (fun p d l => ∀ u e, (u, e) ∈ l → (effKey tasks u = p ∧ e = d) ∨
        ∃ (q : Task) (e2 : Nat) (pre mid post : List (Task × Nat)), q.ID = effKey tasks u ∧ e = e2 + 1 ∧
          l = pre ++ (q, e2) :: (mid ++ (u, e) :: post))
    (fun p _ d r => ∀ u e, (u, e) ∈ r → (effKey tasks u = p ∧ e = d) ∨
        ∃ (q : Task) (e2 : Nat) (pre mid post : List (Task × Nat)), q.ID = effKey tasks u ∧ e = e2 + 1 ∧
          r = pre ++ (q, e2) :: (mid ++ (u, e) :: post))
  · intro p d u e h
    simp at h
  · intro fuel p c cs d r hsuf _ _ ih u e h
    have hc : c ∈ kidsOf tasks p := hsuf.subset (List.mem_cons_self _ _)
    rcases List.mem_cons.mp h with heq | hmem
    · obtain ⟨rfl, rfl⟩ := Prod.mk.inj heq
      exact Or.inl ⟨((mem_kidsOf _ _ _).mp hc).2, rfl⟩
    · rcases ih u e hmem with hl | ⟨q, e2, pre, mid, post, hq, he, hsplit⟩
      · exact Or.inl hl
      · exact Or.inr ⟨q, e2, (c, d) :: pre, mid, post, hq, he, by rw [hsplit]; rfl⟩
  · intro fuel p c cs d s r hsuf _ _ _ ihs ih u e h
    have hc : c ∈ kidsOf tasks p := hsuf.subset (List.mem_cons_self _ _)
    rcases List.mem_cons.mp h with heq | hmem
    · obtain ⟨rfl, rfl⟩ := Prod.mk.inj heq
      exact Or.inl ⟨((mem_kidsOf _ _ _).mp hc).2, rfl⟩
    · rcases List.mem_append.mp hmem with h1 | h2
      · rcases ihs u e h1 with ⟨hk, he⟩ | ⟨q, e2, pre, mid, post, hq, he, hsplit⟩
        · obtain ⟨s1, s2, hs12⟩ := List.append_of_mem h1
          refine Or.inr ⟨c, d, [], s1, s2 ++ r, hk.symm, he, ?_⟩
          rw [hs12]
          simp
        · refine Or.inr ⟨q, e2, (c, d) :: pre, mid, post ++ r, hq, he, ?_⟩
          rw [hsplit]
          simp
      · rcases ih u e h2 with hl | ⟨q, e2, pre, mid, post, hq, he, hsplit⟩
        · exact Or.inl hl
        · refine Or.inr ⟨q, e2, (c, d) :: (s ++ pre), mid, post, hq, he, ?_⟩
          rw [hsplit]
          simp
  · intro p d l h
    exact h

theorem effKey_of_parent (tasks : List Task) (x : Task) (pid : Int)
    (hp : x.ParentTaskID = some pid) (hid : hasID tasks pid = true) : effKey tasks x = pid := by
  unfold effKey
  rw [hp]
  simp [hid]

theorem effKey_ne_zero (tasks : List Task) (x : Task) (h : effKey tasks x ≠ 0) :
    x.ParentTaskID = some (effKey tasks x) ∧ hasID tasks (effKey tasks x) = true := by
  unfold effKey at h ⊢
  cases hp : x.ParentTaskID with
  | none => simp [hp] at h
  | some p =>
    by_cases hid : hasID tasks p = true
    · simp [hid]
    · simp [hp, hid] at h

theorem effKey_root (tasks : List Task) (x : Task)
    (h : ∀ q ∈ tasks, x.ParentTaskID ≠ some q.ID) : effKey tasks x = 0 := by
  by_contra hne
  obtain ⟨hp, hid⟩ := effKey_ne_zero tasks x hne
  obtain ⟨q, hq, hqid⟩ := (hasID_iff _ _).mp hid
  exact h q hq (by rw [hp, hqid])

theorem desc_of_isDescendant (tasks : List Task) (hnd : (idsOf tasks).Nodup) (x t : Task)
    (h : IsDescendant tasks x t) : Desc tasks x t := by
  induction h with
  | child x t hx ht hp =>
    refine ⟨0, ?_⟩
    rw [Function.iterate_one, parId_of_mem tasks hnd x hx]
    exact effKey_of_parent tasks x t.ID hp ((hasID_iff _ _).mpr ⟨t, ht, rfl⟩)
  | step x y t hx hy hp _ ih =>
    obtain ⟨m, hm⟩ := ih
    refine ⟨m + 1, ?_⟩
    rw [Function.iterate_succ_apply, parId_of_mem tasks hnd x hx,
      effKey_of_parent tasks x y.ID hp ((hasID_iff _ _).mpr ⟨y, hy, rfl⟩)]
    exact hm

theorem isDescendant_of_desc (tasks : List Task) (hwf : WellFormed tasks) (t : Task)
    (ht : t ∈ tasks) (m : Nat) :
    ∀ x, x ∈ tasks → (parId tasks)^[m + 1] x.ID = t.ID → IsDescendant tasks x t := by
  induction m with
  | zero =>
    intro x hx h
    rw [Function.iterate_one, parId_of_mem tasks hwf.1 x hx] at h
    have hne : effKey tasks x ≠ 0 := by
      rw [h]
      exact hwf.2 t ht
    have hp := (effKey_ne_zero tasks x hne).1
    rw [h] at hp
    exact IsDescendant.child x t hx ht hp
  | succ m ih =>
    intro x hx h
    rw [Function.iterate_succ_apply, parId_of_mem tasks hwf.1 x hx] at h
    have hne : effKey tasks x ≠ 0 := by
      intro h0
      rw [h0, parId_iter_zero tasks hwf.2] at h
      exact hwf.2 t ht h.symm
    obtain ⟨hp, hid⟩ := effKey_ne_zero tasks x hne
    obtain ⟨y, hy, hyid⟩ := (hasID_iff _ _).mp hid
    rw [← hyid] at h hp
    exact IsDescendant.step x y t hx hy hp (ih y hy h)

theorem desc_iff (tasks : List Task) (hwf : WellFormed tasks) (x t : Task)
    (hx : x ∈ tasks) (ht : t ∈ tasks) : Desc tasks x t ↔ IsDescendant tasks x t :=
  ⟨fun ⟨m, hm⟩ => isDescendant_of_desc tasks hwf t ht m x hx hm,
   desc_of_isDescendant tasks hwf.1 x t⟩

/-- On a well-formed input and with a nesting bound above the number of tasks,
`buildVisibleTaskTree` returns the result that belongs to the emissions of the
walk from the root key. -/
theorem build_run (tasks : List Task) (collapsed : Option (IntMap Bool)) (fuel : Nat)
    (hwf : WellFormed tasks) (hfuel : tasks.length < fuel) :
    ∃ l, walkList (kidsOf tasks) (collOf tasks collapsed) fuel 0 0 = some l ∧
      buildVisibleTaskTree fuel tasks collapsed
        = some ⟨l.map Prod.fst, l.foldl (fun m e => IntMap.set m e.1.ID e.2) [],
            hasChildrenMap tasks⟩ := by
  obtain ⟨l, hl⟩ := walk_returns tasks hwf (collOf tasks collapsed) fuel hfuel
  refine ⟨l, hl, ?_⟩
  by_cases hne : tasks = []
  · subst hne
    obtain ⟨n, rfl⟩ : ∃ n, fuel = n + 1 := ⟨fuel - 1, by omega⟩
    have : l = [] := by
      rw [walkList_succ] at hl
      simpa [kidsOf, emitBlocks] using hl.symm
    subst this
    rfl
  · rw [build_eq_wf fuel tasks collapsed hne hwf.1, hl]
    rfl

/-- The facts about the emissions of the walk from the root key that the
theorems on `buildVisibleTaskTree` use. -/
theorem top_facts (tasks : List Task) (hwf : WellFormed tasks) (coll : Int → Bool) (fuel : Nat)
    (l : List (Task × Nat)) (hl : walkList (kidsOf tasks) coll fuel 0 0 = some l) :
    (l.map (fun e => e.1.ID)).Nodup ∧ (l.map Prod.fst).Nodup ∧
    (∀ u e, (u, e) ∈ l → u ∈ tasks ∧ Rank tasks u.ID (e + 1)) ∧
    (∀ u e, (u, e) ∈ l → ∀ m, IntMap.get (l.foldl (fun m e => IntMap.set m e.1.ID e.2) m) u.ID
      = some e) := by
  have hnd := (walk_nodup tasks hwf coll).1 fuel 0 0 l hl (Rank.root tasks)
  refine ⟨hnd, ?_, (walk_rank tasks hwf coll).1 fuel 0 0 l hl (Rank.root tasks), ?_⟩
  · have h2 : (l.map (fun e => e.1.ID)) = (l.map Prod.fst).map (fun t => t.ID) := by
      rw [List.map_map]
      rfl
    rw [h2] at hnd
    exact List.Nodup.of_map _ hnd
  · intro u e hu m
    exact depth_get_mem l m hnd u e hu

theorem mem_visible (l : List (Task × Nat)) (t : Task) (h : t ∈ l.map Prod.fst) :
    ∃ e, (t, e) ∈ l := by
  obtain ⟨⟨t2, e⟩, hm, rfl⟩ := List.mem_map.mp h
  exact ⟨e, hm⟩

/-- C2: for a task list with distinct non-zero ids, `buildVisibleTaskTree`
returns (with a nesting bound above the number of tasks) a depth-first
pre-order walk: no task is emitted twice; every emitted task whose declared
parent is a task of the input comes after that parent and has the depth of the
parent plus one; every emitted task without a parent in the input has depth 0;
and the emitted descendants of an emitted task are exactly the tasks of one
block that directly follows it. -/
theorem C2_preorder_walk (tasks : List Task) (collapsed : Option (IntMap Bool)) (fuel : Nat)
    (hdistinct : (idsOf tasks).Nodup) (hnonzero : ∀ t ∈ tasks, t.ID ≠ 0)
    (hfuel : tasks.length < fuel) :
    ∃ r, buildVisibleTaskTree fuel tasks collapsed = some r ∧
      r.visible.Nodup ∧
      (∀ t ∈ r.visible, ∀ q ∈ tasks, t.ParentTaskID = some q.ID →
        ∃ pre mid post dq, r.visible = pre ++ q :: (mid ++ t :: post) ∧
          r.depthByID.get q.ID = some dq ∧ r.depthByID.get t.ID = some (dq + 1)) ∧
      (∀ t ∈ r.visible, (∀ q ∈ tasks, t.ParentTaskID ≠ some q.ID) →
        r.depthByID.get t.ID = some 0) ∧
      (∀ t ∈ r.visible, ∃ pre blk post, r.visible = pre ++ t :: (blk ++ post) ∧
        (∀ x ∈ blk, IsDescendant tasks x t) ∧
        (∀ x ∈ pre ++ post, ¬ IsDescendant tasks x t)) := by
  have hwf : WellFormed tasks := ⟨hdistinct, hnonzero⟩
  obtain ⟨l, hl, hb⟩ := build_run tasks collapsed fuel hwf hfuel
  obtain ⟨_, hnd, hmem, hdepth⟩ := top_facts tasks hwf _ fuel l hl
  refine ⟨_, hb, hnd, ?_, ?_, ?_⟩
  · intro t ht q hq hp
    obtain ⟨e, hte⟩ := mem_visible l t ht
    have hkey : effKey tasks t = q.ID :=
      effKey_of_parent tasks t q.ID hp ((hasID_iff _ _).mpr ⟨q, hq, rfl⟩)
    rcases (walk_parent tasks _).1 fuel 0 0 l hl t e hte with
      ⟨h0, _⟩ | ⟨q2, e2, pre, mid, post, hq2, he, hsplit⟩
    · exact absurd (hkey.symm.trans h0) (hnonzero q hq)
    · have hq2l : (q2, e2) ∈ l := by
        rw [hsplit]
        simp
      have hqq : q2 = q :=
        ids_inj tasks hdistinct q2 q (hmem q2 e2 hq2l).1 hq (hq2.trans hkey)
      subst hqq
      refine ⟨pre.map Prod.fst, mid.map Prod.fst, post.map Prod.fst, e2, ?_,
        hdepth q2 e2 hq2l [], ?_⟩
      · show l.map Prod.fst = _
        rw [hsplit]
        simp
      · have := hdepth t e hte []
        rw [he] at this
        exact this
  · intro t ht hroot
    obtain ⟨e, hte⟩ := mem_visible l t ht
    have hkey : effKey tasks t = 0 := effKey_root tasks t hroot
    rcases (walk_parent tasks _).1 fuel 0 0 l hl t e hte with
      ⟨_, he⟩ | ⟨q2, e2, pre, mid, post, hq2, _, hsplit⟩
    · have := hdepth t e hte []
      rw [he] at this
      exact this
    · have hq2l : (q2, e2) ∈ l := by
        rw [hsplit]
        simp
      exact absurd (hq2.trans hkey) (hnonzero q2 (hmem q2 e2 hq2l).1)
  · intro t ht
    obtain ⟨e, hte⟩ := mem_visible l t ht
    have htt : t ∈ tasks := (hmem t e hte).1
    obtain ⟨pre, blk, post, hsplit, hblk, hpre, hpost⟩ :=
      (walk_block tasks hwf _).1 fuel 0 0 l hl (Rank.root tasks) t e hte
    refine ⟨pre.map Prod.fst, blk.map Prod.fst, post.map Prod.fst, ?_, ?_, ?_⟩
    · show l.map Prod.fst = _
      rw [hsplit]
      simp
    · intro x hx
      obtain ⟨ex, hxe⟩ := mem_visible blk x hx
      have hxl : (x, ex) ∈ l := by
        rw [hsplit]
        simp [hxe]
      exact (desc_iff tasks hwf x t (hmem x ex hxl).1 htt).mp (hblk (x, ex) hxe)
    · intro x hx hdesc
      have hd := desc_of_isDescendant tasks hdistinct x t hdesc
      rcases List.mem_append.mp hx with h1 | h2
      · obtain ⟨ex, hxe⟩ := mem_visible pre x h1
        exact hpre (x, ex) hxe hd
      · obtain ⟨ex, hxe⟩ := mem_visible post x h2
        exact hpost (x, ex) hxe hd

theorem chain_kids (a b c : Task) (ha : a.ID = 1 ∧ a.ParentTaskID = none)
    (hb : b.ID = 2 ∧ b.ParentTaskID = some 1) (hc : c.ID = 3 ∧ c.ParentTaskID = some 2) :
    kidsOf [a, b, c] 0 = [a] ∧ kidsOf [a, b, c] 1 = [b] ∧ kidsOf [a, b, c] 2 = [c] ∧
      ∀ k, k ≠ 0 → k ≠ 1 → k ≠ 2 → kidsOf [a, b, c] k = [] := by
  obtain ⟨ha1, ha2⟩ := ha
  obtain ⟨hb1, hb2⟩ := hb
  obtain ⟨hc1, hc2⟩ := hc
  refine ⟨?_, ?_, ?_, ?_⟩
  · simp [kidsOf, effKey, hasID, ha1, ha2, hb1, hb2, hc1, hc2]
  · simp [kidsOf, effKey, hasID, ha1, ha2, hb1, hb2, hc1, hc2]
  · simp [kidsOf, effKey, hasID, ha1, ha2, hb1, hb2, hc1, hc2]
  · intro k h0 h1 h2
    have e0 : ((0 : Int) == k) = false := beq_eq_false_iff_ne.mpr (fun e => h0 e.symm)
    have e1 : ((1 : Int) == k) = false := beq_eq_false_iff_ne.mpr (fun e => h1 e.symm)
    have e2 : ((2 : Int) == k) = false := beq_eq_false_iff_ne.mpr (fun e => h2 e.symm)
    simp [kidsOf, effKey, hasID, ha1, ha2, hb1, hb2, hc1, hc2, e0, e1, e2]

theorem chain_walk (a b c : Task) (ha : a.ID = 1 ∧ a.ParentTaskID = none)
    (hb : b.ID = 2 ∧ b.ParentTaskID = some 1) (hc : c.ID = 3 ∧ c.ParentTaskID = some 2)
    (coll : Int → Bool) (hcoll : coll 2 = false) :
    walkList (kidsOf [a, b, c]) coll 4 0 0
      = some (if coll 1 then [(a, 0)] else [(a, 0), (b, 1), (c, 2)]) := by
  obtain ⟨k0, k1, k2, k3⟩ := chain_kids a b c ha hb hc
  have k3b := k3 3 (by decide) (by decide) (by decide)
  by_cases h1 : coll 1 = true
  · simp [walkList, emitBlocks, k0, ha.1, h1]
  · simp [walkList, emitBlocks, k0, k1, k2, k3b, ha.1, hb.1, hc.1, hcoll, h1]

/-- C1: for the chain A(id 1, no parent), B(id 2, parent 1), C(id 3, parent 2),
given in that order, `buildVisibleTaskTree` with a collapsed set that holds no
id returns the order `[A, B, C]`, the depth map `1:0, 2:1, 3:2` and the
`hasChildren` map `1:true, 2:true` without an entry for 3; with the collapsed
set that holds exactly the id 1 it returns the order `[A]`. Both hold for every
nesting bound of at least 4. -/
theorem C1_chain_example (a b c : Task) (fuel : Nat) (none0 only1 : Option (IntMap Bool))
    (ha : a.ID = 1 ∧ a.ParentTaskID = none)
    (hb : b.ID = 2 ∧ b.ParentTaskID = some 1)
    (hc : c.ID = 3 ∧ c.ParentTaskID = some 2)
    (hfuel : 4 ≤ fuel)
    (h0 : ∀ k, collapsedAt none0 k = false)
    (h1 : ∀ k, collapsedAt only1 k = decide (k = 1)) :
    (∃ r, buildVisibleTaskTree fuel [a, b, c] none0 = some r ∧
      r.visible = [a, b, c] ∧
      (∀ k, r.depthByID.get k
        = if k = 1 then some 0 else if k = 2 then some 1 else if k = 3 then some 2 else none) ∧
      (∀ k, r.hasChildren.get k = if k = 1 ∨ k = 2 then some true else none)) ∧
    (∃ r, buildVisibleTaskTree fuel [a, b, c] only1 = some r ∧ r.visible = [a]) := by
  obtain ⟨k0, k1, k2, k3⟩ := chain_kids a b c ha hb hc
  have hnd : (idsOf [a, b, c]).Nodup := by
    simp [idsOf, ha.1, hb.1, hc.1]
  have hn : fuel = 4 + (fuel - 4) := by omega
  have hk1 : hasKids [a, b, c] 1 = true := by simp [hasKids, k1]
  have hk2 : hasKids [a, b, c] 2 = true := by simp [hasKids, k2]
  constructor
  · have hw := chain_walk a b c ha hb hc (collOf [a, b, c] none0) (by simp [collOf, h0])
    have hc1 : collOf [a, b, c] none0 1 = false := by simp [collOf, h0]
    rw [hc1] at hw
    have hb4 := build_eq_wf 4 [a, b, c] none0 (by simp) hnd
    rw [hw] at hb4
    refine ⟨_, by rw [hn]; exact build_mono 4 _ _ _ hb4 _, ?_, ?_, ?_⟩
    · simp
    · intro k
      by_cases e1 : k = 1
      · subst e1
        simp [IntMap.get, IntMap.set, ha.1, hb.1, hc.1]
      · by_cases e2 : k = 2
        · subst e2
          simp [IntMap.get, IntMap.set, ha.1, hb.1, hc.1]
        · by_cases e3 : k = 3
          · subst e3
            simp [IntMap.get, IntMap.set, ha.1, hb.1, hc.1]
          · have f1 : ((1 : Int) == k) = false := beq_eq_false_iff_ne.mpr (fun e => e1 e.symm)
            have f2 : ((2 : Int) == k) = false := beq_eq_false_iff_ne.mpr (fun e => e2 e.symm)
            have f3 : ((3 : Int) == k) = false := beq_eq_false_iff_ne.mpr (fun e => e3 e.symm)
            simp [IntMap.get, IntMap.set, ha.1, hb.1, hc.1, e1, e2, e3, f1, f2, f3]
    · intro k
      show IntMap.get (hasChildrenMap [a, b, c]) k = _
      rw [hasChildrenMap_get]
      by_cases e1 : k = 1
      · subst e1
        simp [hk1]
      · by_cases e2 : k = 2
        · subst e2
          simp [hk2]
        · have hk : hasKids [a, b, c] k = false := by
            by_cases e0 : k = 0
            · simp [hasKids, e0]
            · simp [hasKids, k3 k e0 e1 e2]
          simp [hk, e1, e2]
  · have hw := chain_walk a b c ha hb hc (collOf [a, b, c] only1) (by simp [collOf, h1])
    have hc1 : collOf [a, b, c] only1 1 = true := by simp [collOf, h1, hk1]
    rw [hc1] at hw
    have hb4 := build_eq_wf 4 [a, b, c] only1 (by simp) hnd
    rw [hw] at hb4
    exact ⟨_, by rw [hn]; exact build_mono 4 _ _ _ hb4 _, by simp⟩

/-- Witness of `C1_chain_example`: the chain example itself, with the empty map
and the map `1:true` as collapsed sets and the nesting bound 4. -/
theorem C1_chain_example_witness :
    (∃ r, buildVisibleTaskTree 4 [sampleA, sampleB, sampleC] (some []) = some r ∧
      r.visible = [sampleA, sampleB, sampleC] ∧
      (∀ k, r.depthByID.get k
        = if k = 1 then some 0 else if k = 2 then some 1 else if k = 3 then some 2 else none) ∧
      (∀ k, r.hasChildren.get k = if k = 1 ∨ k = 2 then some true else none)) ∧
    (∃ r, buildVisibleTaskTree 4 [sampleA, sampleB, sampleC] (some [(1, true)]) = some r ∧
      r.visible = [sampleA]) :=
  C1_chain_example sampleA sampleB sampleC 4 (some []) (some [(1, true)])
    ⟨rfl, rfl⟩ ⟨rfl, rfl⟩ ⟨rfl, rfl⟩ (by decide) (fun _ => rfl)
    (by
      intro k
      by_cases h : k = 1
      · subst h
        rfl
      · have hb : ((1 : Int) == k) = false := beq_eq_false_iff_ne.mpr (fun e => h e.symm)
        simp [collapsedAt, IntMap.get, hb, h])

/-- Witness of `C2_preorder_walk`: the chain example with a nil collapsed map. -/
theorem C2_preorder_walk_witness :
    ((idsOf [sampleA, sampleB, sampleC]).Nodup ∧
      (∀ t ∈ [sampleA, sampleB, sampleC], t.ID ≠ 0) ∧
      [sampleA, sampleB, sampleC].length < 4) ∧
    ∃ r, buildVisibleTaskTree 4 [sampleA, sampleB, sampleC] none = some r ∧
      r.visible.Nodup ∧
      (∀ t ∈ r.visible, ∀ q ∈ [sampleA, sampleB, sampleC], t.ParentTaskID = some q.ID →
        ∃ pre mid post dq, r.visible = pre ++ q :: (mid ++ t :: post) ∧
          r.depthByID.get q.ID = some dq ∧ r.depthByID.get t.ID = some (dq + 1)) ∧
      (∀ t ∈ r.visible, (∀ q ∈ [sampleA, sampleB, sampleC], t.ParentTaskID ≠ some q.ID) →
        r.depthByID.get t.ID = some 0) ∧
      (∀ t ∈ r.visible, ∃ pre blk post, r.visible = pre ++ t :: (blk ++ post) ∧
        (∀ x ∈ blk, IsDescendant [sampleA, sampleB, sampleC] x t) ∧
        (∀ x ∈ pre ++ post, ¬ IsDescendant [sampleA, sampleB, sampleC] x t)) :=
  ⟨⟨by decide, by decide, by decide⟩,
    C2_preorder_walk [sampleA, sampleB, sampleC] none 4 (by decide) (by decide) (by decide)⟩

/-- Every task of the group a walk starts from is emitted at the depth of the
walk. -/
theorem walk_emits_group (tasks : List Task) (coll : Int → Bool) :
    (∀ fuel p d l, walkList (kidsOf tasks) coll fuel p d = some l →
      ∀ c ∈ kidsOf tasks p, (c, d) ∈ l) ∧
    (∀ fuel p d cs r, cs <:+ kidsOf tasks p →
      emitBlocks (subWalk (kidsOf tasks) coll fuel d) d cs = some r →
      ∀ c ∈ cs, (c, d) ∈ r) := by
  apply walkList_induct (kidsOf tasks) coll
    (fun p d l => ∀ c ∈ kidsOf tasks p, (c, d) ∈ l)
    (fun _ cs d r => ∀ c ∈ cs, (c, d) ∈ r)
  · intro p d c h
    simp at h
  · intro fuel p c cs d r _ _ _ ih c2 hc2
    rcases List.mem_cons.mp hc2 with rfl | h
    · exact List.mem_cons_self _ _
    · exact List.mem_cons_of_mem _ (ih c2 h)
  · intro fuel p c cs d s r _ _ _ _ _ ih c2 hc2
    rcases List.mem_cons.mp hc2 with rfl | h
    · exact List.mem_cons_self _ _
    · exact List.mem_cons_of_mem _ (List.mem_append_right _ (ih c2 h))
  · intro p d l h
    exact h

theorem childrenByParentMap_read (tasks : List Task) (hnd : (idsOf tasks).Nodup) (k : Int) :
    childrenOf (childrenByParentMap tasks) k = kidsOf tasks k := by
  unfold childrenByParentMap
  rw [sortChildren_childrenOf]
  exact sortedKids_eq tasks hnd k

/-- C3: for a task list with distinct non-zero ids, a task whose declared
parent is nil or is the id of no task of the input is emitted with depth 0,
lies in the root group and in the group of no task; a task whose declared
parent is the id of a task of the input lies in the group of that parent and
in no other group. -/
theorem C3_effective_parent (tasks : List Task) (collapsed : Option (IntMap Bool)) (fuel : Nat)
    (hdistinct : (idsOf tasks).Nodup) (hnonzero : ∀ t ∈ tasks, t.ID ≠ 0)
    (hfuel : tasks.length < fuel) :
    ∃ r, buildVisibleTaskTree fuel tasks collapsed = some r ∧
      (∀ t ∈ tasks,
        (t.ParentTaskID = none ∨ ∃ p, t.ParentTaskID = some p ∧ ∀ q ∈ tasks, q.ID ≠ p) →
          t ∈ r.visible ∧ r.depthByID.get t.ID = some 0 ∧
          t ∈ childrenOf (childrenByParentMap tasks) 0 ∧
          ∀ q ∈ tasks, t ∉ childrenOf (childrenByParentMap tasks) q.ID) ∧
      (∀ t ∈ tasks, ∀ q ∈ tasks, t.ParentTaskID = some q.ID →
        t ∈ childrenOf (childrenByParentMap tasks) q.ID ∧
        ∀ k, k ≠ q.ID → t ∉ childrenOf (childrenByParentMap tasks) k) := by
  have hwf : WellFormed tasks := ⟨hdistinct, hnonzero⟩
  obtain ⟨l, hl, hb⟩ := build_run tasks collapsed fuel hwf hfuel
  obtain ⟨_, _, _, hdepth⟩ := top_facts tasks hwf _ fuel l hl
  refine ⟨_, hb, ?_, ?_⟩
  · intro t ht hroot
    have hkey : effKey tasks t = 0 := by
      apply effKey_root
      intro q hq hp
      rcases hroot with hnone | ⟨p, hp2, hno⟩
      · rw [hnone] at hp
        cases hp
      · rw [hp2] at hp
        exact hno q hq (Option.some.inj hp).symm
    have hk0 : t ∈ kidsOf tasks 0 := (mem_kidsOf _ _ _).mpr ⟨ht, hkey⟩
    have hmem : (t, 0) ∈ l := (walk_emits_group tasks _).1 fuel 0 0 l hl t hk0
    refine ⟨List.mem_map.mpr ⟨(t, 0), hmem, rfl⟩, hdepth t 0 hmem [], ?_, ?_⟩
    · rw [childrenByParentMap_read tasks hdistinct]
      exact hk0
    · intro q hq hin
      rw [childrenByParentMap_read tasks hdistinct] at hin
      have := ((mem_kidsOf _ _ _).mp hin).2
      exact hnonzero q hq (this.symm.trans hkey)
  · intro t ht q hq hp
    have hkey : effKey tasks t = q.ID :=
      effKey_of_parent tasks t q.ID hp ((hasID_iff _ _).mpr ⟨q, hq, rfl⟩)
    constructor
    · rw [childrenByParentMap_read tasks hdistinct]
      exact (mem_kidsOf _ _ _).mpr ⟨ht, hkey⟩
    · intro k hk hin
      rw [childrenByParentMap_read tasks hdistinct] at hin
      exact hk (((mem_kidsOf _ _ _).mp hin).2.symm.trans hkey)

/-- Witness of `C3_effective_parent`: the chain example with a nil collapsed map. -/
theorem C3_effective_parent_witness :
    ((idsOf [sampleA, sampleB, sampleC]).Nodup ∧
      (∀ t ∈ [sampleA, sampleB, sampleC], t.ID ≠ 0) ∧
      [sampleA, sampleB, sampleC].length < 4) ∧
    ∃ r, buildVisibleTaskTree 4 [sampleA, sampleB, sampleC] none = some r ∧
      (∀ t ∈ [sampleA, sampleB, sampleC],
        (t.ParentTaskID = none ∨
          ∃ p, t.ParentTaskID = some p ∧ ∀ q ∈ [sampleA, sampleB, sampleC], q.ID ≠ p) →
          t ∈ r.visible ∧ r.depthByID.get t.ID = some 0 ∧
          t ∈ childrenOf (childrenByParentMap [sampleA, sampleB, sampleC]) 0 ∧
          ∀ q ∈ [sampleA, sampleB, sampleC],
            t ∉ childrenOf (childrenByParentMap [sampleA, sampleB, sampleC]) q.ID) ∧
      (∀ t ∈ [sampleA, sampleB, sampleC], ∀ q ∈ [sampleA, sampleB, sampleC],
        t.ParentTaskID = some q.ID →
        t ∈ childrenOf (childrenByParentMap [sampleA, sampleB, sampleC]) q.ID ∧
        ∀ k, k ≠ q.ID → t ∉ childrenOf (childrenByParentMap [sampleA, sampleB, sampleC]) k) :=
  ⟨⟨by decide, by decide, by decide⟩,
    C3_effective_parent [sampleA, sampleB, sampleC] none 4 (by decide) (by decide) (by decide)⟩

/-! ## Sibling order -/

theorem tasks_pairwise_index (tasks : List Task) (hnd : tasks.Nodup) :
    List.Pairwise (fun x y => tasks.indexOf x < tasks.indexOf y) tasks := by
  rw [List.pairwise_iff_getElem]
  intro i j hi hj hij
  rw [List.indexOf_getElem hnd i hi, List.indexOf_getElem hnd j hj]
  exact hij

theorem earlier_not_in_suffix (tasks : List Task) (hnd : tasks.Nodup) (p : Int)
    (c : Task) (cs : List Task) (hsuf : (c :: cs) <:+ kidsOf tasks p) (a : Task)
    (ha : tasks.indexOf a < tasks.indexOf c) : a ∉ c :: cs := by
  have hp : List.Pairwise (fun x y => tasks.indexOf x < tasks.indexOf y) (c :: cs) :=
    (tasks_pairwise_index tasks hnd).sublist
      (hsuf.sublist.trans (List.filter_sublist _))
  intro hmem
  rcases List.mem_cons.mp hmem with rfl | h
  · exact Nat.lt_irrefl _ ha
  · have := (List.pairwise_cons.mp hp).1 a h
    omega

theorem index_cons_lt (c a b : Task) (v : List Task) (hb : b ≠ c)
    (h : a = c ∨ v.indexOf a < v.indexOf b) :
    (c :: v).indexOf a < (c :: v).indexOf b := by
  rw [List.indexOf_cons_ne _ (fun e => hb e.symm)]
  by_cases hac : a = c
  · subst hac
    rw [List.indexOf_cons_self]
    omega
  · rw [List.indexOf_cons_ne _ (fun e => hac e.symm)]
    rcases h with h | h
    · exact absurd h hac
    · omega

theorem index_append_lt (a b : Task) (s r : List Task) (hb : b ∉ s) (hbr : b ∈ r)
    (h : a ∈ s ∨ r.indexOf a < r.indexOf b) :
    (s ++ r).indexOf a < (s ++ r).indexOf b := by
  rw [List.indexOf_append_of_not_mem hb]
  by_cases has : a ∈ s
  · rw [List.indexOf_append_of_mem has]
    have := List.indexOf_lt_length.mpr has
    omega
  · rw [List.indexOf_append_of_not_mem has]
    rcases h with h | h
    · exact absurd h has
    · have := List.indexOf_lt_length.mpr hbr
      omega

/-- Whenever a task is emitted, every task of the same group that comes earlier
in the input has been emitted before it. -/
theorem walk_order (tasks : List Task) (hnd : tasks.Nodup) (coll : Int → Bool) :
    (∀ fuel p d l, walkList (kidsOf tasks) coll fuel p d = some l →
      ∀ a b, a ∈ tasks → b ∈ l.map Prod.fst → effKey tasks a = effKey tasks b →
        tasks.indexOf a < tasks.indexOf b →
        a ∈ l.map Prod.fst ∧ (l.map Prod.fst).indexOf a < (l.map Prod.fst).indexOf b) ∧
    (∀ fuel p d cs r, cs <:+ kidsOf tasks p →
      emitBlocks (subWalk (kidsOf tasks) coll fuel d) d cs = some r →
      ∀ a b, a ∈ tasks → b ∈ r.map Prod.fst → effKey tasks a = effKey tasks b →
        tasks.indexOf a < tasks.indexOf b →
        (a ∈ r.map Prod.fst ∧ (r.map Prod.fst).indexOf a < (r.map Prod.fst).indexOf b) ∨
          (effKey tasks b = p ∧ a ∉ cs)) := by
  apply walkList_induct (kidsOf tasks) coll
    (fun _ _ l => ∀ a b, a ∈ tasks → b ∈ l.map Prod.fst → effKey tasks a = effKey tasks b →
        tasks.indexOf a < tasks.indexOf b →
        a ∈ l.map Prod.fst ∧ (l.map Prod.fst).indexOf a < (l.map Prod.fst).indexOf b)
    (fun p cs _ r => ∀ a b, a ∈ tasks → b ∈ r.map Prod.fst → effKey tasks a = effKey tasks b →
        tasks.indexOf a < tasks.indexOf b →
        (a ∈ r.map Prod.fst ∧ (r.map Prod.fst).indexOf a < (r.map Prod.fst).indexOf b) ∨
          (effKey tasks b = p ∧ a ∉ cs))
  · intro p d a b _ hb
    simp at hb
  · intro fuel p c cs d r hsuf _ _ ih a b ha hb hkey hidx
    have hc : c ∈ kidsOf tasks p := hsuf.subset (List.mem_cons_self _ _)
    rw [List.map_cons] at hb ⊢
    by_cases hbc : b = c
    · subst hbc
      exact Or.inr ⟨((mem_kidsOf _ _ _).mp hc).2, earlier_not_in_suffix tasks hnd p b cs hsuf a hidx⟩
    · have hbr : b ∈ r.map Prod.fst := by
        rcases List.mem_cons.mp hb with h | h
        · exact absurd h hbc
        · exact h
      by_cases hac : a = c
      · exact Or.inl ⟨hac ▸ List.mem_cons_self _ _, index_cons_lt c a b _ hbc (Or.inl hac)⟩
      · rcases ih a b ha hbr hkey hidx with ⟨hm, hlt⟩ | ⟨hk, hn⟩
        · exact Or.inl ⟨List.mem_cons_of_mem _ hm, index_cons_lt c a b _ hbc (Or.inr hlt)⟩
        · refine Or.inr ⟨hk, ?_⟩
          intro hmem
          rcases List.mem_cons.mp hmem with h | h
          · exact hac h
          · exact hn h
  · intro fuel p c cs d s r hsuf _ _ _ ihs ih a b ha hb hkey hidx
    have hc : c ∈ kidsOf tasks p := hsuf.subset (List.mem_cons_self _ _)
    rw [List.map_cons, List.map_append] at hb ⊢
    by_cases hbc : b = c
    · subst hbc
      exact Or.inr ⟨((mem_kidsOf _ _ _).mp hc).2, earlier_not_in_suffix tasks hnd p b cs hsuf a hidx⟩
    · have hb2 : b ∈ s.map Prod.fst ++ r.map Prod.fst := by
        rcases List.mem_cons.mp hb with h | h
        · exact absurd h hbc
        · exact h
      by_cases hac : a = c
      · exact Or.inl ⟨hac ▸ List.mem_cons_self _ _, index_cons_lt c a b _ hbc (Or.inl hac)⟩
      · by_cases hbs : b ∈ s.map Prod.fst
        · obtain ⟨hm, hlt⟩ := ihs a b ha hbs hkey hidx
          refine Or.inl ⟨List.mem_cons_of_mem _ (List.mem_append_left _ hm),
            index_cons_lt c a b _ hbc (Or.inr ?_)⟩
          rw [List.indexOf_append_of_mem hm, List.indexOf_append_of_mem hbs]
          exact hlt
        · have hbr : b ∈ r.map Prod.fst := by
            rcases List.mem_append.mp hb2 with h | h
            · exact absurd h hbs
            · exact h
          by_cases has : a ∈ s.map Prod.fst
          · exact Or.inl ⟨List.mem_cons_of_mem _ (List.mem_append_left _ has),
              index_cons_lt c a b _ hbc (Or.inr (index_append_lt a b _ _ hbs hbr (Or.inl has)))⟩
          · rcases ih a b ha hbr hkey hidx with ⟨hm, hlt⟩ | ⟨hk, hn⟩
            · exact Or.inl ⟨List.mem_cons_of_mem _ (List.mem_append_right _ hm),
                index_cons_lt c a b _ hbc (Or.inr (index_append_lt a b _ _ hbs hbr (Or.inr hlt)))⟩
            · refine Or.inr ⟨hk, ?_⟩
              intro hmem
              rcases List.mem_cons.mp hmem with h | h
              · exact hac h
              · exact hn h
  · intro p d l h a b ha hb hkey hidx
    rcases h a b ha hb hkey hidx with hl | ⟨hk, hn⟩
    · exact hl
    · exact absurd ((mem_kidsOf _ _ _).mpr ⟨ha, hkey.trans hk⟩) hn

/-- C4: for a task list with distinct ids, `buildVisibleTaskTree` keeps the
input order among siblings: in every result it returns, of two emitted tasks
with the same grouping key (the same parent in the input, or both roots) the
one that comes first in the input comes first in the output; only positions in
the input are compared. When in addition no id is 0, a result is returned for
every nesting bound above the number of tasks, and no task is emitted twice. -/
theorem C4_sibling_order (tasks : List Task) (collapsed : Option (IntMap Bool))
    (hdistinct : (idsOf tasks).Nodup) :
    (∀ fuel r, buildVisibleTaskTree fuel tasks collapsed = some r →
      ∀ a b, a ∈ r.visible → b ∈ r.visible →
        parentKey (buildExistsByID tasks) a = parentKey (buildExistsByID tasks) b →
        tasks.indexOf a < tasks.indexOf b →
        r.visible.indexOf a < r.visible.indexOf b) ∧
    ((∀ t ∈ tasks, t.ID ≠ 0) → ∀ fuel, tasks.length < fuel →
      ∃ r, buildVisibleTaskTree fuel tasks collapsed = some r ∧ r.visible.Nodup) := by
  constructor
  · intro fuel r hr a b ha hb hkey hidx
    by_cases hne : tasks = []
    · subst hne
      simp only [buildVisibleTaskTree, List.length_nil, if_true, Option.some.injEq] at hr
      subst hr
      simp at ha
    · rw [build_eq_wf fuel tasks collapsed hne hdistinct] at hr
      cases hl : walkList (kidsOf tasks) (collOf tasks collapsed) fuel 0 0 with
      | none => simp [hl] at hr
      | some l =>
        simp only [hl, Option.map_some', Option.some.injEq] at hr
        subst hr
        rw [parentKey_eq, parentKey_eq] at hkey
        have hat : a ∈ tasks := by
          by_contra hnot
          have h1 : tasks.indexOf a = tasks.length := List.indexOf_of_not_mem hnot
          have h2 := @List.indexOf_le_length _ _ b tasks
          omega
        exact ((walk_order tasks (tasks_nodup tasks hdistinct) _).1 fuel 0 0 l hl a b hat hb
          hkey hidx).2
  · intro hnonzero fuel hfuel
    have hwf : WellFormed tasks := ⟨hdistinct, hnonzero⟩
    obtain ⟨l, hl, hb⟩ := build_run tasks collapsed fuel hwf hfuel
    exact ⟨_, hb, (top_facts tasks hwf _ fuel l hl).2.1⟩

/-- Witness of `C4_sibling_order`: A with the children B and D, and C below B,
with a nil collapsed map. -/
theorem C4_sibling_order_witness :
    (idsOf [sampleA, sampleB, sampleC, sampleD]).Nodup ∧
    (∀ fuel r, buildVisibleTaskTree fuel [sampleA, sampleB, sampleC, sampleD] none = some r →
      ∀ a b, a ∈ r.visible → b ∈ r.visible →
        parentKey (buildExistsByID [sampleA, sampleB, sampleC, sampleD]) a
          = parentKey (buildExistsByID [sampleA, sampleB, sampleC, sampleD]) b →
        [sampleA, sampleB, sampleC, sampleD].indexOf a
          < [sampleA, sampleB, sampleC, sampleD].indexOf b →
        r.visible.indexOf a < r.visible.indexOf b) ∧
    ((∀ t ∈ [sampleA, sampleB, sampleC, sampleD], t.ID ≠ 0) →
      ∀ fuel, [sampleA, sampleB, sampleC, sampleD].length < fuel →
      ∃ r, buildVisibleTaskTree fuel [sampleA, sampleB, sampleC, sampleD] none = some r ∧
        r.visible.Nodup) :=
  ⟨by decide, C4_sibling_order [sampleA, sampleB, sampleC, sampleD] none (by decide)⟩

/-! ## Collapsed subtrees -/

theorem blocks_mono (kids : Int → List Task) (coll : Int → Bool) (fuel n : Nat) (d : Nat)
    (cs : List Task) (l : List (Task × Nat))
    (h : emitBlocks (subWalk kids coll fuel d) d cs = some l) :
    emitBlocks (subWalk kids coll (fuel + n) d) d cs = some l := by
  induction cs generalizing l with
  | nil => exact h
  | cons c cs ihc =>
    obtain ⟨s, r, hs, hr, rfl⟩ := emitBlocks_cons_some _ _ _ _ _ h
    have hs2 : subWalk kids coll (fuel + n) d c = some s := by
      unfold subWalk at hs ⊢
      by_cases hcl : coll c.ID = true
      · simpa [hcl] using hs
      · simp only [hcl, Bool.false_eq_true, if_false] at hs ⊢
        exact walk_mono kids coll fuel _ _ _ hs n
    simp [emitBlocks, hs2, ihc r hr]

theorem walk_det (kids : Int → List Task) (coll : Int → Bool) (f1 f2 : Nat) (p : Int) (d : Nat)
    (l1 l2 : List (Task × Nat)) (h1 : walkList kids coll f1 p d = some l1)
    (h2 : walkList kids coll f2 p d = some l2) : l1 = l2 := by
  have e1 := walk_mono kids coll f1 p d l1 h1 f2
  have e2 := walk_mono kids coll f2 p d l2 h2 f1
  rw [Nat.add_comm f2 f1, e1] at e2
  exact Option.some.inj e2

/-- The walk with a collapse test emits, in the same order, those emissions of
the walk without collapsing that have no collapsed task between them and the
group the walk started from. -/
theorem walk_filter (tasks : List Task) (hnd : (idsOf tasks).Nodup) (coll : Int → Bool) :
    (∀ fuel p d l0, walkList (kidsOf tasks) (fun _ => false) fuel p d = some l0 →
      ∃ f lC, walkList (kidsOf tasks) coll f p d = some lC ∧ lC.Sublist l0 ∧
        ∀ u e, (u, e) ∈ l0 →
          ((u, e) ∈ lC ↔ ∀ m, m < e - d → coll ((parId tasks)^[m + 1] u.ID) = false)) ∧
    (∀ fuel p d cs r0, cs <:+ kidsOf tasks p →
      emitBlocks (subWalk (kidsOf tasks) (fun _ => false) fuel d) d cs = some r0 →
      ∃ f rC, emitBlocks (subWalk (kidsOf tasks) coll f d) d cs = some rC ∧ rC.Sublist r0 ∧
        ∀ u e, (u, e) ∈ r0 →
          ((u, e) ∈ rC ↔ ∀ m, m < e - d → coll ((parId tasks)^[m + 1] u.ID) = false)) := by
  apply walkList_induct (kidsOf tasks) (fun _ => false)
    (fun p d l0 => ∃ f lC, walkList (kidsOf tasks) coll f p d = some lC ∧ lC.Sublist l0 ∧
        ∀ u e, (u, e) ∈ l0 →
          ((u, e) ∈ lC ↔ ∀ m, m < e - d → coll ((parId tasks)^[m + 1] u.ID) = false))
    (fun _ cs d r0 => ∃ f rC,
        emitBlocks (subWalk (kidsOf tasks) coll f d) d cs = some rC ∧ rC.Sublist r0 ∧
        ∀ u e, (u, e) ∈ r0 →
          ((u, e) ∈ rC ↔ ∀ m, m < e - d → coll ((parId tasks)^[m + 1] u.ID) = false))
  · intro p d
    exact ⟨0, [], rfl, List.Sublist.refl _, by simp⟩
  · intro fuel p c cs d r _ hfalse
    cases hfalse
  · intro fuel p c cs d s0 r0 hsuf _ hs0 hr0 ⟨f1, sC, hsC, hsub1, hiff1⟩ ⟨f2, rC, hrC, hsub2, hiff2⟩
    have hsuf2 : cs <:+ kidsOf tasks p := (List.suffix_cons c cs).trans hsuf
    have hr0top := (walk_top tasks hnd (fun _ => false)).2 fuel p d cs r0 hsuf2 hr0
    have hrC2 := blocks_mono (kidsOf tasks) coll f2 f1 d cs rC hrC
    by_cases hcl : coll c.ID = true
    · -- the task is collapsed: nothing of its subtree is emitted
      refine ⟨f2 + f1, (c, d) :: rC, ?_, ?_, ?_⟩
      · simp [emitBlocks, subWalk, hcl, hrC2]
      · exact List.Sublist.cons₂ _ ((hsub2.trans (List.sublist_append_right s0 r0)))
      · intro u e hu
        constructor
        · intro hin m hm
          rcases List.mem_cons.mp hin with heq | hrc
          · obtain ⟨rfl, rfl⟩ := Prod.mk.inj heq
            omega
          · exact (hiff2 u e (hsub2.subset hrc)).mp hrc m hm
        · intro hall
          rcases List.mem_cons.mp hu with heq | hrest
          · rw [heq]
            exact List.mem_cons_self _ _
          · rcases List.mem_append.mp hrest with h1 | h2
            · obtain ⟨j, hj, hit⟩ := sub_top tasks hnd _ fuel c d s0 hs0 u e h1
              have := hall j (by omega)
              rw [hit, hcl] at this
              cases this
            · exact List.mem_cons_of_mem _ ((hiff2 u e h2).mpr hall)
    · -- the task is open: its subtree is walked
      have hcl2 : coll c.ID = false := by simpa using hcl
      have hsC2 := walk_mono (kidsOf tasks) coll f1 _ _ _ hsC f2
      rw [Nat.add_comm] at hsC2
      refine ⟨f2 + f1, (c, d) :: (sC ++ rC), ?_, ?_, ?_⟩
      · simp [emitBlocks, subWalk, hcl2, hsC2, hrC2]
      · exact List.Sublist.cons₂ _ (List.Sublist.append hsub1 hsub2)
      · intro u e hu
        constructor
        · intro hin m hm
          rcases List.mem_cons.mp hin with heq | hrest
          · obtain ⟨rfl, rfl⟩ := Prod.mk.inj heq
            omega
          · rcases List.mem_append.mp hrest with h1 | h2
            · have h0 := hsub1.subset h1
              obtain ⟨j, hj, hit⟩ := sub_top tasks hnd _ fuel c d s0 hs0 u e h0
              by_cases hmj : m < j
              · exact (hiff1 u e h0).mp h1 m (by omega)
              · have : m = j := by omega
                subst this
                rw [hit]
                exact hcl2
            · exact (hiff2 u e (hsub2.subset h2)).mp h2 m hm
        · intro hall
          rcases List.mem_cons.mp hu with heq | hrest
          · rw [heq]
            exact List.mem_cons_self _ _
          · rcases List.mem_append.mp hrest with h1 | h2
            · refine List.mem_cons_of_mem _ (List.mem_append_left _ ((hiff1 u e h1).mpr ?_))
              intro m hm
              exact hall m (by omega)
            · exact List.mem_cons_of_mem _ (List.mem_append_right _ ((hiff2 u e h2).mpr hall))
  · intro p d l ⟨f, lC, hlC, hsub, hiff⟩
    exact ⟨f + 1, lC, by rw [walkList_succ]; exact hlC, hsub, hiff⟩

theorem isDescendant_mem (tasks : List Task) (x t : Task) (h : IsDescendant tasks x t) :
    x ∈ tasks ∧ ∃ y ∈ tasks, y.ParentTaskID = some t.ID := by
  induction h with
  | child x t hx _ hp => exact ⟨hx, x, hx, hp⟩
  | step x y t hx _ _ _ ih => exact ⟨hx, ih.2⟩

theorem collOf_of_descendant (tasks : List Task) (collapsed : Option (IntMap Bool))
    (hnonzero : ∀ t ∈ tasks, t.ID ≠ 0) (x t : Task) (ht : t ∈ tasks)
    (hc : collapsedAt collapsed t.ID = true) (hd : IsDescendant tasks x t) :
    collOf tasks collapsed t.ID = true := by
  obtain ⟨_, y, hy, hp⟩ := isDescendant_mem tasks x t hd
  have hkey : effKey tasks y = t.ID :=
    effKey_of_parent tasks y t.ID hp ((hasID_iff _ _).mpr ⟨t, ht, rfl⟩)
  have hk : y ∈ kidsOf tasks t.ID := (mem_kidsOf _ _ _).mpr ⟨hy, hkey⟩
  have hne : kidsOf tasks t.ID ≠ [] := List.ne_nil_of_mem hk
  have h0 : t.ID ≠ 0 := hnonzero t ht
  simp [collOf, hasKids, hc, h0, hne]

/-- C5: for a task list with distinct non-zero ids and any collapsed set,
compared with the result `r0` for a collapsed set that holds no id: the
emitted tasks are a subsequence of those of `r0`; no descendant of a task
whose id is in the collapsed set is emitted or has a depth entry; and every
task of `r0` that is not a descendant of a collapsed task (a collapsed task
itself included) is emitted, with the same depth as in `r0`. -/
theorem C5_collapsed_subtree (tasks : List Task) (collapsed none0 : Option (IntMap Bool))
    (fuel : Nat) (hdistinct : (idsOf tasks).Nodup) (hnonzero : ∀ t ∈ tasks, t.ID ≠ 0)
    (hfuel : tasks.length < fuel) (h0 : ∀ k, collapsedAt none0 k = false) :
    ∃ r0 rC, buildVisibleTaskTree fuel tasks none0 = some r0 ∧
      buildVisibleTaskTree fuel tasks collapsed = some rC ∧
      rC.visible.Sublist r0.visible ∧
      (∀ t ∈ tasks, collapsedAt collapsed t.ID = true → ∀ x, IsDescendant tasks x t →
        x ∉ rC.visible ∧ rC.depthByID.get x.ID = none) ∧
      (∀ x ∈ r0.visible,
        (∀ t ∈ tasks, collapsedAt collapsed t.ID = true → ¬ IsDescendant tasks x t) →
        x ∈ rC.visible ∧ rC.depthByID.get x.ID = r0.depthByID.get x.ID) := by
  have hwf : WellFormed tasks := ⟨hdistinct, hnonzero⟩
  obtain ⟨l0, hl0, hb0⟩ := build_run tasks none0 fuel hwf hfuel
  obtain ⟨lC, hlC, hbC⟩ := build_run tasks collapsed fuel hwf hfuel
  have hc0 : collOf tasks none0 = fun _ => false := by
    funext k
    simp [collOf, h0]
  rw [hc0] at hl0
  obtain ⟨f, lC2, hlC2, hsub, hiff⟩ :=
    (walk_filter tasks hdistinct (collOf tasks collapsed)).1 fuel 0 0 l0 hl0
  have hsame : lC2 = lC := walk_det _ _ _ _ _ _ _ _ hlC2 hlC
  subst hsame
  obtain ⟨_, _, hmem0, hdepth0⟩ := top_facts tasks hwf _ fuel l0 hl0
  obtain ⟨_, _, hmemC, hdepthC⟩ := top_facts tasks hwf _ fuel lC2 hlC
  have hidden : ∀ t ∈ tasks, collapsedAt collapsed t.ID = true → ∀ x, IsDescendant tasks x t →
      x ∉ lC2.map Prod.fst := by
    intro t ht hcol x hdesc hin
    obtain ⟨e, hxe⟩ := mem_visible lC2 x hin
    have hall := (hiff x e (hsub.subset hxe)).mp hxe
    obtain ⟨m, hm⟩ := desc_of_isDescendant tasks hdistinct x t hdesc
    have hrank := (hmemC x e hxe).2
    have hme : m < e := by
      by_contra hge
      have hsplit : m + 1 = (m - e) + (e + 1) := by omega
      rw [hsplit, Function.iterate_add_apply, hrank.1, parId_iter_zero tasks hnonzero] at hm
      exact hnonzero t ht hm.symm
    have := hall m (by omega)
    rw [hm, collOf_of_descendant tasks collapsed hnonzero x t ht hcol hdesc] at this
    cases this
  refine ⟨_, _, hb0, hbC, hsub.map Prod.fst, ?_, ?_⟩
  · intro t ht hcol x hdesc
    refine ⟨hidden t ht hcol x hdesc, ?_⟩
    show IntMap.get (lC2.foldl (fun m e => IntMap.set m e.1.ID e.2) []) x.ID = none
    rw [depth_get_not_mem]
    · rfl
    · intro e2 he2 heq
      have hx : x ∈ tasks := (isDescendant_mem tasks x t hdesc).1
      have : e2.1 = x := ids_inj tasks hdistinct e2.1 x (hmemC e2.1 e2.2 he2).1 hx heq
      exact hidden t ht hcol x hdesc (List.mem_map.mpr ⟨e2, he2, this⟩)
  · intro x hx hfree
    obtain ⟨e, hxe⟩ := mem_visible l0 x hx
    have hxt : x ∈ tasks := (hmem0 x e hxe).1
    have hin : (x, e) ∈ lC2 := by
      apply (hiff x e hxe).mpr
      intro m _
      by_contra hne
      have htrue : collOf tasks collapsed ((parId tasks)^[m + 1] x.ID) = true := by
        simpa using hne
      have hparts : hasKids tasks ((parId tasks)^[m + 1] x.ID) = true ∧
          collapsedAt collapsed ((parId tasks)^[m + 1] x.ID) = true := by
        simpa [collOf] using htrue
      have hnz : (parId tasks)^[m + 1] x.ID ≠ 0 := by
        intro hz
        rw [hz] at hparts
        simp [hasKids] at hparts
      have hid : hasID tasks ((parId tasks)^[m + 1] x.ID) = true := by
        rw [Function.iterate_succ_apply'] at hnz ⊢
        rcases parId_zero_or_hasID tasks ((parId tasks)^[m] x.ID) with hz | h
        · exact absurd hz hnz
        · exact h
      obtain ⟨t, ht, hte⟩ := (hasID_iff _ _).mp hid
      rw [← hte] at hparts
      exact hfree t ht hparts.2 (isDescendant_of_desc tasks hwf t ht m x hxt hte.symm)
    refine ⟨List.mem_map.mpr ⟨(x, e), hin, rfl⟩, ?_⟩
    exact (hdepthC x e hin []).trans (hdepth0 x e hxe []).symm

/-- Witness of `C5_collapsed_subtree`: the chain example with the collapsed
map `1:true`, compared with the nil map. -/
theorem C5_collapsed_subtree_witness :
    ((idsOf [sampleA, sampleB, sampleC]).Nodup ∧
      (∀ t ∈ [sampleA, sampleB, sampleC], t.ID ≠ 0) ∧
      [sampleA, sampleB, sampleC].length < 4 ∧ ∀ k, collapsedAt none k = false) ∧
    ∃ r0 rC, buildVisibleTaskTree 4 [sampleA, sampleB, sampleC] none = some r0 ∧
      buildVisibleTaskTree 4 [sampleA, sampleB, sampleC] (some [(1, true)]) = some rC ∧
      rC.visible.Sublist r0.visible ∧
      (∀ t ∈ [sampleA, sampleB, sampleC], collapsedAt (some [(1, true)]) t.ID = true →
        ∀ x, IsDescendant [sampleA, sampleB, sampleC] x t →
        x ∉ rC.visible ∧ rC.depthByID.get x.ID = none) ∧
      (∀ x ∈ r0.visible,
        (∀ t ∈ [sampleA, sampleB, sampleC], collapsedAt (some [(1, true)]) t.ID = true →
          ¬ IsDescendant [sampleA, sampleB, sampleC] x t) →
        x ∈ rC.visible ∧ rC.depthByID.get x.ID = r0.depthByID.get x.ID) :=
  ⟨⟨by decide, by decide, by decide, fun _ => rfl⟩,
    C5_collapsed_subtree [sampleA, sampleB, sampleC] (some [(1, true)]) none 4
      (by decide) (by decide) (by decide) (fun _ => rfl)⟩

/-! ## The `hasChildren` map -/

theorem hasKids_iff (tasks : List Task) (k : Int) :
    hasKids tasks k = true ↔
      k ≠ 0 ∧ ∃ t ∈ tasks, t.ParentTaskID = some k ∧ ∃ q ∈ tasks, q.ID = k := by
  unfold hasKids
  simp only [Bool.and_eq_true, bne_iff_ne, ne_eq, Bool.not_eq_true', List.isEmpty_eq_false]
  constructor
  · rintro ⟨hk, hne⟩
    refine ⟨hk, ?_⟩
    obtain ⟨t, ht⟩ := List.exists_mem_of_ne_nil _ (by simpa using hne)
    obtain ⟨htt, hkey⟩ := (mem_kidsOf _ _ _).mp ht
    have hnz : effKey tasks t ≠ 0 := by rw [hkey]; exact hk
    obtain ⟨hp, hid⟩ := effKey_ne_zero tasks t hnz
    rw [hkey] at hp hid
    exact ⟨t, htt, hp, (hasID_iff _ _).mp hid⟩
  · rintro ⟨hk, t, ht, hp, hq⟩
    refine ⟨hk, ?_⟩
    have hkey := effKey_of_parent tasks t k hp ((hasID_iff _ _).mpr hq)
    have hmem : t ∈ kidsOf tasks k := (mem_kidsOf _ _ _).mpr ⟨ht, hkey⟩
    simpa using List.ne_nil_of_mem hmem

/-- C6, as the code has it: the `hasChildren` map that `buildVisibleTaskTree`
computes is `true` at an id exactly when the id is not 0, some task of the
input declares it as parent and some task of the input has it as id, and it
has no entry at any other id; every result returned for the task list, for
any collapsed set, carries this map; and on distinct non-zero ids a result is
returned. -/
theorem C6_hasChildren_nonzero (tasks : List Task) :
    (∀ k, (hasChildrenMap tasks).get k
      = if k ≠ 0 ∧ ∃ t ∈ tasks, t.ParentTaskID = some k ∧ ∃ q ∈ tasks, q.ID = k
        then some true else none) ∧
    (∀ fuel collapsed r, buildVisibleTaskTree fuel tasks collapsed = some r →
      r.hasChildren = hasChildrenMap tasks) ∧
    ((idsOf tasks).Nodup → (∀ t ∈ tasks, t.ID ≠ 0) → ∀ fuel collapsed, tasks.length < fuel →
      ∃ r, buildVisibleTaskTree fuel tasks collapsed = some r) := by
  refine ⟨?_, ?_, ?_⟩
  · intro k
    rw [hasChildrenMap_get]
    by_cases h : hasKids tasks k = true
    · rw [if_pos h, if_pos ((hasKids_iff tasks k).mp h)]
    · rw [if_neg h, if_neg (fun hh => h ((hasKids_iff tasks k).mpr hh))]
  · intro fuel collapsed r hr
    by_cases hne : tasks = []
    · subst hne
      simp only [buildVisibleTaskTree, List.length_nil, if_true, Option.some.injEq] at hr
      subst hr
      rfl
    · rw [build_eq fuel tasks collapsed hne] at hr
      cases hl : walkList (sortedKids tasks) (collOf tasks collapsed) fuel 0 0 with
      | none => simp [hl] at hr
      | some l =>
        simp only [hl, Option.map_some', Option.some.injEq] at hr
        subst hr
        rfl
  · intro hd hz fuel collapsed hfuel
    obtain ⟨l, _, hb⟩ := build_run tasks collapsed fuel ⟨hd, hz⟩ hfuel
    exact ⟨_, hb⟩

/-- C6 fails as stated: on the list Y(id 1, parent 0), X(id 0, parent 7),
Z(id 7, parent 7) the function returns, the task Y declares the parent 0 and X
has the id 0, but the returned `hasChildren` map has no entry for 0. -/
theorem C6_counterexample :
    ∃ r, buildVisibleTaskTree 2 zeroIdTasks none = some r ∧
      (∃ t ∈ zeroIdTasks, t.ParentTaskID = some 0 ∧ ∃ q ∈ zeroIdTasks, q.ID = 0) ∧
      r.hasChildren.get 0 = none ∧
      ¬ (∀ k, r.hasChildren.get k = some true ↔
          ∃ t ∈ zeroIdTasks, t.ParentTaskID = some k ∧ ∃ q ∈ zeroIdTasks, q.ID = k) := by
  have hex : ∃ t ∈ zeroIdTasks, t.ParentTaskID = some 0 ∧ ∃ q ∈ zeroIdTasks, q.ID = 0 := by
    decide
  refine ⟨_, rfl, hex, rfl, ?_⟩
  intro h
  have := (h 0).mpr hex
  revert this
  decide

/-! ## Trimming and lower-casing -/

theorem mk_eq_empty (l : List Char) : (String.mk l = "") ↔ l = [] := by
  constructor
  · intro h
    have := congrArg String.data h
    simpa using this
  · intro h
    rw [h]

theorem trim_map (f : Char → Char) (hsp : ∀ c, isSpace (f c) = isSpace c) (l : List Char) :
    ((l.map f).dropWhile isSpace).rdropWhile isSpace
      = ((l.dropWhile isSpace).rdropWhile isSpace).map f := by
  have hcomp : isSpace ∘ f = isSpace := funext hsp
  simp only [List.rdropWhile, List.dropWhile_map, ← List.map_reverse, hcomp]

theorem trim_eq_nil_iff (l : List Char) :
    (l.dropWhile isSpace).rdropWhile isSpace = [] ↔ ∀ c ∈ l, isSpace c = true := by
  rw [List.rdropWhile_eq_nil_iff]
  constructor
  · intro h
    by_cases hd : l.dropWhile isSpace = []
    · exact List.dropWhile_eq_nil_iff.mp hd
    · have h1 := List.head_dropWhile_not isSpace l hd
      have h2 := h _ (List.head_mem hd)
      rw [h1] at h2
      cases h2
  · intro h x hx
    rw [List.dropWhile_eq_nil_iff.mpr h] at hx
    cases hx

theorem trim_head (l : List Char) (c : Char)
    (h : ((l.dropWhile isSpace).rdropWhile isSpace).head? = some c) : isSpace c = false := by
  obtain ⟨rest, hrest⟩ := List.rdropWhile_prefix isSpace (l := l.dropWhile isSpace)
  cases ht : (l.dropWhile isSpace).rdropWhile isSpace with
  | nil => simp [ht] at h
  | cons a t =>
    rw [ht] at h hrest
    simp only [List.head?_cons, Option.some.injEq] at h
    subst h
    have hd : l.dropWhile isSpace ≠ [] := by
      rw [← hrest]
      simp
    have h1 := List.head_dropWhile_not isSpace l hd
    have h2 : (l.dropWhile isSpace).head hd = a := by
      simp only [← hrest, List.cons_append, List.head_cons]
    rw [h2] at h1
    exact h1

theorem trim_last (l : List Char) (c : Char)
    (h : ((l.dropWhile isSpace).rdropWhile isSpace).getLast? = some c) : isSpace c = false := by
  have hne : (l.dropWhile isSpace).rdropWhile isSpace ≠ [] := by
    intro hnil
    rw [hnil] at h
    cases h
  have h1 := List.rdropWhile_last_not isSpace (l.dropWhile isSpace) hne
  rw [List.getLast?_eq_getLast _ hne] at h
  have h2 := Option.some.inj h
  rw [h2] at h1
  simpa using h1

theorem isBlank_iff (s : String) : isBlank s = true ↔ ∀ c ∈ s.data, isSpace c = true := by
  simp [isBlank]

theorem trimSpace_toLower (lower : Char → Char) (hsp : ∀ c, isSpace (lower c) = isSpace c)
    (s : String) : trimSpace (toLower lower s) = toLower lower (trimSpace s) := by
  simp only [trimSpace, toLower]
  rw [trim_map lower hsp]

theorem trimSpace_eq_empty_iff (s : String) : trimSpace s = "" ↔ isBlank s = true := by
  unfold trimSpace
  rw [mk_eq_empty, trim_eq_nil_iff, isBlank_iff]

theorem toLower_isBlank (lower : Char → Char) (hsp : ∀ c, isSpace (lower c) = isSpace c)
    (s : String) : isBlank (toLower lower s) = isBlank s := by
  simp [isBlank, toLower, List.all_map, Function.comp_def, hsp]

/-- C7: `normalizeStatus s` is `todo` when `s` is empty or white space only, and
the trimmed, lower-cased form of `s` otherwise (trimming and lower-casing in
either order); the result is never blank and neither starts nor ends with
white space; `ToDo` gives `todo`. The case table `lower` of the Go library is
assumed to map white space to white space and other code points to other code
points, and to lower-case the ASCII letters. -/
theorem C7_normalizeStatus (lower : Char → Char)
    (hsp : ∀ c, isSpace (lower c) = isSpace c)
    (hascii : ∀ c : Char, c.toNat < 128 → lower c = c.toLower) (s : String) :
    normalizeStatus lower s
      = (if isBlank s then "todo" else toLower lower (trimSpace s)) ∧
    normalizeStatus lower s
      = (if isBlank s then "todo" else trimSpace (toLower lower s)) ∧
    isBlank (normalizeStatus lower s) = false ∧
    (∀ c, (normalizeStatus lower s).data.head? = some c → isSpace c = false) ∧
    (∀ c, (normalizeStatus lower s).data.getLast? = some c → isSpace c = false) ∧
    normalizeStatus lower "ToDo" = "todo" := by
  have hcode : normalizeStatus lower s
      = (if isBlank s then "todo" else trimSpace (toLower lower s)) := by
    unfold normalizeStatus
    by_cases hb : isBlank s = true
    · have : trimSpace (toLower lower s) = "" := by
        rw [trimSpace_eq_empty_iff, toLower_isBlank lower hsp, hb]
      simp [this, hb]
    · have : ¬ trimSpace (toLower lower s) = "" := by
        rw [trimSpace_eq_empty_iff, toLower_isBlank lower hsp]
        exact hb
      simp [this, hb]
  refine ⟨?_, hcode, ?_, ?_, ?_, ?_⟩
  · rw [hcode, trimSpace_toLower lower hsp]
  · rw [hcode]
    by_cases hb : isBlank s = true
    · simp only [hb, if_true]
      decide
    · simp only [hb, Bool.false_eq_true, if_false]
      cases hbl : isBlank (trimSpace (toLower lower s)) with
      | false => rfl
      | true =>
        have h1 := (trimSpace_eq_empty_iff (trimSpace (toLower lower s))).mpr hbl
        have h2 : ¬ trimSpace (toLower lower s) = "" := by
          rw [trimSpace_eq_empty_iff, toLower_isBlank lower hsp]
          exact hb
        exfalso
        apply h2
        -- a trimmed string that trims to the empty string is empty
        have hall := (isBlank_iff _).mp hbl
        cases hd : (trimSpace (toLower lower s)).data with
        | nil => exact (mk_eq_empty _).mpr hd
        | cons a t =>
          have ha := hall a (by rw [hd]; exact List.mem_cons_self _ _)
          have hh : (trimSpace (toLower lower s)).data.head? = some a := by rw [hd]; rfl
          have := trim_head _ a hh
          rw [ha] at this
          cases this
  · intro c hc
    rw [hcode] at hc
    by_cases hb : isBlank s = true
    · simp only [hb, if_true] at hc
      have : c = 't' := by
        have := Option.some.inj hc
        exact this.symm
      subst this
      decide
    · simp only [hb, Bool.false_eq_true, if_false] at hc
      exact trim_head _ c hc
  · intro c hc
    rw [hcode] at hc
    by_cases hb : isBlank s = true
    · simp only [hb, if_true] at hc
      have : c = 'o' := by
        have := Option.some.inj hc
        exact this.symm
      subst this
      decide
    · simp only [hb, Bool.false_eq_true, if_false] at hc
      exact trim_last _ c hc
  · have hT := hascii 'T' (by decide)
    have hD := hascii 'D' (by decide)
    have ho := hascii 'o' (by decide)
    have hl : toLower lower "ToDo" = "todo" := by
      show String.mk (List.map lower ['T', 'o', 'D', 'o']) = "todo"
      simp only [List.map_cons, List.map_nil, hT, hD, ho]
      decide
    unfold normalizeStatus
    rw [hl]
    decide

/-- Witness of `C7_normalizeStatus`: the ASCII case table and the status
`  ToDo `. -/
theorem C7_normalizeStatus_witness :
    normalizeStatus Char.toLower "  ToDo "
      = (if isBlank "  ToDo " then "todo" else toLower Char.toLower (trimSpace "  ToDo ")) ∧
    normalizeStatus Char.toLower "  ToDo "
      = (if isBlank "  ToDo " then "todo" else trimSpace (toLower Char.toLower "  ToDo ")) ∧
    isBlank (normalizeStatus Char.toLower "  ToDo ") = false ∧
    (∀ c, (normalizeStatus Char.toLower "  ToDo ").data.head? = some c → isSpace c = false) ∧
    (∀ c, (normalizeStatus Char.toLower "  ToDo ").data.getLast? = some c →
      isSpace c = false) ∧
    normalizeStatus Char.toLower "ToDo" = "todo" :=
  C7_normalizeStatus Char.toLower
    (by
      intro c
      by_cases h : 65 ≤ c.toNat ∧ c.toNat ≤ 90
      · have hc : c = Char.ofNat c.toNat := (Char.ofNat_toNat c).symm
        obtain ⟨h1, h2⟩ := h
        generalize c.toNat = n at hc h1 h2
        subst hc
        interval_cases n <;> decide
      · have : c.toLower = c := by
          unfold Char.toLower
          simp only [ge_iff_le, h, if_false]
        rw [this])
    (fun _ _ => rfl) "  ToDo "

/-! ## Tag normalisation -/

theorem normalizeTags_fold (lower : Char → Char) (tags : List String)
    (st : List String × List String) :
    (tags.foldl (normalizeTagsStep lower) st).2 = st.2 ++ loopTags lower st.1 tags := by
  induction tags generalizing st with
  | nil => simp [loopTags]
  | cons tag rest ih =>
    rw [List.foldl_cons, ih]
    unfold normalizeTagsStep
    by_cases h1 : trimSpace tag = ""
    · simp [loopTags, h1]
    · by_cases h2 : toLower lower (trimSpace tag) ∈ st.1
      · simp [loopTags, h1, h2]
      · simp [loopTags, h1, h2]

theorem keepFirstByKey_cons (key : String → String) (x : String) (xs : List String) :
    keepFirstByKey key (x :: xs)
      = x :: keepFirstByKey key (xs.filter (fun y => key y ≠ key x)) := by
  rw [keepFirstByKey]

theorem loopTags_eq (lower : Char → Char) (tags : List String) (seen : List String) :
    loopTags lower seen tags
      = keepFirstByKey (toLower lower)
          ((cleanedTags tags).filter (fun t => toLower lower t ∉ seen)) := by
  induction tags generalizing seen with
  | nil => simp [loopTags, cleanedTags, keepFirstByKey]
  | cons tag rest ih =>
    unfold loopTags
    by_cases h1 : trimSpace tag = ""
    · have hc : cleanedTags (tag :: rest) = cleanedTags rest := by
        simp [cleanedTags, h1]
      rw [if_pos h1, ih, hc]
    · have hc : cleanedTags (tag :: rest) = trimSpace tag :: cleanedTags rest := by
        simp [cleanedTags, h1]
      rw [if_neg h1, hc]
      by_cases h2 : toLower lower (trimSpace tag) ∈ seen
      · rw [if_pos h2, ih]
        simp [List.filter_cons, h2]
      · rw [if_neg h2, ih]
        simp only [List.filter_cons, h2, not_false_eq_true, decide_True, if_true]
        rw [keepFirstByKey_cons, List.filter_filter]
        congr 2
        apply List.filter_congr
        intro t _
        simp only [List.mem_cons, not_or, ne_eq, Bool.and_eq_true, decide_eq_true_eq,
          Bool.decide_and]

theorem keepFirstByKey_props (key : String → String) (n : Nat) :
    ∀ l : List String, l.length ≤ n →
      (keepFirstByKey key l).Sublist l ∧
      (keepFirstByKey key l).Pairwise (fun a b => key a ≠ key b) ∧
      (∀ l1 x l2, l = l1 ++ x :: l2 → (∀ y ∈ l1, key y ≠ key x) → x ∈ keepFirstByKey key l) := by
  induction n with
  | zero =>
    intro l hl
    have : l = [] := List.length_eq_zero.mp (Nat.le_zero.mp hl)
    subst this
    refine ⟨by simp [keepFirstByKey], by simp [keepFirstByKey], ?_⟩
    intro l1 x l2 h
    simp at h
  | succ n ih =>
    intro l hl
    cases l with
    | nil =>
      refine ⟨by simp [keepFirstByKey], by simp [keepFirstByKey], ?_⟩
      intro l1 x l2 h
      simp at h
    | cons a l =>
      have hlen : (l.filter (fun y => key y ≠ key a)).length ≤ n := by
        have := List.length_filter_le (fun y => decide (key y ≠ key a)) l
        simp only [List.length_cons] at hl
        omega
      obtain ⟨hsub, hpw, hfirst⟩ := ih _ hlen
      rw [keepFirstByKey_cons]
      refine ⟨?_, ?_, ?_⟩
      · exact List.Sublist.cons₂ _ (hsub.trans (List.filter_sublist _))
      · rw [List.pairwise_cons]
        refine ⟨?_, hpw⟩
        intro y hy
        have hy2 := hsub.subset hy
        have := (List.mem_filter.mp hy2).2
        have h3 : key y ≠ key a := by simpa using this
        exact fun e => h3 e.symm
      · intro l1 x l2 hsplit hall
        cases l1 with
        | nil =>
          simp only [List.nil_append, List.cons.injEq] at hsplit
          rw [hsplit.1]
          exact List.mem_cons_self _ _
        | cons b l1 =>
          simp only [List.cons_append, List.cons.injEq] at hsplit
          obtain ⟨hab, hl⟩ := hsplit
          subst hab
          have hxa : key x ≠ key a := fun e => hall a (List.mem_cons_self _ _) e.symm
          refine List.mem_cons_of_mem _ (hfirst (l1.filter (fun y => key y ≠ key a)) x
            (l2.filter (fun y => key y ≠ key a)) ?_ ?_)
          · rw [hl, List.filter_append, List.filter_cons]
            simp [hxa]
          · intro y hy
            exact hall y (List.mem_cons_of_mem _ (List.mem_filter.mp hy).1)

theorem trimSpace_idem (s : String) : trimSpace (trimSpace s) = trimSpace s := by
  unfold trimSpace
  congr 1
  show (List.dropWhile isSpace ((s.data.dropWhile isSpace).rdropWhile isSpace)).rdropWhile isSpace
    = (s.data.dropWhile isSpace).rdropWhile isSpace
  have hd : List.dropWhile isSpace ((s.data.dropWhile isSpace).rdropWhile isSpace)
      = (s.data.dropWhile isSpace).rdropWhile isSpace := by
    cases ht : (s.data.dropWhile isSpace).rdropWhile isSpace with
    | nil => rfl
    | cons a t =>
      have := trim_head s.data a (by rw [ht]; rfl)
      simp [List.dropWhile_cons, this]
  rw [hd, List.rdropWhile_idempotent]

theorem toLower_ascii (lower : Char → Char)
    (hascii : ∀ c : Char, c.toNat < 128 → lower c = c.toLower) (s : String)
    (h : ∀ c ∈ s.data, c.toNat < 128) : toLower lower s = toLower Char.toLower s := by
  unfold toLower
  congr 1
  exact List.map_congr_left (fun c hc => hascii c (h c hc))

theorem trimSpace_not_blank (s : String) (h : trimSpace s ≠ "") :
    isBlank (trimSpace s) = false := by
  cases hbl : isBlank (trimSpace s) with
  | false => rfl
  | true =>
    exfalso
    apply h
    have hall := (isBlank_iff _).mp hbl
    cases hd : (trimSpace s).data with
    | nil => exact (mk_eq_empty _).mpr hd
    | cons a t =>
      have ha := hall a (by rw [hd]; exact List.mem_cons_self _ _)
      have hh : (trimSpace s).data.head? = some a := by rw [hd]; rfl
      have := trim_head _ a hh
      rw [ha] at this
      cases this

/-- C8: `normalizeTags` returns the trimmed, non-empty names with, of every
group of names equal up to case, only the first one, in the order and casing
of these first occurrences: the result is the nub by the lower-cased name of
the trimmed non-empty names; it is a subsequence of them, every name that has
no case-equal name before it is kept, no entry is blank and no two entries are
equal up to case; and `Work`, ` work `, `HOME` gives `Work`, `HOME` (for a
case table that lower-cases the ASCII letters). -/
theorem C8_normalizeTags (lower : Char → Char)
    (hascii : ∀ c : Char, c.toNat < 128 → lower c = c.toLower) (tags : List String) :
    normalizeTags lower tags = keepFirstByKey (toLower lower) (cleanedTags tags) ∧
    (normalizeTags lower tags).Sublist (cleanedTags tags) ∧
    (∀ l1 x l2, cleanedTags tags = l1 ++ x :: l2 →
      (∀ y ∈ l1, toLower lower y ≠ toLower lower x) → x ∈ normalizeTags lower tags) ∧
    (∀ x ∈ normalizeTags lower tags, isBlank x = false ∧ trimSpace x = x) ∧
    (normalizeTags lower tags).Pairwise (fun a b => toLower lower a ≠ toLower lower b) ∧
    normalizeTags lower ["Work", " work ", "HOME"] = ["Work", "HOME"] := by
  have heq : ∀ ts, normalizeTags lower ts = keepFirstByKey (toLower lower) (cleanedTags ts) := by
    intro ts
    unfold normalizeTags
    rw [normalizeTags_fold, loopTags_eq]
    simp
  obtain ⟨hsub, hpw, hfirst⟩ :=
    keepFirstByKey_props (toLower lower) (cleanedTags tags).length (cleanedTags tags) (le_refl _)
  rw [heq tags]
  refine ⟨rfl, hsub, hfirst, ?_, hpw, ?_⟩
  · intro x hx
    have hx2 := hsub.subset hx
    unfold cleanedTags at hx2
    obtain ⟨hm, hne⟩ := List.mem_filter.mp hx2
    obtain ⟨t, _, rfl⟩ := List.mem_map.mp hm
    have hne2 : trimSpace t ≠ "" := by simpa using hne
    exact ⟨trimSpace_not_blank t hne2, trimSpace_idem t⟩
  · have t1 : trimSpace "Work" = "Work" := by decide
    have t2 : trimSpace " work " = "work" := by decide
    have t3 : trimSpace "HOME" = "HOME" := by decide
    have l1 : toLower lower "Work" = "work" := by
      rw [toLower_ascii lower hascii "Work" (by decide)]
      decide
    have l2 : toLower lower "work" = "work" := by
      rw [toLower_ascii lower hascii "work" (by decide)]
      decide
    have l3 : toLower lower "HOME" = "home" := by
      rw [toLower_ascii lower hascii "HOME" (by decide)]
      decide
    have c : cleanedTags ["Work", " work ", "HOME"] = ["Work", "work", "HOME"] := by decide
    have n1 : ¬ ("home" = "work") := by decide
    rw [heq, c]
    simp [keepFirstByKey_cons, keepFirstByKey, l1, l2, l3, n1]

/-- Witness of `C8_normalizeTags`: the ASCII case table and the tags of the
example followed by a blank one. -/
theorem C8_normalizeTags_witness :
    normalizeTags Char.toLower ["Work", " work ", "HOME", " "]
      = keepFirstByKey (toLower Char.toLower) (cleanedTags ["Work", " work ", "HOME", " "]) ∧
    (normalizeTags Char.toLower ["Work", " work ", "HOME", " "]).Sublist
      (cleanedTags ["Work", " work ", "HOME", " "]) ∧
    (∀ l1 x l2, cleanedTags ["Work", " work ", "HOME", " "] = l1 ++ x :: l2 →
      (∀ y ∈ l1, toLower Char.toLower y ≠ toLower Char.toLower x) →
      x ∈ normalizeTags Char.toLower ["Work", " work ", "HOME", " "]) ∧
    (∀ x ∈ normalizeTags Char.toLower ["Work", " work ", "HOME", " "],
      isBlank x = false ∧ trimSpace x = x) ∧
    (normalizeTags Char.toLower ["Work", " work ", "HOME", " "]).Pairwise
      (fun a b => toLower Char.toLower a ≠ toLower Char.toLower b) ∧
    normalizeTags Char.toLower ["Work", " work ", "HOME"] = ["Work", "HOME"] :=
  C8_normalizeTags Char.toLower (fun _ _ => rfl) ["Work", " work ", "HOME", " "]

/-! ## Decimal rendering -/

theorem digitChar_val (d : Nat) (h : d < 10) :
    (Nat.digitChar d).toNat - 48 = d ∧ Nat.digitChar d ≠ '-' := by
  interval_cases d <;> decide

theorem ofDigits_zeros (k : Nat) : Nat.ofDigits 10 (List.replicate k 0) = 0 := by
  induction k with
  | zero => rfl
  | succ k ih => simp [List.replicate_succ, Nat.ofDigits_cons, ih]

theorem decimalNat_no_minus (n : Nat) : ∀ c ∈ decimalNat n, c ≠ '-' := by
  intro c hc
  unfold decimalNat at hc
  by_cases h0 : n = 0
  · simp only [h0, if_true, List.mem_singleton] at hc
    rw [hc]
    decide
  · simp only [h0, if_false, List.mem_map, List.mem_reverse] at hc
    obtain ⟨d, hd, rfl⟩ := hc
    exact (digitChar_val d (Nat.digits_lt_base (by decide) hd)).2

theorem decode_padded (k n : Nat) :
    decodeDigits (List.replicate k '0' ++ decimalNat n) = n := by
  unfold decodeDigits decimalNat
  by_cases h0 : n = 0
  · subst h0
    simp only [if_true, List.reverse_append, List.reverse_replicate, List.map_append,
      List.map_replicate, List.reverse_cons, List.reverse_nil, List.nil_append,
      List.map_cons, List.map_nil]
    have : ('0' : Char).toNat - 48 = 0 := by decide
    rw [this, Nat.ofDigits_append, ofDigits_zeros]
    simp [Nat.ofDigits_cons]
  · simp only [h0, if_false, List.reverse_append, List.reverse_replicate, List.map_append,
      List.map_replicate, List.map_reverse, List.reverse_reverse, List.map_map]
    have hmap : List.map ((fun c : Char => c.toNat - 48) ∘ Nat.digitChar) (Nat.digits 10 n)
        = Nat.digits 10 n := by
      conv_rhs => rw [← List.map_id (Nat.digits 10 n)]
      apply List.map_congr_left
      intro d hd
      exact (digitChar_val d (Nat.digits_lt_base (by decide) hd)).1
    have : ('0' : Char).toNat - 48 = 0 := by decide
    rw [hmap, this, Nat.ofDigits_append, ofDigits_zeros, Nat.ofDigits_digits]
    simp

theorem padded_no_minus (k n : Nat) : ∀ c ∈ List.replicate k '0' ++ decimalNat n, c ≠ '-' := by
  intro c hc
  rcases List.mem_append.mp hc with h | h
  · rw [(List.mem_replicate.mp h).2]
    decide
  · exact decimalNat_no_minus n c h

theorem padded_ne_nil (k n : Nat) : List.replicate k '0' ++ decimalNat n ≠ [] := by
  have : decimalNat n ≠ [] := by
    unfold decimalNat
    by_cases h0 : n = 0
    · simp [h0]
    · simp only [h0, if_false, ne_eq, List.map_eq_nil_iff, List.reverse_eq_nil_iff]
      exact fun h => h0 (Nat.digits_eq_nil_iff_eq_zero.mp h)
  simp [this]

/-- The rendering of `time.appendInt` determines the number, whatever the
width. -/
theorem appendInt_inj (x y : Int) (w v : Nat) (h : appendInt x w = appendInt y v) : x = y := by
  unfold appendInt at h
  by_cases hx : x < 0
  · by_cases hy : y < 0
    · simp only [hx, hy, if_true, List.cons_append, List.nil_append, List.cons.injEq,
        true_and] at h
      have := congrArg decodeDigits h
      rw [decode_padded, decode_padded] at this
      omega
    · simp only [hx, hy, if_true, if_false, List.cons_append, List.nil_append] at h
      exfalso
      have hmem : '-' ∈ List.replicate (v - (decimalNat y.natAbs).length) '0'
          ++ decimalNat y.natAbs := by
        rw [← h]
        exact List.mem_cons_self _ _
      exact padded_no_minus _ _ _ hmem rfl
  · by_cases hy : y < 0
    · simp only [hx, hy, if_true, if_false, List.cons_append, List.nil_append] at h
      exfalso
      have hmem : '-' ∈ List.replicate (w - (decimalNat x.natAbs).length) '0'
          ++ decimalNat x.natAbs := by
        rw [h]
        exact List.mem_cons_self _ _
      exact padded_no_minus _ _ _ hmem rfl
    · simp only [hx, hy, if_false, List.nil_append] at h
      have := congrArg decodeDigits h
      rw [decode_padded, decode_padded] at this
      omega

theorem two_digit_length (m : Nat) (h : m ≤ 31) : (appendInt (m : Int) 2).length = 2 := by
  interval_cases m <;> simp [appendInt, decimalNat]

theorem formatDate_split (t : Time) :
    (formatDate t).data
      = appendInt t.year 4 ++ ('-' :: appendInt t.month 2 ++ '-' :: appendInt t.day 2) := by
  simp [formatDate]

theorem formatDate_inj (t u : Time) (h : formatDate t = formatDate u) :
    t.year = u.year ∧ t.month = u.month ∧ t.day = u.day := by
  have hd := congrArg String.data h
  rw [formatDate_split, formatDate_split] at hd
  have hm1 := two_digit_length t.month (by have := t.month_ok; omega)
  have hm2 := two_digit_length u.month (by have := u.month_ok; omega)
  have hd1 := two_digit_length t.day t.day_ok.2
  have hd2 := two_digit_length u.day u.day_ok.2
  obtain ⟨hy, hrest⟩ := List.append_inj' hd (by simp [hm1, hm2, hd1, hd2])
  simp only [List.cons_append, List.cons.injEq, true_and] at hrest
  obtain ⟨hm, hday⟩ := List.append_inj' hrest (by simp [hd1, hd2])
  simp only [List.cons.injEq, true_and] at hday
  refine ⟨appendInt_inj _ _ _ _ hy, ?_, ?_⟩
  · exact Int.ofNat.inj (appendInt_inj _ _ _ _ hm)
  · exact Int.ofNat.inj (appendInt_inj _ _ _ _ hday)

theorem formatDate_ne_none (t : Time) : formatDate t ≠ "none" := by
  intro h
  have hd : (formatDate t).data.length = 4 := by
    rw [h]
    rfl
  rw [formatDate_split] at hd
  simp only [List.length_append, List.length_cons] at hd
  have hm1 := two_digit_length t.month (by have := t.month_ok; omega)
  have hd1 := two_digit_length t.day t.day_ok.2
  omega

theorem formatDue_ne (a b : Option Time) (h : dueDate a ≠ dueDate b) :
    formatDue a ≠ formatDue b := by
  intro heq
  apply h
  cases a with
  | none =>
    cases b with
    | none => rfl
    | some u => exact absurd heq.symm (formatDate_ne_none u)
  | some t =>
    cases b with
    | none => exact absurd heq (formatDate_ne_none t)
    | some u =>
      obtain ⟨h1, h2, h3⟩ := formatDate_inj t u heq
      simp [dueDate, h1, h2, h3]

/-! ## The order of `sort.Strings` -/

theorem strLe_total : IsTotal String strLe :=
  ⟨fun a b => le_total a.data b.data⟩

theorem strLe_trans : IsTrans String strLe :=
  ⟨fun _ _ _ h1 h2 => le_trans h1 h2⟩

theorem strLe_antisymm : IsAntisymm String strLe :=
  ⟨fun _ _ h1 h2 => String.ext (le_antisymm h1 h2)⟩

theorem sortNames_perm (l1 l2 : List String) (h : l1.Perm l2) :
    l1.insertionSort strLe = l2.insertionSort strLe := by
  haveI := strLe_total
  haveI := strLe_trans
  haveI := strLe_antisymm
  apply List.eq_of_perm_of_sorted (r := strLe)
  · exact (List.perm_insertionSort strLe l1).trans (h.trans (List.perm_insertionSort strLe l2).symm)
  · exact List.sorted_insertionSort strLe l1
  · exact List.sorted_insertionSort strLe l2

theorem formatTags_perm (a b : List Tag)
    (h : (a.map (fun t => t.Name)).Perm (b.map (fun t => t.Name))) :
    formatTags a = formatTags b := by
  unfold formatTags
  have hlen : a.length = b.length := by simpa using h.length_eq
  rw [sortNames_perm _ _ h, hlen]

/-! ## `formatTaskDiff` -/

theorem formatDate_congr (t u : Time) (h : (t.year, t.month, t.day) = (u.year, u.month, u.day)) :
    formatDate t = formatDate u := by
  simp only [Prod.mk.injEq] at h
  obtain ⟨h1, h2, h3⟩ := h
  unfold formatDate
  rw [h1, h2, h3]

theorem formatDue_congr (a b : Option Time) (h : dueDate a = dueDate b) :
    formatDue a = formatDue b := by
  cases a with
  | none =>
    cases b with
    | none => rfl
    | some u => simp [dueDate] at h
  | some t =>
    cases b with
    | none => simp [dueDate] at h
    | some u =>
      simp only [dueDate, Option.map_some', Option.some.injEq] at h
      exact formatDate_congr t u h

theorem intercalate_single (sep x : String) : String.intercalate sep [x] = x := rfl

/-- C9: when title, description, status, priority, parent, due date and tags
(up to their order) of two snapshots are equal, in particular when the two
snapshots are the same, `formatTaskDiff` is `updated: no changes`. -/
theorem C9_no_changes (before after : Task)
    (hTitle : before.Title = after.Title)
    (hDescription : before.Description = after.Description)
    (hStatus : before.Status = after.Status)
    (hPriority : before.Priority = after.Priority)
    (hParent : before.ParentTaskID = after.ParentTaskID)
    (hDue : dueDate before.DueAt = dueDate after.DueAt)
    (hTags : (before.Tags.map (fun t => t.Name)).Perm (after.Tags.map (fun t => t.Name))) :
    formatTaskDiff before after = "updated: no changes" ∧
    formatTaskDiff before before = "updated: no changes" := by
  have key : ∀ b a : Task, b.Title = a.Title → b.Description = a.Description →
      b.Status = a.Status → b.Priority = a.Priority → b.ParentTaskID = a.ParentTaskID →
      dueDate b.DueAt = dueDate a.DueAt →
      (b.Tags.map (fun t => t.Name)).Perm (a.Tags.map (fun t => t.Name)) →
      formatTaskDiff b a = "updated: no changes" := by
    intro b a h1 h2 h3 h4 h5 h6 h7
    have hc : diffChanges b a = [] := by
      unfold diffChanges
      simp [h1, h2, h3, h4, h5, formatDue_congr _ _ h6, formatTags_perm _ _ h7]
    unfold formatTaskDiff
    simp [hc]
  exact ⟨key before after hTitle hDescription hStatus hPriority hParent hDue hTags,
    key before before rfl rfl rfl rfl rfl rfl (List.Perm.refl _)⟩

/-- Witness of `C9_no_changes`: the task A of the chain example against
itself. -/
theorem C9_no_changes_witness :
    formatTaskDiff sampleA sampleA = "updated: no changes" ∧
    formatTaskDiff sampleA sampleA = "updated: no changes" :=
  C9_no_changes sampleA sampleA rfl rfl rfl rfl rfl rfl (List.Perm.refl _)

/-- C10: when two snapshots differ in the due date only, `formatTaskDiff`
builds exactly one fragment, the due fragment, and returns it after
`updated: `; from no due date to 2025-01-01 the result is
`updated: due: 'none' -> '2025-01-01'`. -/
theorem C10_due_only (before after : Task)
    (hTitle : before.Title = after.Title)
    (hDescription : before.Description = after.Description)
    (hStatus : before.Status = after.Status)
    (hPriority : before.Priority = after.Priority)
    (hParent : before.ParentTaskID = after.ParentTaskID)
    (hTags : (before.Tags.map (fun t => t.Name)).Perm (after.Tags.map (fun t => t.Name)))
    (hDue : dueDate before.DueAt ≠ dueDate after.DueAt) :
    diffChanges before after
      = [formatChange "due" (formatDue before.DueAt) (formatDue after.DueAt)] ∧
    formatTaskDiff before after
      = "updated: " ++ formatChange "due" (formatDue before.DueAt) (formatDue after.DueAt) ∧
    (before.DueAt = none → dueDate after.DueAt = some (2025, 1, 1) →
      formatTaskDiff before after = "updated: due: 'none' -> '2025-01-01'") := by
  have hc : diffChanges before after
      = [formatChange "due" (formatDue before.DueAt) (formatDue after.DueAt)] := by
    unfold diffChanges
    simp [hTitle, hDescription, hStatus, hPriority, hParent, formatTags_perm _ _ hTags,
      formatDue_ne _ _ hDue]
  have hf : formatTaskDiff before after
      = "updated: " ++ formatChange "due" (formatDue before.DueAt) (formatDue after.DueAt) := by
    unfold formatTaskDiff
    simp [hc, intercalate_single]
  refine ⟨hc, hf, ?_⟩
  intro hnone hdate
  rw [hf, hnone]
  cases hd : after.DueAt with
  | none => simp [hd, dueDate] at hdate
  | some d =>
    have hdd : formatDate d = formatDate jan1of2025 := by
      apply formatDate_congr
      simpa [hd, dueDate] using hdate
    have hj : formatDate jan1of2025 = "2025-01-01" := by
      simp [formatDate, jan1of2025, appendInt, decimalNat]
      decide
    simp only [formatDue, hdd, hj]
    decide

/-- Witness of `C10_due_only`: the task A of the chain example, before without
a due date and after with the due date 2025-01-01. -/
theorem C10_due_only_witness :
    diffChanges sampleA sampleADue
      = [formatChange "due" (formatDue sampleA.DueAt) (formatDue sampleADue.DueAt)] ∧
    formatTaskDiff sampleA sampleADue
      = "updated: " ++ formatChange "due" (formatDue sampleA.DueAt)
          (formatDue sampleADue.DueAt) ∧
    (sampleA.DueAt = none → dueDate sampleADue.DueAt = some (2025, 1, 1) →
      formatTaskDiff sampleA sampleADue = "updated: due: 'none' -> '2025-01-01'") :=
  C10_due_only sampleA sampleADue rfl rfl rfl rfl rfl (List.Perm.refl _) (by decide)

/-! ## The fragments of `formatTaskDiff` -/

theorem digitChar_isDigit (d : Nat) (h : d < 10) : (Nat.digitChar d).isDigit = true := by
  interval_cases d <;> decide

theorem decimalNat_isDigit (n : Nat) : ∀ c ∈ decimalNat n, c.isDigit = true := by
  intro c hc
  unfold decimalNat at hc
  by_cases h0 : n = 0
  · simp only [h0, if_true, List.mem_singleton] at hc
    rw [hc]
    decide
  · simp only [h0, if_false, List.mem_map, List.mem_reverse] at hc
    obtain ⟨d, hd, rfl⟩ := hc
    exact digitChar_isDigit d (Nat.digits_lt_base (by decide) hd)

theorem appendInt_chars (x : Int) (w : Nat) : ∀ c ∈ appendInt x w, c = '-' ∨ c.isDigit = true := by
  intro c hc
  unfold appendInt at hc
  rcases List.mem_append.mp hc with h | h
  · by_cases hx : x < 0
    · simp only [hx, if_true, List.mem_singleton] at h
      exact Or.inl h
    · simp [hx] at h
  · rcases List.mem_append.mp h with h2 | h2
    · rw [(List.mem_replicate.mp h2).2]
      exact Or.inr (by decide)
    · exact Or.inr (decimalNat_isDigit _ c h2)

theorem formatInt_ne_none (x : Int) : formatInt x ≠ "none" := by
  intro h
  have hd : (formatInt x).data = ['n', 'o', 'n', 'e'] := by
    rw [h]
  have hm : 'n' ∈ appendInt x 0 := by
    have : (formatInt x).data = appendInt x 0 := rfl
    rw [← this, hd]
    exact List.mem_cons_self _ _
  rcases appendInt_chars x 0 'n' hm with h1 | h1
  · exact absurd h1 (by decide)
  · exact absurd h1 (by decide)

theorem formatInt_inj (x y : Int) (h : formatInt x = formatInt y) : x = y :=
  appendInt_inj x y 0 0 (congrArg String.data h)

theorem formatParent_eq_iff (x y : Option Int) :
    formatParent x = formatParent y ↔ normParent x = normParent y := by
  cases x with
  | none =>
    cases y with
    | none => simp [formatParent, normParent]
    | some q =>
      by_cases hq : q = 0
      · simp [formatParent, normParent, hq]
      · simp only [formatParent, normParent, hq, if_false]
        constructor
        · intro h
          exact absurd h.symm (formatInt_ne_none q)
        · intro h
          cases h
  | some p =>
    by_cases hp : p = 0
    · cases y with
      | none => simp [formatParent, normParent, hp]
      | some q =>
        by_cases hq : q = 0
        · simp [formatParent, normParent, hp, hq]
        · simp only [formatParent, normParent, hp, hq, if_true, if_false]
          constructor
          · intro h
            exact absurd h.symm (formatInt_ne_none q)
          · intro h
            cases h
    · cases y with
      | none =>
        simp only [formatParent, normParent, hp, if_false]
        constructor
        · intro h
          exact absurd h (formatInt_ne_none p)
        · intro h
          cases h
      | some q =>
        by_cases hq : q = 0
        · simp only [formatParent, normParent, hp, hq, if_true, if_false]
          constructor
          · intro h
            exact absurd h (formatInt_ne_none p)
          · intro h
            cases h
        · simp only [formatParent, normParent, hp, hq, if_false, Option.some.injEq]
          exact ⟨formatInt_inj p q, fun h => by rw [h]⟩

theorem formatDue_eq_iff (a b : Option Time) :
    formatDue a = formatDue b ↔ dueDate a = dueDate b :=
  ⟨fun h => by
    by_contra hne
    exact formatDue_ne a b hne h, formatDue_congr a b⟩

theorem valueOrNone_eq (value : String) : valueOrNone value = shownValue value := by
  unfold valueOrNone shownValue
  by_cases h : isBlank value = true
  · have : trimSpace value = "" := (trimSpace_eq_empty_iff value).mpr h
    simp [this, h]
  · have : ¬ trimSpace value = "" := fun e => h ((trimSpace_eq_empty_iff value).mp e)
    simp [this, h]

theorem diffChanges_rows (before after : Task) :
    diffChanges before after
      = ((fieldRows before after).filter (fun r => r.2.2.2)).map
          (fun r => formatChange r.1 r.2.1 r.2.2.1) := by
  have hpri : (formatInt before.Priority ≠ formatInt after.Priority)
      ↔ before.Priority ≠ after.Priority :=
    not_congr ⟨formatInt_inj _ _, fun h => by rw [h]⟩
  have hpar := formatParent_eq_iff before.ParentTaskID after.ParentTaskID
  have hdue := formatDue_eq_iff before.DueAt after.DueAt
  unfold diffChanges fieldRows
  by_cases h1 : before.Title = after.Title <;>
  by_cases h2 : before.Description = after.Description <;>
  by_cases h3 : before.Status = after.Status <;>
  by_cases h4 : before.Priority = after.Priority <;>
  by_cases h5 : formatParent before.ParentTaskID = formatParent after.ParentTaskID <;>
  by_cases h6 : formatDue before.DueAt = formatDue after.DueAt <;>
  by_cases h7 : formatTags before.Tags = formatTags after.Tags <;>
  simp [h1, h2, h3, h4, h5, h6, h7, ← hpar, ← hdue, List.filter_cons]

/-! ## Tag order and the snapshot summaries -/

theorem formatTags_eq (tags : List Tag) :
    formatTags tags
      = if tags = [] then "none"
        else String.intercalate "," ((tags.map (fun t => t.Name)).insertionSort strLe) := by
  unfold formatTags
  cases tags with
  | nil => rfl
  | cons a l => simp

theorem sortNames_sorted (names : List String) :
    List.Sorted strLe (names.insertionSort strLe) ∧ (names.insertionSort strLe).Perm names := by
  haveI := strLe_total
  haveI := strLe_trans
  exact ⟨List.sorted_insertionSort strLe names, List.perm_insertionSort strLe names⟩

/-! ### Joining and splitting at commas -/

theorem intercalate_go_data (sep : String) (l : List String) (acc : String) :
    (String.intercalate.go acc sep l).data
      = acc.data ++ l.flatMap (fun a => sep.data ++ a.data) := by
  induction l generalizing acc with
  | nil => simp [String.intercalate.go]
  | cons a rest ih =>
    rw [String.intercalate.go, ih]
    simp [List.flatMap_cons, String.data_append, List.append_assoc]

theorem intercalate_data (sep a : String) (l : List String) :
    (String.intercalate sep (a :: l)).data
      = a.data ++ l.flatMap (fun x => sep.data ++ x.data) := by
  rw [String.intercalate, intercalate_go_data]

theorem splitOnComma_piece (x rest : List Char) (hx : ',' ∉ x) :
    splitOnComma (x ++ ',' :: rest) = x :: splitOnComma rest := by
  induction x with
  | nil => simp [splitOnComma]
  | cons c cs ih =>
    have hc : c ≠ ',' := fun h => hx (by simp [h])
    have hcs : ',' ∉ cs := fun h => hx (List.mem_cons_of_mem _ h)
    rw [List.cons_append, splitOnComma, if_neg hc, ih hcs]

theorem splitOnComma_last (x : List Char) (hx : ',' ∉ x) : splitOnComma x = [x] := by
  induction x with
  | nil => rfl
  | cons c cs ih =>
    have hc : c ≠ ',' := fun h => hx (by simp [h])
    have hcs : ',' ∉ cs := fun h => hx (List.mem_cons_of_mem _ h)
    rw [splitOnComma, if_neg hc, ih hcs]

theorem splitOnComma_pieces (a : List Char) (l : List (List Char)) (ha : ',' ∉ a)
    (hl : ∀ x ∈ l, ',' ∉ x) :
    splitOnComma (a ++ l.flatMap (fun x => ',' :: x)) = a :: l := by
  induction l generalizing a with
  | nil => simpa using splitOnComma_last a ha
  | cons b rest ih =>
    rw [List.flatMap_cons, List.cons_append, splitOnComma_piece a _ ha,
      ih b (hl b (List.mem_cons_self _ _)) (fun x hx => hl x (List.mem_cons_of_mem _ hx))]

/-- Splitting a comma-joined list of names without commas gives the names. -/
theorem splitOnComma_join (a : String) (l : List String)
    (h : ∀ x ∈ a :: l, ',' ∉ x.data) :
    splitOnComma (String.intercalate "," (a :: l)).data = (a :: l).map String.data := by
  rw [intercalate_data]
  have e : l.flatMap (fun x => (",").data ++ x.data)
      = (l.map String.data).flatMap (fun x => ',' :: x) := by
    induction l with
    | nil => rfl
    | cons b rest ih =>
      simp only [List.flatMap_cons, List.map_cons]
      rw [ih (fun x hx => by
        rcases List.mem_cons.mp hx with rfl | hx
        · exact h _ (List.mem_cons_self _ _)
        · exact h x (List.mem_cons_of_mem _ (List.mem_cons_of_mem _ hx)))]
      rfl
  rw [e, splitOnComma_pieces _ _ (h a (List.mem_cons_self _ _))]
  · rfl
  · intro x hx
    obtain ⟨y, hy, rfl⟩ := List.mem_map.mp hx
    exact h y (List.mem_cons_of_mem _ hy)

theorem join_inj (l1 l2 : List String) (h1 : l1 ≠ []) (h2 : l2 ≠ [])
    (hc1 : ∀ x ∈ l1, ',' ∉ x.data) (hc2 : ∀ x ∈ l2, ',' ∉ x.data)
    (h : String.intercalate "," l1 = String.intercalate "," l2) : l1 = l2 := by
  cases l1 with
  | nil => exact absurd rfl h1
  | cons a as =>
    cases l2 with
    | nil => exact absurd rfl h2
    | cons b bs =>
      have e1 := splitOnComma_join a as hc1
      have e2 := splitOnComma_join b bs hc2
      rw [h, e2] at e1
      exact (List.map_injective_iff.mpr (fun x y hxy => String.ext hxy) e1).symm

/-! ### The fragments of a diff -/

/-- Tag lists without a comma in a name that render alike have the same names
up to order, or one is empty and the other is the one tag `none`. -/
theorem formatTags_inj (a b : List Tag) (hc : ∀ t ∈ a ++ b, ',' ∉ t.Name.data)
    (h : formatTags a = formatTags b) :
    (a.map (fun t => t.Name)).Perm (b.map (fun t => t.Name)) ∨
    (a = [] ∧ b.map (fun t => t.Name) = ["none"]) ∨
    (b = [] ∧ a.map (fun t => t.Name) = ["none"]) := by
  have hsorted : ∀ l : List Tag, (∀ t ∈ l, ',' ∉ t.Name.data) →
      ∀ x ∈ (l.map (fun t => t.Name)).insertionSort strLe, ',' ∉ x.data := by
    intro l hl x hx
    have hx2 := (List.perm_insertionSort strLe _).subset hx
    obtain ⟨t, ht, rfl⟩ := List.mem_map.mp hx2
    exact hl t ht
  have hne : ∀ l : List Tag, l ≠ [] → (l.map (fun t => t.Name)).insertionSort strLe ≠ [] := by
    intro l hl h0
    have := (List.perm_insertionSort strLe (l.map (fun t => t.Name))).length_eq
    rw [h0] at this
    simp only [List.length_nil, List.length_map] at this
    exact hl (List.length_eq_zero.mp this.symm)
  have hnone : ∀ l : List Tag, l ≠ [] → (∀ t ∈ l, ',' ∉ t.Name.data) →
      formatTags l = "none" → l.map (fun t => t.Name) = ["none"] := by
    intro l hl hcl hf
    rw [formatTags_eq, if_neg hl] at hf
    have hj := join_inj _ ["none"] (hne l hl) (by simp) (hsorted l hcl)
      (by intro x hx; rw [List.mem_singleton.mp hx]; decide) (by rw [hf]; rfl)
    have hp := List.perm_insertionSort strLe (l.map (fun t => t.Name))
    rw [hj] at hp
    exact List.perm_singleton.mp hp.symm
  have ha : ∀ t ∈ a, ',' ∉ t.Name.data := fun t ht => hc t (List.mem_append_left _ ht)
  have hb : ∀ t ∈ b, ',' ∉ t.Name.data := fun t ht => hc t (List.mem_append_right _ ht)
  by_cases ea : a = []
  · by_cases eb : b = []
    · left
      rw [ea, eb]
    · right; left
      refine ⟨ea, hnone b eb hb ?_⟩
      rw [← h, ea]
      rfl
  · by_cases eb : b = []
    · right; right
      refine ⟨eb, hnone a ea ha ?_⟩
      rw [h, eb]
      rfl
    · left
      rw [formatTags_eq, formatTags_eq, if_neg ea, if_neg eb] at h
      have hj := join_inj _ _ (hne a ea) (hne b eb) (hsorted a ha) (hsorted b hb) h
      have p1 := List.perm_insertionSort strLe (a.map (fun t => t.Name))
      have p2 := List.perm_insertionSort strLe (b.map (fun t => t.Name))
      rw [hj] at p1
      exact p1.symm.trans p2

/-- Counterexample to claim C11: a task without tags against the same task
with the one tag `none`, and a task with the tag `a,b` against the same task
with the tags `a` and `b`, differ in their tags, and `formatTaskDiff` gives
`updated: no changes`, not `updated: ` followed by a tags fragment. -/
theorem C11_counterexample :
    ¬ (sampleA.Tags.map (fun t => t.Name)).Perm (sampleANone.Tags.map (fun t => t.Name)) ∧
    diffChanges sampleA sampleANone = [] ∧
    formatTaskDiff sampleA sampleANone = "updated: no changes" ∧
    ¬ (sampleAJoined.Tags.map (fun t => t.Name)).Perm
      (sampleASplit.Tags.map (fun t => t.Name)) ∧
    diffChanges sampleAJoined sampleASplit = [] ∧
    formatTaskDiff sampleAJoined sampleASplit = "updated: no changes" := by
  refine ⟨fun h => ?_, by decide, by decide, fun h => ?_, by decide, by decide⟩
  · exact absurd h.length_eq (by decide)
  · exact absurd h.length_eq (by decide)

/-- Claim C11, amended. `formatTaskDiff` returns `updated: ` followed by one
fragment for every field that differs as the function compares it, joined
with `; `, in the fixed order title, description, status, priority, parent,
due, tags, and `updated: no changes` when no field differs so. Title,
description, status and priority are compared by value, the parent up to nil
and 0, the due date by calendar date, the tags by their rendered text (the
sorted comma-joined names, `none` for no tags). The fragment of a field is
`field: 'before' -> 'after'`, where a blank value is shown as `none` and any
other value trimmed, and an absent parent, due date or tag list is rendered
as `none`. Tag lists with the same names up to order render alike; tag lists
without a comma in a name that render alike have the same names up to order,
unless one is empty and the other is the one tag `none`. -/
theorem C11_diff_fragments (before after : Task) :
    formatTaskDiff before after
      = (if ((fieldRows before after).filter (fun r => r.2.2.2)).isEmpty
          then "updated: no changes"
        else "updated: " ++ String.intercalate "; "
          (((fieldRows before after).filter (fun r => r.2.2.2)).map
            (fun r => r.1 ++ ": '" ++ shownValue r.2.1 ++ "' -> '" ++ shownValue r.2.2.1 ++ "'"))) ∧
    (fieldRows before after).map (fun r => r.1)
      = ["title", "description", "status", "priority", "parent", "due", "tags"] ∧
    (fieldRows before after).map (fun r => r.2.2.2)
      = [decide (before.Title ≠ after.Title), decide (before.Description ≠ after.Description),
         decide (before.Status ≠ after.Status), decide (before.Priority ≠ after.Priority),
         decide (normParent before.ParentTaskID ≠ normParent after.ParentTaskID),
         decide (dueDate before.DueAt ≠ dueDate after.DueAt),
         decide (formatTags before.Tags ≠ formatTags after.Tags)] ∧
    formatParent none = "none" ∧ formatParent (some 0) = "none" ∧ formatDue none = "none" ∧
    formatTags [] = "none" ∧ shownValue "" = "none" ∧
    ((before.Tags.map (fun t => t.Name)).Perm (after.Tags.map (fun t => t.Name)) →
      formatTags before.Tags = formatTags after.Tags) ∧
    ((∀ t ∈ before.Tags ++ after.Tags, ',' ∉ t.Name.data) →
      formatTags before.Tags = formatTags after.Tags →
      (before.Tags.map (fun t => t.Name)).Perm (after.Tags.map (fun t => t.Name)) ∨
      (before.Tags = [] ∧ after.Tags.map (fun t => t.Name) = ["none"]) ∨
      (after.Tags = [] ∧ before.Tags.map (fun t => t.Name) = ["none"])) := by
  refine ⟨?_, rfl, rfl, rfl, rfl, rfl, rfl, rfl, formatTags_perm _ _, formatTags_inj _ _⟩
  have hrows := diffChanges_rows before after
  have hfrag : (fun r : String × String × String × Bool => formatChange r.1 r.2.1 r.2.2.1)
      = (fun r => r.1 ++ ": '" ++ shownValue r.2.1 ++ "' -> '" ++ shownValue r.2.2.1 ++ "'") := by
    funext r
    simp only [formatChange, valueOrNone_eq]
  rw [hfrag] at hrows
  unfold formatTaskDiff
  simp only []
  rw [hrows, List.length_map]
  cases hl : (fieldRows before after).filter (fun r => r.2.2.2) with
  | nil => rfl
  | cons r rest => rfl

/-- Witness of `C11_diff_fragments`: the tasks A and B of the chain example,
which differ in title and parent. -/
theorem C11_diff_fragments_witness :
    formatTaskDiff sampleA sampleB
      = "updated: " ++ String.intercalate "; "
          [formatChange "title" "A" "B", formatChange "parent" "none" (formatInt 1)] ∧
    formatTaskDiff sampleA sampleA = "updated: no changes" := by
  refine ⟨?_, ?_⟩
  · rw [(C11_diff_fragments sampleA sampleB).1]
    simp only [formatChange, valueOrNone_eq]
    rfl
  · rw [(C11_diff_fragments sampleA sampleA).1]
    rfl

/-- C12: for two tasks whose tag lists are permutations of each other,
`formatTags` gives the same string; `formatTags` is `none` for an empty list
and otherwise the names, sorted in lexicographic order, joined with commas;
when the tasks agree in title, status, priority and due date, their
`formatCreatedDetails` and their `formatDeletedDetails` are equal; and
`formatTaskDiff` builds no tags fragment between them: its fragments are
those of the six other fields. -/
theorem C12_tag_order (t u : Task) (hTags : t.Tags.Perm u.Tags) :
    formatTags t.Tags = formatTags u.Tags ∧
    (∀ tags : List Tag, formatTags tags
      = if tags = [] then "none"
        else String.intercalate "," ((tags.map (fun x => x.Name)).insertionSort strLe)) ∧
    (∀ names : List String, List.Sorted strLe (names.insertionSort strLe) ∧
      (names.insertionSort strLe).Perm names) ∧
    (t.Title = u.Title → t.Status = u.Status → t.Priority = u.Priority →
      dueDate t.DueAt = dueDate u.DueAt →
      formatCreatedDetails t = formatCreatedDetails u ∧
      formatDeletedDetails t = formatDeletedDetails u) ∧
    diffChanges t u
      = (((fieldRows t u).dropLast).filter (fun r => r.2.2.2)).map
          (fun r => formatChange r.1 r.2.1 r.2.2.1) ∧
    (fieldRows t u).getLast? = some ("tags", formatTags t.Tags, formatTags u.Tags, false) := by
  have hf : formatTags t.Tags = formatTags u.Tags :=
    formatTags_perm _ _ (hTags.map _)
  refine ⟨hf, formatTags_eq, sortNames_sorted, ?_, ?_, ?_⟩
  · intro h1 h2 h3 h4
    unfold formatCreatedDetails formatDeletedDetails
    rw [h1, h2, h3, formatDue_congr _ _ h4, hf]
    exact ⟨rfl, rfl⟩
  · rw [diffChanges_rows]
    simp [fieldRows, hf, List.dropLast, List.filter_cons]
  · simp [fieldRows, hf]

/-- Witness of `C12_tag_order`: the task A of the chain example with the tags
a, b and with the tags b, a. -/
theorem C12_tag_order_witness :
    sampleTagsAB.Perm sampleTagsBA ∧
    formatTags ({ sampleA with Tags := sampleTagsAB } : Task).Tags
      = formatTags ({ sampleA with Tags := sampleTagsBA } : Task).Tags ∧
    formatTags sampleTagsAB = "a,b" :=
  ⟨List.Perm.swap _ _ _,
    (C12_tag_order { sampleA with Tags := sampleTagsAB } { sampleA with Tags := sampleTagsBA }
      (List.Perm.swap _ _ _)).1, by decide⟩

theorem digits_small (n : Nat) (h0 : 0 < n) (h : n < 10000) :
    Nat.digits 10 n
      = if n < 10 then [n]
        else if n < 100 then [n % 10, n / 10]
        else if n < 1000 then [n % 10, n / 10 % 10, n / 100]
        else [n % 10, n / 10 % 10, n / 100 % 10, n / 1000] := by
  have step : ∀ m, 0 < m → Nat.digits 10 m = (m % 10) :: Nat.digits 10 (m / 10) :=
    fun m hm => Nat.digits_def' (by decide) hm
  have last : ∀ m, 0 < m → m < 10 → Nat.digits 10 m = [m] :=
    fun m hm hlt => Nat.digits_of_lt 10 m (by omega) hlt
  by_cases h1 : n < 10
  · rw [if_pos h1, last n h0 h1]
  · rw [if_neg h1, step n h0]
    by_cases h2 : n < 100
    · rw [if_pos h2, last (n / 10) (by omega) (by omega)]
    · rw [if_neg h2, step (n / 10) (by omega)]
      have e1 : n / 10 / 10 = n / 100 := by omega
      rw [e1]
      by_cases h3 : n < 1000
      · rw [if_pos h3, last (n / 100) (by omega) (by omega)]
      · rw [if_neg h3, step (n / 100) (by omega)]
        have e2 : n / 100 / 10 = n / 1000 := by omega
        rw [e2, last (n / 1000) (by omega) (by omega)]

theorem pad4 (n : Nat) (h : n < 10000) :
    List.replicate (4 - (decimalNat n).length) '0' ++ decimalNat n
      = [Nat.digitChar (n / 1000), Nat.digitChar (n / 100 % 10), Nat.digitChar (n / 10 % 10),
         Nat.digitChar (n % 10)] := by
  by_cases h0 : n = 0
  · subst h0
    decide
  · have hd := digits_small n (by omega) h
    have z : Nat.digitChar 0 = '0' := rfl
    unfold decimalNat
    simp only [h0, if_false, hd]
    by_cases h1 : n < 10
    · have a1 : n / 1000 = 0 := by omega
      have a2 : n / 100 % 10 = 0 := by omega
      have a3 : n / 10 % 10 = 0 := by omega
      have a4 : n % 10 = n := by omega
      simp [h1, a1, a2, a3, a4, List.replicate, z]
    · by_cases h2 : n < 100
      · have a1 : n / 1000 = 0 := by omega
        have a2 : n / 100 % 10 = 0 := by omega
        have a3 : n / 10 % 10 = n / 10 := by omega
        simp [h1, h2, a1, a2, a3, List.replicate, z]
      · by_cases h3 : n < 1000
        · have a1 : n / 1000 = 0 := by omega
          have a2 : n / 100 % 10 = n / 100 := by omega
          simp [h1, h2, h3, a1, a2, List.replicate, z]
        · have a1 : n / 1000 % 10 = n / 1000 := by omega
          simp [h1, h2, h3, List.replicate]

theorem pad2 (n : Nat) (h : n ≤ 31) :
    appendInt (n : Int) 2 = [Nat.digitChar (n / 10), Nat.digitChar (n % 10)] := by
  interval_cases n <;> simp [appendInt, decimalNat] <;> decide

theorem formatDate_iso (d : Time) (h0 : 0 ≤ d.year) (h1 : d.year ≤ 9999) :
    formatDate d = isoDate d.year.toNat d.month d.day := by
  have hy : appendInt d.year 4
      = [Nat.digitChar (d.year.toNat / 1000), Nat.digitChar (d.year.toNat / 100 % 10),
         Nat.digitChar (d.year.toNat / 10 % 10), Nat.digitChar (d.year.toNat % 10)] := by
    have hneg : ¬ d.year < 0 := by omega
    have habs : d.year.natAbs = d.year.toNat := by omega
    unfold appendInt
    simp only [hneg, if_false, List.nil_append, habs]
    exact pad4 _ (by omega)
  unfold formatDate isoDate
  rw [hy, pad2 d.month (by have := d.month_ok; omega), pad2 d.day d.day_ok.2]
  rfl

/-- C13: `formatCreatedDetails` is `created: title='<title>' status=<status>
priority=<priority> due=<due> tags=<tags>` and `formatDeletedDetails` is the
same string with `deleted` in place of `created`; `<due>` is `none` without a
due date and otherwise the date, which for the years 0 to 9999 has the form
`YYYY-MM-DD`; `<tags>` is `none` without tags and otherwise the sorted names
joined with commas. -/
theorem C13_created_deleted (task : Task) :
    formatCreatedDetails task
      = "created" ++ (": title='" ++ task.Title ++ "' status=" ++ task.Status ++
          " priority=" ++ formatInt task.Priority ++ " due=" ++ formatDue task.DueAt ++
          " tags=" ++ formatTags task.Tags) ∧
    formatDeletedDetails task
      = "deleted" ++ (": title='" ++ task.Title ++ "' status=" ++ task.Status ++
          " priority=" ++ formatInt task.Priority ++ " due=" ++ formatDue task.DueAt ++
          " tags=" ++ formatTags task.Tags) ∧
    (task.DueAt = none → formatDue task.DueAt = "none") ∧
    (∀ d, task.DueAt = some d → 0 ≤ d.year → d.year ≤ 9999 →
      formatDue task.DueAt = isoDate d.year.toNat d.month d.day) ∧
    formatTags task.Tags
      = (if task.Tags = [] then "none"
         else String.intercalate "," ((task.Tags.map (fun x => x.Name)).insertionSort strLe)) ∧
    List.Sorted strLe ((task.Tags.map (fun x => x.Name)).insertionSort strLe) ∧
    ((task.Tags.map (fun x => x.Name)).insertionSort strLe).Perm
      (task.Tags.map (fun x => x.Name)) := by
  refine ⟨?_, ?_, ?_, ?_, formatTags_eq _, (sortNames_sorted _).1, (sortNames_sorted _).2⟩
  · unfold formatCreatedDetails
    simp only [String.append_assoc]
    rfl
  · unfold formatDeletedDetails
    simp only [String.append_assoc]
    rfl
  · intro h
    rw [h]
    rfl
  · intro d hd h0 h1
    rw [hd]
    exact formatDate_iso d h0 h1

/-! ## Queries on a connection -/

theorem query_ok {α : Type} (c c2 : Conn) (f : DB → Except DBError (α × DB)) (a : α)
    (h : c.query f = (Except.ok a, c2)) :
    ∃ db2, f c.db = Except.ok (a, db2) ∧ c2 = ⟨db2, c.faults.tail⟩ := by
  unfold Conn.query at h
  by_cases hf : c.faults.head? = some true
  · simp [hf] at h
  · simp only [hf, if_false] at h
    cases hr : f c.db with
    | error e => simp [hr] at h
    | ok p =>
      obtain ⟨a2, db2⟩ := p
      simp only [hr, Prod.mk.injEq, Except.ok.injEq] at h
      exact ⟨db2, by rw [h.1], h.2.symm⟩

theorem query_err {α : Type} (c c2 : Conn) (f : DB → Except DBError (α × DB)) (e : DBError)
    (h : c.query f = (Except.error e, c2)) : c2 = ⟨c.db, c.faults.tail⟩ := by
  unfold Conn.query at h
  by_cases hf : c.faults.head? = some true
  · simp only [hf, if_true, Prod.mk.injEq] at h
    exact h.2.symm
  · simp only [hf, if_false] at h
    cases hr : f c.db with
    | error e2 =>
      simp only [hr, Prod.mk.injEq] at h
      exact h.2.symm
    | ok p =>
      obtain ⟨a2, db2⟩ := p
      simp [hr] at h

theorem query_run {α : Type} (db : DB) (f : DB → Except DBError (α × DB)) :
    (⟨db, []⟩ : Conn).query f
      = match f db with
        | Except.ok (a, db2) => (Except.ok a, ⟨db2, []⟩)
        | Except.error e => (Except.error e, ⟨db, []⟩) := by
  simp [Conn.query]

theorem query_fault {α : Type} (db : DB) (fs : List Bool) (f : DB → Except DBError (α × DB)) :
    (⟨db, true :: fs⟩ : Conn).query f = (Except.error DBError.failed, ⟨db, fs⟩) := by
  simp [Conn.query]

theorem query_pass {α : Type} (db : DB) (fs : List Bool) (f : DB → Except DBError (α × DB)) :
    (⟨db, false :: fs⟩ : Conn).query f
      = match f db with
        | Except.ok (a, db2) => (Except.ok a, ⟨db2, fs⟩)
        | Except.error e => (Except.error e, ⟨db, fs⟩) := by
  simp [Conn.query]

theorem dbCreateTag_eq (lower : Char → Char) (name : String) (db : DB) :
    dbCreateTag lower name db = Except.ok (getOrCreateTag lower name db) := by
  unfold dbCreateTag getOrCreateTag
  cases db.tags.find? (fun t => toLower lower t.Name == toLower lower name) <;> rfl

theorem dbAssign_eq (taskID tagID : Int) (db : DB) :
    dbAssignTagToTask taskID tagID db = Except.ok ((), linkTag taskID tagID db) := by
  unfold dbAssignTagToTask linkTag
  by_cases h : (taskID, tagID) ∈ db.taskTags <;> simp [h]

/-! ## `GetTaskWithTags` and `SetTaskTags` -/

theorem getTask_run (taskID : Int) (db : DB) :
    Store.GetTaskWithTags taskID ⟨db, []⟩
      = match db.tasks.find? (fun r => r.ID == taskID) with
        | some row => (Except.ok (mapTask row (linkedTags taskID db)), ⟨db, []⟩)
        | none => (Except.error DBError.notFound, ⟨db, []⟩) := by
  unfold Store.GetTaskWithTags
  rw [query_run]
  unfold dbGetTask
  cases hf : db.tasks.find? (fun r => r.ID == taskID) with
  | none => rfl
  | some row =>
    simp only []
    rw [query_run]
    rfl

theorem getTask_ok (taskID : Int) (c c2 : Conn) (t : Task)
    (h : Store.GetTaskWithTags taskID c = (Except.ok t, c2)) :
    ∃ row, c.db.tasks.find? (fun r => r.ID == taskID) = some row ∧
      t = mapTask row (linkedTags taskID c.db) ∧ c2 = ⟨c.db, c.faults.tail.tail⟩ := by
  unfold Store.GetTaskWithTags at h
  cases h1 : c.query (dbGetTask taskID) with
  | mk r1 c1 =>
    cases r1 with
    | error e => simp [h1] at h
    | ok row =>
      obtain ⟨db1, hq1, hc1⟩ := query_ok c c1 _ row h1
      simp only [h1] at h
      cases h2 : c1.query (dbListTagsForTask taskID) with
      | mk r2 c3 =>
        cases r2 with
        | error e => simp [h2] at h
        | ok tags =>
          obtain ⟨db2, hq2, hc2⟩ := query_ok c1 c3 _ tags h2
          simp only [h2, Prod.mk.injEq, Except.ok.injEq] at h
          unfold dbGetTask at hq1
          cases hf : c.db.tasks.find? (fun r => r.ID == taskID) with
          | none => simp [hf] at hq1
          | some row2 =>
            simp only [hf, Except.ok.injEq, Prod.mk.injEq] at hq1
            obtain ⟨hrow, hdb1⟩ := hq1
            subst hrow
            subst hdb1
            subst hc1
            unfold dbListTagsForTask at hq2
            simp only [Except.ok.injEq, Prod.mk.injEq] at hq2
            obtain ⟨htags, hdb2⟩ := hq2
            refine ⟨row2, rfl, ?_, ?_⟩
            · rw [← h.1, ← htags]
              rfl
            · rw [← h.2, hc2, ← hdb2]

theorem getTask_err (taskID : Int) (c c2 : Conn) (e : DBError)
    (h : Store.GetTaskWithTags taskID c = (Except.error e, c2)) : c2.db = c.db := by
  unfold Store.GetTaskWithTags at h
  cases h1 : c.query (dbGetTask taskID) with
  | mk r1 c1 =>
    cases r1 with
    | error e1 =>
      simp only [h1, Prod.mk.injEq] at h
      rw [← h.2, query_err c c1 _ e1 h1]
    | ok row =>
      obtain ⟨db1, hq1, hc1⟩ := query_ok c c1 _ row h1
      have hdb1 : db1 = c.db := by
        unfold dbGetTask at hq1
        cases hf : c.db.tasks.find? (fun r => r.ID == taskID) with
        | none => simp [hf] at hq1
        | some row2 =>
          simp only [hf, Except.ok.injEq, Prod.mk.injEq] at hq1
          exact hq1.2.symm
      simp only [h1] at h
      cases h2 : c1.query (dbListTagsForTask taskID) with
      | mk r2 c3 =>
        cases r2 with
        | error e2 =>
          simp only [h2, Prod.mk.injEq] at h
          rw [← h.2, query_err c1 c3 _ e2 h2, hc1, hdb1]
        | ok tags => simp [h2] at h

theorem assignTags_ok (lower : Char → Char) (taskID : Int) (names : List String) :
    ∀ (c c2 : Conn) (u : Unit), Store.assignTags lower taskID names c = (Except.ok u, c2) →
      c2.db = assignTagsDB lower taskID names c.db := by
  induction names with
  | nil =>
    intro c c2 u h
    simp only [Store.assignTags, Prod.mk.injEq] at h
    rw [← h.2]
    rfl
  | cons name rest ih =>
    intro c c2 u h
    simp only [Store.assignTags] at h
    cases h1 : c.query (dbCreateTag lower name) with
    | mk r1 c1 =>
      cases r1 with
      | error e => simp [h1] at h
      | ok tag =>
        obtain ⟨db1, hq1, hc1⟩ := query_ok c c1 _ tag h1
        rw [dbCreateTag_eq] at hq1
        simp only [h1] at h
        cases h2 : c1.query (dbAssignTagToTask taskID tag.ID) with
        | mk r2 c3 =>
          cases r2 with
          | error e => simp [h2] at h
          | ok v =>
            obtain ⟨db2, hq2, hc2⟩ := query_ok c1 c3 _ v h2
            rw [dbAssign_eq] at hq2
            simp only [h2] at h
            have := ih c3 c2 u h
            rw [this, hc2]
            simp only [Except.ok.injEq, Prod.mk.injEq] at hq1 hq2
            have e1 : (getOrCreateTag lower name c.db).1 = tag := congrArg Prod.fst hq1
            have e2 : (getOrCreateTag lower name c.db).2 = db1 := congrArg Prod.snd hq1
            show assignTagsDB lower taskID rest db2 = _
            rw [assignTagsDB, e1, e2, ← hq2.2, hc1]

theorem assignTags_run (lower : Char → Char) (taskID : Int) (names : List String) :
    ∀ db : DB, Store.assignTags lower taskID names ⟨db, []⟩
      = (Except.ok (), ⟨assignTagsDB lower taskID names db, []⟩) := by
  induction names with
  | nil => intro db; rfl
  | cons name rest ih =>
    intro db
    simp only [Store.assignTags, query_run, dbCreateTag_eq, dbAssign_eq]
    rw [ih]
    rfl

theorem setTags_ok (lower : Char → Char) (taskID : Int) (names : List String)
    (c c2 : Conn) (u : Unit)
    (h : Store.SetTaskTags lower taskID names c = (Except.ok u, c2)) :
    c2.db = setTagsDB lower taskID names c.db := by
  unfold Store.SetTaskTags at h
  cases h1 : c.query (dbClearTagsForTask taskID) with
  | mk r1 c1 =>
    cases r1 with
    | error e => simp [h1] at h
    | ok v =>
      obtain ⟨db1, hq1, hc1⟩ := query_ok c c1 _ v h1
      simp only [h1] at h
      rw [assignTags_ok lower taskID _ c1 c2 u h, hc1]
      unfold dbClearTagsForTask at hq1
      simp only [Except.ok.injEq, Prod.mk.injEq, true_and] at hq1
      rw [← hq1]
      rfl

theorem setTags_run (lower : Char → Char) (taskID : Int) (names : List String) (db : DB) :
    Store.SetTaskTags lower taskID names ⟨db, []⟩
      = (Except.ok (), ⟨setTagsDB lower taskID names db, []⟩) := by
  unfold Store.SetTaskTags
  rw [query_run]
  simp only [dbClearTagsForTask]
  rw [assignTags_run]
  rfl

/-! ## The tags that `SetTaskTags` links -/

theorem filter_or_unique (l : List TagRow) (p : TagRow → Bool) (T : TagRow)
    (hnd : (l.map (fun t => t.ID)).Nodup) (hT : T ∈ l) (hp : p T = false) :
    (l.filter (fun t => p t || t.ID == T.ID)).Perm (l.filter p ++ [T]) := by
  induction l with
  | nil => cases hT
  | cons a l ih =>
    rw [List.map_cons, List.nodup_cons] at hnd
    by_cases haT : a = T
    · subst haT
      have hrest : l.filter (fun t => p t || t.ID == a.ID) = l.filter p := by
        apply List.filter_congr
        intro t ht
        have hne : t.ID ≠ a.ID := fun e => hnd.1 (List.mem_map.mpr ⟨t, ht, e⟩)
        simp [hne]
      simp only [List.filter_cons, hp, beq_self_eq_true, Bool.or_true, if_true, hrest,
        Bool.false_eq_true, if_false]
      exact (List.perm_append_singleton a _).symm
    · have hTl : T ∈ l := by
        rcases List.mem_cons.mp hT with h | h
        · exact absurd h.symm haT
        · exact h
      have hne : a.ID ≠ T.ID := fun e => hnd.1 (List.mem_map.mpr ⟨T, hTl, e.symm⟩)
      have hb : (a.ID == T.ID) = false := beq_eq_false_iff_ne.mpr hne
      have := ih hnd.2 hTl
      by_cases hpa : p a = true
      · simp only [List.filter_cons, hpa, hb, Bool.or_false, if_true, List.cons_append]
        exact List.Perm.cons a this
      · have hpa2 : p a = false := by simpa using hpa
        simp only [List.filter_cons, hpa2, hb, Bool.or_false, Bool.false_eq_true, if_false]
        exact this

/-- One round of the loop of `SetTaskTags`: the tag for the name is found or
created and linked; the tags linked to the task are those linked before and
this tag, whose name equals the given name up to case. -/
theorem link_step (lower : Char → Char) (taskID : Int) (name : String) (db : DB)
    (hok : db.tagsOk)
    (hfree : ∀ t ∈ linkedTags taskID db, toLower lower t.Name ≠ toLower lower name) :
    (linkTag taskID (getOrCreateTag lower name db).1.ID (getOrCreateTag lower name db).2).tagsOk ∧
    (linkedTags taskID
        (linkTag taskID (getOrCreateTag lower name db).1.ID (getOrCreateTag lower name db).2)).Perm
      (linkedTags taskID db ++ [(getOrCreateTag lower name db).1]) ∧
    toLower lower (getOrCreateTag lower name db).1.Name = toLower lower name := by
  obtain ⟨hnd, hlt, hlinks⟩ := hok
  unfold getOrCreateTag
  cases hf : db.tags.find? (fun t => toLower lower t.Name == toLower lower name) with
  | some T =>
    have hT : T ∈ db.tags := List.mem_of_find?_eq_some hf
    have hkey : toLower lower T.Name = toLower lower name := by
      have := List.find?_some hf
      simpa using this
    have hnot : (taskID, T.ID) ∉ db.taskTags := by
      intro hin
      have : T ∈ linkedTags taskID db := by
        unfold linkedTags
        exact List.mem_filter.mpr ⟨hT, by simpa using hin⟩
      exact hfree T this hkey
    simp only [linkTag, hnot, if_false]
    refine ⟨⟨hnd, hlt, ?_⟩, ?_, hkey⟩
    · intro l hl
      rcases List.mem_append.mp hl with h | h
      · exact hlinks l h
      · simp only [List.mem_singleton] at h
        rw [h]
        exact hlt T hT
    · unfold linkedTags
      have hfun : (fun t : TagRow => decide ((taskID, t.ID) ∈ db.taskTags ++ [(taskID, T.ID)]))
          = (fun t => decide ((taskID, t.ID) ∈ db.taskTags) || t.ID == T.ID) := by
        funext t
        simp only [List.mem_append, List.mem_singleton, Prod.mk.injEq, true_and, Bool.decide_or]
        rfl
      simp only [hfun]
      exact filter_or_unique db.tags _ T hnd hT (by simpa using hnot)
  | none =>
    have hnot : (taskID, db.nextTagID) ∉ db.taskTags := by
      intro hin
      have := hlinks _ hin
      simp at this
    simp only [linkTag, hnot, if_false]
    refine ⟨⟨?_, ?_, ?_⟩, ?_, trivial⟩
    · rw [List.map_append, List.nodup_append]
      refine ⟨hnd, by simp, ?_⟩
      intro x hx hx2
      simp only [List.map_cons, List.map_nil, List.mem_singleton] at hx2
      obtain ⟨t, ht, hte⟩ := List.mem_map.mp hx
      have := hlt t ht
      rw [hte, hx2] at this
      exact lt_irrefl _ this
    · intro t ht
      rcases List.mem_append.mp ht with h | h
      · have := hlt t h
        show t.ID < db.nextTagID + 1
        omega
      · simp only [List.mem_singleton] at h
        rw [h]
        show db.nextTagID < db.nextTagID + 1
        omega
    · intro l hl
      rcases List.mem_append.mp hl with h | h
      · have := hlinks l h
        show l.2 < db.nextTagID + 1
        omega
      · simp only [List.mem_singleton] at h
        rw [h]
        show db.nextTagID < db.nextTagID + 1
        omega
    · unfold linkedTags
      simp only [List.filter_append]
      have h1 : db.tags.filter
            (fun t => decide ((taskID, t.ID) ∈ db.taskTags ++ [(taskID, db.nextTagID)]))
          = db.tags.filter (fun t => decide ((taskID, t.ID) ∈ db.taskTags)) := by
        apply List.filter_congr
        intro t ht
        have hne : t.ID ≠ db.nextTagID := fun e => by
          have := hlt t ht
          rw [e] at this
          exact lt_irrefl _ this
        simp [List.mem_append, hne]
      rw [h1]
      simp

/-- The loop of `SetTaskTags` on names that are pairwise different up to case
and different from the names of the tags linked so far: in the end the tags
linked to the task are those linked before and one tag for each name, whose
name equals it up to case. -/
theorem assign_linked (lower : Char → Char) (taskID : Int) (names : List String) :
    ∀ db : DB, db.tagsOk →
      names.Pairwise (fun a b => toLower lower a ≠ toLower lower b) →
      (∀ n ∈ names, ∀ t ∈ linkedTags taskID db, toLower lower t.Name ≠ toLower lower n) →
      (assignTagsDB lower taskID names db).tagsOk ∧
      ((linkedTags taskID (assignTagsDB lower taskID names db)).map
          (fun t => toLower lower t.Name)).Perm
        ((linkedTags taskID db).map (fun t => toLower lower t.Name)
          ++ names.map (toLower lower)) := by
  induction names with
  | nil =>
    intro db hok _ _
    exact ⟨hok, by simp [assignTagsDB]⟩
  | cons name rest ih =>
    intro db hok hpw hfree
    rw [List.pairwise_cons] at hpw
    obtain ⟨hok2, hperm, hkey⟩ :=
      link_step lower taskID name db hok (hfree name (List.mem_cons_self _ _))
    have hfree2 : ∀ n ∈ rest, ∀ t ∈ linkedTags taskID
        (linkTag taskID (getOrCreateTag lower name db).1.ID (getOrCreateTag lower name db).2),
        toLower lower t.Name ≠ toLower lower n := by
      intro n hn t ht
      rcases List.mem_append.mp (hperm.subset ht) with h | h
      · exact hfree n (List.mem_cons_of_mem _ hn) t h
      · simp only [List.mem_singleton] at h
        rw [h, hkey]
        exact hpw.1 n hn
    obtain ⟨hok3, hperm3⟩ := ih _ hok2 hpw.2 hfree2
    rw [assignTagsDB]
    refine ⟨hok3, hperm3.trans ?_⟩
    have hp2 := hperm.map (fun t => toLower lower t.Name)
    rw [List.map_append, List.map_cons, List.map_nil, hkey] at hp2
    rw [List.map_cons]
    have := List.Perm.append_right (List.map (toLower lower) rest) hp2
    simpa [List.append_assoc] using this

theorem linkedTags_clear (taskID : Int) (db : DB) : linkedTags taskID (clearLinks taskID db) = [] := by
  unfold linkedTags clearLinks
  simp only [List.filter_eq_nil_iff]
  intro t _
  simp [List.mem_filter]

theorem tagsOk_clear (taskID : Int) (db : DB) (h : db.tagsOk) : (clearLinks taskID db).tagsOk :=
  ⟨h.1, h.2.1, fun l hl => h.2.2 l (List.mem_filter.mp hl).1⟩

/-- After `SetTaskTags` the tags linked to the task are, up to case and order,
the normalised names. -/
theorem setTags_linked (lower : Char → Char) (taskID : Int) (names : List String) (db : DB)
    (hok : db.tagsOk) :
    (setTagsDB lower taskID names db).tagsOk ∧
    ((linkedTags taskID (setTagsDB lower taskID names db)).map
        (fun t => toLower lower t.Name)).Perm
      ((normalizeTags lower names).map (toLower lower)) := by
  have hpw : (normalizeTags lower names).Pairwise
      (fun a b => toLower lower a ≠ toLower lower b) := by
    have h := (keepFirstByKey_props (toLower lower) (cleanedTags names).length
      (cleanedTags names) (le_refl _)).2.1
    have heq : normalizeTags lower names
        = keepFirstByKey (toLower lower) (cleanedTags names) := by
      unfold normalizeTags
      rw [normalizeTags_fold, loopTags_eq]
      simp
    rw [heq]
    exact h
  obtain ⟨h1, h2⟩ := assign_linked lower taskID (normalizeTags lower names)
    (clearLinks taskID db) (tagsOk_clear taskID db hok) hpw (by
      intro n _ t ht
      rw [linkedTags_clear] at ht
      cases ht)
  rw [linkedTags_clear] at h2
  exact ⟨h1, by simpa [setTagsDB] using h2⟩

theorem getOrCreate_core (lower : Char → Char) (name : String) (db : DB) :
    (getOrCreateTag lower name db).2.core = db.core := by
  unfold getOrCreateTag
  cases db.tags.find? (fun t => toLower lower t.Name == toLower lower name) <;> rfl

theorem linkTag_core (taskID tagID : Int) (db : DB) : (linkTag taskID tagID db).core = db.core := by
  unfold linkTag
  by_cases h : (taskID, tagID) ∈ db.taskTags <;> simp [h, DB.core]

theorem assignTagsDB_core (lower : Char → Char) (taskID : Int) (names : List String) :
    ∀ db : DB, (assignTagsDB lower taskID names db).core = db.core := by
  induction names with
  | nil => intro db; rfl
  | cons name rest ih =>
    intro db
    rw [assignTagsDB, ih, linkTag_core, getOrCreate_core]

theorem setTagsDB_core (lower : Char → Char) (taskID : Int) (names : List String) (db : DB) :
    (setTagsDB lower taskID names db).core = db.core := by
  unfold setTagsDB
  rw [assignTagsDB_core]
  rfl

theorem core_fields (a b : DB) (h : a.core = b.core) :
    a.tasks = b.tasks ∧ a.history = b.history ∧ a.nextTaskID = b.nextTaskID ∧
    a.nextHistoryID = b.nextHistoryID ∧ a.now = b.now ∧ a.historyCascade = b.historyCascade := by
  simp only [DB.core, Prod.mk.injEq] at h
  exact h

theorem find_id (rows : List TaskRow) (taskID : Int) (row : TaskRow)
    (h : rows.find? (fun r => r.ID == taskID) = some row) : row.ID = taskID ∧ row ∈ rows := by
  have := List.find?_some h
  exact ⟨by simpa using this, List.mem_of_find?_eq_some h⟩

theorem listHistory_run (taskID : Int) (db : DB) :
    Store.ListHistory taskID ⟨db, []⟩
      = (Except.ok ((db.history.filter (fun h => h.TaskID == taskID)).map
          (fun row => ⟨row.ID, row.TaskID, row.EventType, row.Details, row.CreatedAt⟩)),
         ⟨db, []⟩) := by
  unfold Store.ListHistory
  rw [query_run]
  rfl

/-- What a successful `CreateTask` has done: the row with the next id is added,
the tags are set, the snapshot is read and the history row is appended. -/
theorem createTask_ok (lower : Char → Char) (input : TaskInput) (c c2 : Conn) (task : Task)
    (h : Store.CreateTask lower input c = (Except.ok task, c2)) :
    ∃ (row : TaskRow) (db2 : DB),
      db2 = setTagsDB lower c.db.nextTaskID input.Tags
        { c.db with
          tasks := c.db.tasks ++ [⟨c.db.nextTaskID, input.Title, input.Description,
            normalizeStatus lower input.Status, input.Priority, input.DueAt,
            input.ParentTaskID, c.db.now, c.db.now⟩],
          nextTaskID := c.db.nextTaskID + 1 } ∧
      db2.tasks.find? (fun r => r.ID == c.db.nextTaskID) = some row ∧
      task = mapTask row (linkedTags c.db.nextTaskID db2) ∧
      c2.db = { db2 with
        history := db2.history ++ [⟨db2.nextHistoryID, c.db.nextTaskID, "created",
          formatCreatedDetails task, db2.now⟩],
        nextHistoryID := db2.nextHistoryID + 1 } := by
  unfold Store.CreateTask at h
  simp only [] at h
  cases h1 : c.query (dbCreateTask input.Title input.Description
      (normalizeStatus lower input.Status) input.Priority input.DueAt input.ParentTaskID) with
  | mk r1 c1 =>
    cases r1 with
    | error e => simp [h1] at h
    | ok created =>
      obtain ⟨db1, hq1, hc1⟩ := query_ok c c1 _ created h1
      simp only [dbCreateTask, Except.ok.injEq, Prod.mk.injEq] at hq1
      obtain ⟨hcreated, hdb1⟩ := hq1
      have hid : created.ID = c.db.nextTaskID := by rw [← hcreated]
      simp only [h1, hid] at h
      cases h2 : Store.SetTaskTags lower c.db.nextTaskID input.Tags c1 with
      | mk r2 c3 =>
        cases r2 with
        | error e => simp [h2] at h
        | ok u =>
          have hdb3 := setTags_ok lower _ _ c1 c3 u h2
          simp only [h2] at h
          cases h3 : Store.GetTaskWithTags c.db.nextTaskID c3 with
          | mk r3 c4 =>
            cases r3 with
            | error e => simp [h3] at h
            | ok createdTask =>
              obtain ⟨row, hfind, htask, hc4⟩ := getTask_ok _ c3 c4 createdTask h3
              simp only [h3] at h
              cases h4 : c4.query (dbAddHistory c.db.nextTaskID "created"
                  (formatCreatedDetails createdTask)) with
              | mk r4 c5 =>
                cases r4 with
                | error e => simp [h4] at h
                | ok hrow =>
                  obtain ⟨db5, hq5, hc5⟩ := query_ok c4 c5 _ hrow h4
                  simp only [h4, Prod.mk.injEq, Except.ok.injEq] at h
                  obtain ⟨ht, hcc⟩ := h
                  subst ht
                  subst hcc
                  simp only [dbAddHistory, Except.ok.injEq, Prod.mk.injEq] at hq5
                  refine ⟨row, c3.db, ?_, hfind, htask, ?_⟩
                  · rw [hdb3, hc1, ← hdb1]
                  · rw [hc5, ← hq5.2, hc4]

/-! ## `CreateTask` -/

/-- With no failing query `CreateTask` succeeds. -/
theorem createTask_run (lower : Char → Char) (input : TaskInput) (db : DB) :
    ∃ (t : Task) (c3 : Conn), Store.CreateTask lower input ⟨db, []⟩ = (Except.ok t, c3) := by
  unfold Store.CreateTask
  simp only []
  rw [query_run]
  simp only [dbCreateTask]
  rw [setTags_run]
  simp only []
  rw [getTask_run]
  have hcore := core_fields _ _ (setTagsDB_core lower db.nextTaskID input.Tags
    { db with
      tasks := db.tasks ++ [⟨db.nextTaskID, input.Title, input.Description,
        normalizeStatus lower input.Status, input.Priority, input.DueAt,
        input.ParentTaskID, db.now, db.now⟩],
      nextTaskID := db.nextTaskID + 1 })
  have hsome : ((setTagsDB lower db.nextTaskID input.Tags
      { db with
        tasks := db.tasks ++ [⟨db.nextTaskID, input.Title, input.Description,
          normalizeStatus lower input.Status, input.Priority, input.DueAt,
          input.ParentTaskID, db.now, db.now⟩],
        nextTaskID := db.nextTaskID + 1 }).tasks.find?
        (fun r => r.ID == db.nextTaskID)).isSome = true := by
    rw [hcore.1, List.find?_isSome]
    exact ⟨_, List.mem_append_right _ (List.mem_singleton_self _), by simp⟩
  obtain ⟨row, hrow⟩ := Option.isSome_iff_exists.mp hsome
  rw [hrow]
  simp only []
  rw [query_run]
  simp only [dbAddHistory]
  exact ⟨_, _, rfl⟩

/-- Claim C14. When `CreateTask` succeeds, the returned task has the new id and
carries exactly the tags named by `normalizeTags input.Tags` (one tag per
normalised name, names compared without case as the tag relation does), and
`ListHistory` for the new id then returns exactly one entry: its event type
is "created" and its details are `formatCreatedDetails` of the returned
task. With no failing query `CreateTask` does succeed. -/
theorem C14_create_task (lower : Char → Char) (input : TaskInput) (c c2 : Conn) (task : Task)
    (htags : c.db.tagsOk) (hhist : c.db.historyOk)
    (h : Store.CreateTask lower input c = (Except.ok task, c2)) :
    task.ID = c.db.nextTaskID ∧
    (task.Tags.map (fun t => toLower lower t.Name)).Perm
      ((normalizeTags lower input.Tags).map (toLower lower)) ∧
    task.Tags.length = (normalizeTags lower input.Tags).length ∧
    (∃ e : HistoryEntry,
      Store.ListHistory task.ID ⟨c2.db, []⟩ = (Except.ok [e], ⟨c2.db, []⟩) ∧
      e.TaskID = task.ID ∧ e.EventType = "created" ∧
      e.Details = formatCreatedDetails task) ∧
    (∃ (t : Task) (c3 : Conn),
      Store.CreateTask lower input ⟨c.db, []⟩ = (Except.ok t, c3)) := by
  obtain ⟨row, db2, hdb2, hfind, htask, hc2⟩ := createTask_ok lower input c c2 task h
  have hok1 : DB.tagsOk { c.db with
      tasks := c.db.tasks ++ [⟨c.db.nextTaskID, input.Title, input.Description,
        normalizeStatus lower input.Status, input.Priority, input.DueAt,
        input.ParentTaskID, c.db.now, c.db.now⟩],
      nextTaskID := c.db.nextTaskID + 1 } := htags
  obtain ⟨_, hperm⟩ := setTags_linked lower c.db.nextTaskID input.Tags _ hok1
  rw [← hdb2] at hperm
  have hcore := core_fields _ _ (setTagsDB_core lower c.db.nextTaskID input.Tags
    { c.db with
      tasks := c.db.tasks ++ [⟨c.db.nextTaskID, input.Title, input.Description,
        normalizeStatus lower input.Status, input.Priority, input.DueAt,
        input.ParentTaskID, c.db.now, c.db.now⟩],
      nextTaskID := c.db.nextTaskID + 1 })
  rw [← hdb2] at hcore
  have hid : task.ID = c.db.nextTaskID := by
    rw [htask]
    exact (find_id _ _ _ hfind).1
  have hkeys : task.Tags.map (fun t => toLower lower t.Name)
      = (linkedTags c.db.nextTaskID db2).map (fun t => toLower lower t.Name) := by
    rw [htask]
    simp [mapTask, List.map_map, Function.comp_def]
  have hp : (task.Tags.map (fun t => toLower lower t.Name)).Perm
      ((normalizeTags lower input.Tags).map (toLower lower)) := by
    rw [hkeys]
    exact hperm
  refine ⟨hid, hp, ?_, ?_, createTask_run lower input c.db⟩
  · have := hp.length_eq
    simpa using this
  · refine ⟨⟨db2.nextHistoryID, c.db.nextTaskID, "created", formatCreatedDetails task, db2.now⟩,
      ?_, hid.symm, rfl, rfl⟩
    rw [listHistory_run, hid, hc2]
    have hold : c.db.history.filter (fun h => h.TaskID == c.db.nextTaskID) = [] := by
      rw [List.filter_eq_nil_iff]
      intro x hx
      have := hhist x hx
      simp only [beq_iff_eq]
      omega
    have hh : db2.history = c.db.history := hcore.2.1
    simp only [hh, List.filter_append, hold, List.nil_append]
    simp [List.filter]

/-- Witness of `C14_create_task`: the task of the test on an empty store. -/
theorem C14_create_task_witness :
    emptyDB.tagsOk ∧ emptyDB.historyOk ∧
    (Store.CreateTask Char.toLower sampleInput ⟨emptyDB, []⟩).1
      = Except.ok sampleCreated ∧
    sampleCreated.Tags.length = 2 ∧
    (∃ e : HistoryEntry,
      Store.ListHistory 1 ⟨(Store.CreateTask Char.toLower sampleInput ⟨emptyDB, []⟩).2.db, []⟩
        = (Except.ok [e], ⟨(Store.CreateTask Char.toLower sampleInput ⟨emptyDB, []⟩).2.db, []⟩) ∧
      e.TaskID = 1 ∧ e.EventType = "created" ∧
      e.Details = formatCreatedDetails sampleCreated) :=
  ⟨by decide, by decide, rfl, rfl,
    (C14_create_task Char.toLower sampleInput ⟨emptyDB, []⟩
      (Store.CreateTask Char.toLower sampleInput ⟨emptyDB, []⟩).2 sampleCreated
      (by decide) (by decide) rfl).2.2.2.1⟩

/-! ## `UpdateTask` -/

theorem find_replace (taskID : Int) (row : TaskRow) (hrow : row.ID = taskID) :
    ∀ (rows : List TaskRow) (x : TaskRow),
      (rows.map (fun r => if r.ID == taskID then row else r)).find? (fun r => r.ID == taskID)
        = some x → x = row := by
  intro rows
  induction rows with
  | nil => intro x h; simp at h
  | cons a l ih =>
    intro x h
    rw [List.map_cons, List.find?_cons] at h
    by_cases ha : a.ID = taskID
    · simp only [ha, beq_self_eq_true, if_true, hrow] at h
      exact (Option.some.inj h).symm
    · have hb : (a.ID == taskID) = false := beq_eq_false_iff_ne.mpr ha
      simp only [hb, Bool.false_eq_true, if_false] at h
      exact ih x h

theorem find_replace_some (taskID : Int) (row : TaskRow) (hrow : row.ID = taskID)
    (rows : List TaskRow) (old : TaskRow)
    (h : rows.find? (fun r => r.ID == taskID) = some old) :
    (rows.map (fun r => if r.ID == taskID then row else r)).find? (fun r => r.ID == taskID)
      = some row := by
  have hmem := find_id rows taskID old h
  have hsome : ((rows.map (fun r => if r.ID == taskID then row else r)).find?
      (fun r => r.ID == taskID)).isSome = true := by
    rw [List.find?_isSome]
    refine ⟨row, List.mem_map.mpr ⟨old, hmem.2, by simp [hmem.1]⟩, by simp [hrow]⟩
  obtain ⟨x, hx⟩ := Option.isSome_iff_exists.mp hsome
  rw [hx, find_replace taskID row hrow rows x hx]

/-- What a successful `UpdateTask` has done. -/
theorem updateTask_ok (lower : Char → Char) (taskID : Int) (input : TaskInput) (c c2 : Conn)
    (task : Task) (h : Store.UpdateTask lower taskID input c = (Except.ok task, c2)) :
    ∃ (rowB : TaskRow) (db2 : DB),
      c.db.tasks.find? (fun r => r.ID == taskID) = some rowB ∧
      db2 = setTagsDB lower taskID input.Tags
        { c.db with
          tasks := c.db.tasks.map (fun r => if r.ID == taskID then
            (⟨taskID, input.Title, input.Description, normalizeStatus lower input.Status,
              input.Priority, input.DueAt, input.ParentTaskID, rowB.CreatedAt, c.db.now⟩ : TaskRow)
            else r) } ∧
      task = mapTask ⟨taskID, input.Title, input.Description, normalizeStatus lower input.Status,
              input.Priority, input.DueAt, input.ParentTaskID, rowB.CreatedAt, c.db.now⟩
            (linkedTags taskID db2) ∧
      c2.db = { db2 with
        history := db2.history ++ [⟨db2.nextHistoryID, taskID, "updated",
          formatTaskDiff (mapTask rowB (linkedTags taskID c.db)) task, db2.now⟩],
        nextHistoryID := db2.nextHistoryID + 1 } := by
  unfold Store.UpdateTask at h
  cases h0 : Store.GetTaskWithTags taskID c with
  | mk r0 c0 =>
    cases r0 with
    | error e => simp [h0] at h
    | ok before =>
      obtain ⟨rowB, hfindB, hbefore, hc0⟩ := getTask_ok _ c c0 before h0
      simp only [h0] at h
      cases h1 : c0.query (dbUpdateTask input.Title input.Description
          (normalizeStatus lower input.Status) input.Priority input.DueAt input.ParentTaskID
          taskID) with
      | mk r1 c1 =>
        cases r1 with
        | error e => simp [h1] at h
        | ok updated =>
          obtain ⟨db1, hq1, hc1⟩ := query_ok c0 c1 _ updated h1
          have hc0db : c0.db = c.db := by rw [hc0]
          simp only [dbUpdateTask, hc0db, hfindB, Except.ok.injEq, Prod.mk.injEq] at hq1
          obtain ⟨hupdated, hdb1⟩ := hq1
          have hid : updated.ID = taskID := by rw [← hupdated]
          simp only [h1, hid] at h
          cases h2 : Store.SetTaskTags lower taskID input.Tags c1 with
          | mk r2 c3 =>
            cases r2 with
            | error e => simp [h2] at h
            | ok u =>
              have hdb3 := setTags_ok lower _ _ c1 c3 u h2
              simp only [h2] at h
              cases h3 : Store.GetTaskWithTags taskID c3 with
              | mk r3 c4 =>
                cases r3 with
                | error e => simp [h3] at h
                | ok after =>
                  obtain ⟨rowA, hfindA, hafter, hc4⟩ := getTask_ok _ c3 c4 after h3
                  simp only [h3] at h
                  cases h4 : c4.query (dbAddHistory taskID "updated"
                      (formatTaskDiff before after)) with
                  | mk r4 c5 =>
                    cases r4 with
                    | error e => simp [h4] at h
                    | ok hrow =>
                      obtain ⟨db5, hq5, hc5⟩ := query_ok c4 c5 _ hrow h4
                      simp only [h4, Prod.mk.injEq, Except.ok.injEq] at h
                      obtain ⟨ht, hcc⟩ := h
                      subst ht
                      subst hcc
                      simp only [dbAddHistory, Except.ok.injEq, Prod.mk.injEq] at hq5
                      have hc3 : c3.db = setTagsDB lower taskID input.Tags
                          { c.db with
                            tasks := c.db.tasks.map (fun r => if r.ID == taskID then
                              (⟨taskID, input.Title, input.Description,
                                normalizeStatus lower input.Status, input.Priority, input.DueAt,
                                input.ParentTaskID, rowB.CreatedAt, c.db.now⟩ : TaskRow)
                              else r) } := by
                        rw [hdb3, hc1, ← hdb1]
                      have hcore := core_fields _ _ (setTagsDB_core lower taskID input.Tags
                        { c.db with
                          tasks := c.db.tasks.map (fun r => if r.ID == taskID then
                            (⟨taskID, input.Title, input.Description,
                              normalizeStatus lower input.Status, input.Priority, input.DueAt,
                              input.ParentTaskID, rowB.CreatedAt, c.db.now⟩ : TaskRow)
                            else r) })
                      rw [← hc3] at hcore
                      have hrowA : rowA = ⟨taskID, input.Title, input.Description,
                          normalizeStatus lower input.Status, input.Priority, input.DueAt,
                          input.ParentTaskID, rowB.CreatedAt, c.db.now⟩ := by
                        rw [hcore.1] at hfindA
                        exact find_replace taskID _ rfl _ _ hfindA
                      refine ⟨rowB, c3.db, hfindB, hc3, ?_, ?_⟩
                      · rw [hafter, hrowA]
                      · rw [hc5, ← hq5.2, hc4, hbefore]

/-- With no failing query `UpdateTask` succeeds on an id that exists. -/
theorem updateTask_run (lower : Char → Char) (taskID : Int) (input : TaskInput) (db : DB)
    (rowB : TaskRow) (hfind : db.tasks.find? (fun r => r.ID == taskID) = some rowB) :
    ∃ (t : Task) (c3 : Conn),
      Store.UpdateTask lower taskID input ⟨db, []⟩ = (Except.ok t, c3) := by
  unfold Store.UpdateTask
  rw [getTask_run, hfind]
  simp only []
  rw [query_run]
  simp only [dbUpdateTask, hfind]
  rw [setTags_run]
  simp only []
  rw [getTask_run]
  have hcore := core_fields _ _ (setTagsDB_core lower taskID input.Tags
    { db with
      tasks := db.tasks.map (fun r => if r.ID == taskID then
        (⟨taskID, input.Title, input.Description, normalizeStatus lower input.Status,
          input.Priority, input.DueAt, input.ParentTaskID, rowB.CreatedAt, db.now⟩ : TaskRow)
        else r) })
  have hsome := find_replace_some taskID (⟨taskID, input.Title, input.Description,
    normalizeStatus lower input.Status, input.Priority, input.DueAt, input.ParentTaskID,
    rowB.CreatedAt, db.now⟩ : TaskRow) rfl db.tasks rowB hfind
  have hs2 : (setTagsDB lower taskID input.Tags
      { db with
        tasks := db.tasks.map (fun r => if r.ID == taskID then
          (⟨taskID, input.Title, input.Description, normalizeStatus lower input.Status,
            input.Priority, input.DueAt, input.ParentTaskID, rowB.CreatedAt, db.now⟩ : TaskRow)
          else r) }).tasks.find? (fun r => r.ID == taskID) = some ⟨taskID, input.Title,
            input.Description, normalizeStatus lower input.Status, input.Priority, input.DueAt,
            input.ParentTaskID, rowB.CreatedAt, db.now⟩ := by
    rw [hcore.1]
    exact hsome
  rw [hs2]
  simp only []
  rw [query_run]
  simp only [dbAddHistory]
  exact ⟨_, _, rfl⟩

/-- Claim C15. When `UpdateTask` succeeds on a task id, exactly one history row
is appended, for that task, with event type "updated" and details
`formatTaskDiff before after`: `before` is the task as `GetTaskWithTags` reads
it from the store before the call, `after` is the task as it reads from the
store after the row update and the tag replacement (`db2`). The returned
task is that `after` snapshot; it has the fields of the input and the status
`normalizeStatus input.Status`. With no failing query the call does
succeed. -/
theorem C15_update_task (lower : Char → Char) (taskID : Int) (input : TaskInput) (c c2 : Conn)
    (task : Task) (h : Store.UpdateTask lower taskID input c = (Except.ok task, c2)) :
    (∃ (before : Task) (e : HistoryRow) (row : TaskRow) (db1 db2 : DB),
      Store.GetTaskWithTags taskID ⟨c.db, []⟩ = (Except.ok before, ⟨c.db, []⟩) ∧
      (⟨c.db, []⟩ : Conn).query (dbUpdateTask input.Title input.Description
          (normalizeStatus lower input.Status) input.Priority input.DueAt input.ParentTaskID
          taskID) = (Except.ok row, ⟨db1, []⟩) ∧
      Store.SetTaskTags lower taskID input.Tags ⟨db1, []⟩ = (Except.ok (), ⟨db2, []⟩) ∧
      Store.GetTaskWithTags taskID ⟨db2, []⟩ = (Except.ok task, ⟨db2, []⟩) ∧
      c2.db = { db2 with history := db2.history ++ [e],
                         nextHistoryID := db2.nextHistoryID + 1 } ∧
      c2.db.history = c.db.history ++ [e] ∧
      e.TaskID = taskID ∧ e.EventType = "updated" ∧
      e.Details = formatTaskDiff before task) ∧
    task.ID = taskID ∧ task.Status = normalizeStatus lower input.Status ∧
    task.Title = input.Title ∧ task.Description = input.Description ∧
    task.Priority = input.Priority ∧ task.DueAt = input.DueAt ∧
    task.ParentTaskID = input.ParentTaskID ∧
    (∃ (t : Task) (c3 : Conn),
      Store.UpdateTask lower taskID input ⟨c.db, []⟩ = (Except.ok t, c3)) := by
  obtain ⟨rowB, db2, hfindB, hdb2, htask, hc2⟩ := updateTask_ok lower taskID input c c2 task h
  have hcore := core_fields _ _ (setTagsDB_core lower taskID input.Tags
    { c.db with
      tasks := c.db.tasks.map (fun r => if r.ID == taskID then
        (⟨taskID, input.Title, input.Description, normalizeStatus lower input.Status,
          input.Priority, input.DueAt, input.ParentTaskID, rowB.CreatedAt, c.db.now⟩ : TaskRow)
        else r) })
  rw [← hdb2] at hcore
  have hfindA : db2.tasks.find? (fun r => r.ID == taskID) = some ⟨taskID, input.Title,
      input.Description, normalizeStatus lower input.Status, input.Priority, input.DueAt,
      input.ParentTaskID, rowB.CreatedAt, c.db.now⟩ := by
    rw [hcore.1]
    exact find_replace_some taskID _ rfl c.db.tasks rowB hfindB
  refine ⟨⟨mapTask rowB (linkedTags taskID c.db),
      ⟨db2.nextHistoryID, taskID, "updated",
        formatTaskDiff (mapTask rowB (linkedTags taskID c.db)) task, db2.now⟩,
      ⟨taskID, input.Title, input.Description, normalizeStatus lower input.Status,
        input.Priority, input.DueAt, input.ParentTaskID, rowB.CreatedAt, c.db.now⟩,
      { c.db with
        tasks := c.db.tasks.map (fun r => if r.ID == taskID then
          (⟨taskID, input.Title, input.Description, normalizeStatus lower input.Status,
            input.Priority, input.DueAt, input.ParentTaskID, rowB.CreatedAt, c.db.now⟩ : TaskRow)
          else r) },
      db2, ?_, ?_, ?_, ?_, hc2, ?_, rfl, rfl, rfl⟩,
    ?_, ?_, ?_, ?_, ?_, ?_, ?_, updateTask_run lower taskID input c.db rowB hfindB⟩
  · rw [getTask_run, hfindB]
  · rw [query_run]
    simp only [dbUpdateTask, hfindB]
  · rw [setTags_run, hdb2]
  · rw [getTask_run, hfindA]
    simp only []
    rw [htask]
  · rw [hc2]
    simp only []
    rw [hcore.2.1]
  all_goals rw [htask]; rfl

/-- Witness of `C15_update_task`: an update of the task of the test. -/
theorem C15_update_task_witness :
    (Store.UpdateTask Char.toLower 1 sampleUpdate ⟨createdDB, []⟩).1 = Except.ok sampleUpdated ∧
    sampleUpdated.Status = normalizeStatus Char.toLower sampleUpdate.Status ∧
    (∃ (before : Task) (e : HistoryRow),
      Store.GetTaskWithTags 1 ⟨createdDB, []⟩ = (Except.ok before, ⟨createdDB, []⟩) ∧
      (Store.UpdateTask Char.toLower 1 sampleUpdate ⟨createdDB, []⟩).2.db.history
        = createdDB.history ++ [e] ∧
      e.TaskID = 1 ∧ e.EventType = "updated" ∧
      e.Details = formatTaskDiff before sampleUpdated) := by
  have H := C15_update_task Char.toLower 1 sampleUpdate ⟨createdDB, []⟩
    (Store.UpdateTask Char.toLower 1 sampleUpdate ⟨createdDB, []⟩).2 sampleUpdated rfl
  obtain ⟨⟨before, e, _, _, _, hb, _, _, _, _, hh, h1, h2, h3⟩, _, hs, _⟩ := H
  exact ⟨rfl, hs, before, e, hb, hh, h1, h2, h3⟩

/-! ## Ids that do not exist -/

theorem getTask_missing (taskID : Int) (c : Conn) (hmiss : ∀ r ∈ c.db.tasks, r.ID ≠ taskID) :
    ∃ e, Store.GetTaskWithTags taskID c = (Except.error e, ⟨c.db, c.faults.tail⟩) ∧
      (c.faults.head? ≠ some true → e = DBError.notFound) := by
  have hnone : c.db.tasks.find? (fun r => r.ID == taskID) = none := by
    rw [List.find?_eq_none]
    intro x hx
    simpa using hmiss x hx
  unfold Store.GetTaskWithTags Conn.query
  by_cases hf : c.faults.head? = some true
  · exact ⟨DBError.failed, by simp [hf], fun h => absurd hf h⟩
  · exact ⟨DBError.notFound, by simp [hf, dbGetTask, hnone], fun _ => rfl⟩

/-- Claim C16. For a task id that the store does not hold, `UpdateTask` and
`DeleteTask` return an error and leave the database exactly as it was (task
rows, tags, tag links and history); the error is the not-found error of the
lookup unless the lookup query itself fails. -/
theorem C16_missing_id (lower : Char → Char) (taskID : Int) (input : TaskInput) (c : Conn)
    (hmiss : ∀ r ∈ c.db.tasks, r.ID ≠ taskID) :
    (∃ e, (Store.UpdateTask lower taskID input c).1 = Except.error e ∧
      (c.faults.head? ≠ some true → e = DBError.notFound)) ∧
    (Store.UpdateTask lower taskID input c).2.db = c.db ∧
    (∃ e, (Store.DeleteTask taskID c).1 = Except.error e ∧
      (c.faults.head? ≠ some true → e = DBError.notFound)) ∧
    (Store.DeleteTask taskID c).2.db = c.db := by
  obtain ⟨e, he, hnf⟩ := getTask_missing taskID c hmiss
  have hu : Store.UpdateTask lower taskID input c = (Except.error e, ⟨c.db, c.faults.tail⟩) := by
    unfold Store.UpdateTask
    rw [he]
  have hd : Store.DeleteTask taskID c = (Except.error e, ⟨c.db, c.faults.tail⟩) := by
    unfold Store.DeleteTask
    rw [he]
  rw [hu, hd]
  exact ⟨⟨e, rfl, hnf⟩, rfl, ⟨e, rfl, hnf⟩, rfl⟩

/-- Witness of `C16_missing_id`: the id 7 in the store that holds the task 1. -/
theorem C16_missing_id_witness :
    (∀ r ∈ createdDB.tasks, r.ID ≠ 7) ∧
    (Store.UpdateTask Char.toLower 7 sampleUpdate ⟨createdDB, []⟩).2.db = createdDB ∧
    (Store.DeleteTask 7 ⟨createdDB, []⟩).2.db = createdDB ∧
    (∃ e, (Store.DeleteTask 7 ⟨createdDB, []⟩).1 = Except.error e ∧
      (([] : List Bool).head? ≠ some true → e = DBError.notFound)) :=
  ⟨by decide,
    (C16_missing_id Char.toLower 7 sampleUpdate ⟨createdDB, []⟩ (by decide)).2.1,
    (C16_missing_id Char.toLower 7 sampleUpdate ⟨createdDB, []⟩ (by decide)).2.2.2,
    (C16_missing_id Char.toLower 7 sampleUpdate ⟨createdDB, []⟩ (by decide)).2.2.1⟩

/-! ## `DeleteTask` -/

/-- What a successful `DeleteTask` has done. -/
theorem deleteTask_ok (taskID : Int) (c c2 : Conn) (u : Unit)
    (h : Store.DeleteTask taskID c = (Except.ok u, c2)) :
    ∃ (rowB : TaskRow) (e : HistoryRow) (db1 : DB),
      c.db.tasks.find? (fun r => r.ID == taskID) = some rowB ∧
      dbAddHistory taskID "deleted"
        (formatDeletedDetails (mapTask rowB (linkedTags taskID c.db))) c.db
          = Except.ok (e, db1) ∧
      dbDeleteTask taskID db1 = Except.ok ((), c2.db) := by
  unfold Store.DeleteTask at h
  cases h0 : Store.GetTaskWithTags taskID c with
  | mk r0 c0 =>
    cases r0 with
    | error e => simp [h0] at h
    | ok before =>
      obtain ⟨rowB, hfindB, hbefore, hc0⟩ := getTask_ok _ c c0 before h0
      simp only [h0] at h
      cases h1 : c0.query (dbAddHistory taskID "deleted" (formatDeletedDetails before)) with
      | mk r1 c1 =>
        cases r1 with
        | error e => simp [h1] at h
        | ok hrow =>
          obtain ⟨db1, hq1, hc1⟩ := query_ok c0 c1 _ hrow h1
          simp only [h1] at h
          obtain ⟨db3, hq3, hc3⟩ := query_ok c1 c2 _ u h
          refine ⟨rowB, hrow, db1, hfindB, ?_, ?_⟩
          · rw [← hbefore]
            rw [hc0] at hq1
            exact hq1
          · rw [hc3]
            rw [hc1] at hq3
            exact hq3

/-- With no failing query `DeleteTask` succeeds on an id that exists. -/
theorem deleteTask_run (taskID : Int) (db : DB) (rowB : TaskRow)
    (hfind : db.tasks.find? (fun r => r.ID == taskID) = some rowB) :
    ∃ c3 : Conn, Store.DeleteTask taskID ⟨db, []⟩ = (Except.ok (), c3) := by
  unfold Store.DeleteTask
  rw [getTask_run, hfind]
  simp only []
  rw [query_run]
  simp only [dbAddHistory]
  rw [query_run]
  simp only [dbDeleteTask]
  exact ⟨_, rfl⟩

theorem deleted_gone (taskID : Int) (db db3 : DB)
    (h : dbDeleteTask taskID db = Except.ok ((), db3)) : ∀ r ∈ db3.tasks, r.ID ≠ taskID := by
  simp only [dbDeleteTask, Except.ok.injEq, Prod.mk.injEq, true_and] at h
  subst h
  intro r hr
  simp only [List.mem_map, List.mem_filter] at hr
  obtain ⟨a, ⟨_, ha⟩, hra⟩ := hr
  have hne : a.ID ≠ taskID := by simpa using ha
  by_cases hp : a.ParentTaskID = some taskID
  · rw [if_pos hp] at hra
    rw [← hra]
    exact hne
  · rw [if_neg hp] at hra
    rw [← hra]
    exact hne

/-- Claim C17. When `DeleteTask` succeeds on a task id, it has first appended a
history row with event type "deleted" and details `formatDeletedDetails
before`, where `before` is the task as `GetTaskWithTags` reads it from the
store before the call; in the store `db1` that holds this row the task rows
are still those of the start. Only then is the row removed (`dbDeleteTask` on
`db1` gives the final store). In the final store no row has the id and
`GetTaskWithTags` on it fails, whatever queries fail or not; the appended row
is still the last history row when history rows survive the deletion. With
no failing query the call does succeed. -/
theorem C17_delete_task (taskID : Int) (c c2 : Conn) (u : Unit)
    (h : Store.DeleteTask taskID c = (Except.ok u, c2)) :
    (∃ (before : Task) (e : HistoryRow) (db1 : DB),
      Store.GetTaskWithTags taskID ⟨c.db, []⟩ = (Except.ok before, ⟨c.db, []⟩) ∧
      (⟨c.db, []⟩ : Conn).query (dbAddHistory taskID "deleted" (formatDeletedDetails before))
        = (Except.ok e, ⟨db1, []⟩) ∧
      db1.history = c.db.history ++ [e] ∧ db1.tasks = c.db.tasks ∧
      e.TaskID = taskID ∧ e.EventType = "deleted" ∧
      e.Details = formatDeletedDetails before ∧
      (⟨db1, []⟩ : Conn).query (dbDeleteTask taskID) = (Except.ok (), ⟨c2.db, []⟩) ∧
      (c.db.historyCascade = false → c2.db.history = c.db.history ++ [e])) ∧
    (∀ r ∈ c2.db.tasks, r.ID ≠ taskID) ∧
    (∀ fs : List Bool, ∃ err,
      Store.GetTaskWithTags taskID ⟨c2.db, fs⟩ = (Except.error err, ⟨c2.db, fs.tail⟩)) ∧
    Store.GetTaskWithTags taskID ⟨c2.db, []⟩ = (Except.error DBError.notFound, ⟨c2.db, []⟩) ∧
    (∃ c3 : Conn, Store.DeleteTask taskID ⟨c.db, []⟩ = (Except.ok (), c3)) := by
  obtain ⟨rowB, e, db1, hfindB, hadd, hdel⟩ := deleteTask_ok taskID c c2 u h
  have hgone := deleted_gone taskID db1 c2.db hdel
  refine ⟨⟨mapTask rowB (linkedTags taskID c.db), e, db1, ?_, ?_, ?_, ?_, ?_, ?_, ?_, ?_, ?_⟩,
    hgone, ?_, ?_, deleteTask_run taskID c.db rowB hfindB⟩
  · rw [getTask_run, hfindB]
  · rw [query_run, hadd]
  · simp only [dbAddHistory, Except.ok.injEq, Prod.mk.injEq] at hadd
    rw [← hadd.2, ← hadd.1]
  · simp only [dbAddHistory, Except.ok.injEq, Prod.mk.injEq] at hadd
    rw [← hadd.2]
  · simp only [dbAddHistory, Except.ok.injEq, Prod.mk.injEq] at hadd
    rw [← hadd.1]
  · simp only [dbAddHistory, Except.ok.injEq, Prod.mk.injEq] at hadd
    rw [← hadd.1]
  · simp only [dbAddHistory, Except.ok.injEq, Prod.mk.injEq] at hadd
    rw [← hadd.1]
  · rw [query_run, hdel]
  · intro hc
    simp only [dbAddHistory, Except.ok.injEq, Prod.mk.injEq] at hadd
    simp only [dbDeleteTask, Except.ok.injEq, Prod.mk.injEq, true_and] at hdel
    rw [← hdel, ← hadd.2, ← hadd.1]
    simp [hc]
  · intro fs
    obtain ⟨err, herr, _⟩ := getTask_missing taskID ⟨c2.db, fs⟩ hgone
    exact ⟨err, herr⟩
  · obtain ⟨err, herr, hnf⟩ := getTask_missing taskID ⟨c2.db, []⟩ hgone
    rw [herr, hnf (by simp)]
    rfl

/-- Witness of `C17_delete_task`: deleting the task 1 of `createdDB`. -/
theorem C17_delete_task_witness :
    Store.DeleteTask 1 ⟨createdDB, []⟩
      = (Except.ok (), (Store.DeleteTask 1 ⟨createdDB, []⟩).2) ∧
    Store.GetTaskWithTags 1 ⟨(Store.DeleteTask 1 ⟨createdDB, []⟩).2.db, []⟩
      = (Except.error DBError.notFound, ⟨(Store.DeleteTask 1 ⟨createdDB, []⟩).2.db, []⟩) :=
  ⟨rfl, (C17_delete_task 1 ⟨createdDB, []⟩ (Store.DeleteTask 1 ⟨createdDB, []⟩).2 () rfl).2.2.2.1⟩

/-! ## Children of a deleted task -/

theorem find_after_delete (parentID childID : Int) (hne : childID ≠ parentID) :
    ∀ (rows : List TaskRow),
      ((rows.filter (fun r => r.ID != parentID)).map
        (fun r => if r.ParentTaskID = some parentID then { r with ParentTaskID := none } else r)).find?
          (fun r => r.ID == childID)
        = (rows.find? (fun r => r.ID == childID)).map
            (fun r => if r.ParentTaskID = some parentID then { r with ParentTaskID := none }
              else r) := by
  intro rows
  induction rows with
  | nil => rfl
  | cons a l ih =>
    by_cases hc : a.ID = childID
    · have hk : (a.ID != parentID) = true := by
        simp only [bne_iff_ne, ne_eq]
        rw [hc]
        exact hne
      have hid : (if a.ParentTaskID = some parentID then { a with ParentTaskID := none }
          else a).ID = childID := by
        split <;> exact hc
      rw [List.filter_cons]
      simp only [hk, if_true]
      have hidb : ((if a.ParentTaskID = some parentID then { a with ParentTaskID := none }
          else a).ID == childID) = true := by
        rw [hid]
        exact beq_self_eq_true _
      have hab : (a.ID == childID) = true := by
        rw [hc]
        exact beq_self_eq_true _
      rw [List.map_cons, List.find?_cons, List.find?_cons, hidb, hab]
      rfl
    · have hb : (a.ID == childID) = false := beq_eq_false_iff_ne.mpr hc
      have hid : (if a.ParentTaskID = some parentID then { a with ParentTaskID := none }
          else a).ID = a.ID := by
        split <;> rfl
      rw [List.find?_cons, hb]
      by_cases hk : (a.ID != parentID) = true
      · rw [List.filter_cons]
        simp only [hk, if_true]
        rw [List.map_cons, List.find?_cons, hid, hb]
        exact ih
      · rw [List.filter_cons]
        simp only [hk, if_false]
        exact ih

theorem linked_after_delete (parentID childID : Int) (hne : childID ≠ parentID) (db : DB) :
    linkedTags childID
        { db with
          tasks := (db.tasks.filter (fun r => r.ID != parentID)).map
            (fun r => if r.ParentTaskID = some parentID then { r with ParentTaskID := none }
              else r),
          taskTags := db.taskTags.filter (fun l => l.1 != parentID),
          history :=
            if db.historyCascade then db.history.filter (fun h => h.TaskID != parentID)
            else db.history }
      = linkedTags childID db := by
  unfold linkedTags
  apply List.filter_congr
  intro t _
  simp only [List.mem_filter, bne_iff_ne, ne_eq, decide_eq_decide]
  constructor
  · intro hx
    exact hx.1
  · intro hx
    exact ⟨hx, hne⟩

/-- Claim C18. In a store where `GetTaskWithTags` reads the child with the
parent id of a different task, after `DeleteTask` of that parent succeeds
`GetTaskWithTags` on the child id still succeeds and returns the child as it
was, except that its parent id is absent: the child is neither deleted nor
left with the removed id as parent. -/
theorem C18_child_kept (parentID childID : Int) (c c2 : Conn) (u : Unit) (child : Task)
    (hchild : Store.GetTaskWithTags childID ⟨c.db, []⟩ = (Except.ok child, ⟨c.db, []⟩))
    (hpar : child.ParentTaskID = some parentID) (hne : childID ≠ parentID)
    (h : Store.DeleteTask parentID c = (Except.ok u, c2)) :
    Store.GetTaskWithTags childID ⟨c2.db, []⟩
      = (Except.ok { child with ParentTaskID := none }, ⟨c2.db, []⟩) ∧
    (∃ r ∈ c2.db.tasks, r.ID = childID ∧ r.ParentTaskID = none) ∧
    (∀ r ∈ c2.db.tasks, r.ID ≠ parentID ∧ r.ParentTaskID ≠ some parentID) := by
  obtain ⟨rowB, e, db1, hfindB, hadd, hdel⟩ := deleteTask_ok parentID c c2 u h
  obtain ⟨row, hfind, hmap, _⟩ := getTask_ok childID ⟨c.db, []⟩ ⟨c.db, []⟩ child hchild
  simp only [dbAddHistory, Except.ok.injEq, Prod.mk.injEq] at hadd
  simp only [dbDeleteTask, Except.ok.injEq, Prod.mk.injEq, true_and] at hdel
  have hrowpar : row.ParentTaskID = some parentID := by
    rw [hmap] at hpar
    exact hpar
  have hfind2 : c2.db.tasks.find? (fun r => r.ID == childID)
      = some { row with ParentTaskID := none } := by
    rw [← hdel, ← hadd.2]
    simp only []
    rw [find_after_delete parentID childID hne, hfind]
    simp only [Option.map_some', hrowpar, if_true]
  have hlinked : linkedTags childID c2.db = linkedTags childID c.db := by
    rw [← hdel, ← hadd.2]
    exact linked_after_delete parentID childID hne _
  refine ⟨?_, ?_, ?_⟩
  · rw [getTask_run, hfind2]
    simp only []
    rw [hlinked, hmap]
    rfl
  · have := find_id _ _ _ hfind2
    exact ⟨_, this.2, this.1, rfl⟩
  · intro r hr
    rw [← hdel, ← hadd.2] at hr
    simp only [List.mem_map, List.mem_filter] at hr
    obtain ⟨a, ⟨_, ha⟩, hra⟩ := hr
    have hane : a.ID ≠ parentID := by simpa using ha
    by_cases hp : a.ParentTaskID = some parentID
    · rw [if_pos hp] at hra
      rw [← hra]
      exact ⟨hane, by simp⟩
    · rw [if_neg hp] at hra
      rw [← hra]
      exact ⟨hane, hp⟩

/-- Witness of `C18_child_kept`: the parent 1 and the child 2 of the test. -/
theorem C18_child_kept_witness :
    Store.GetTaskWithTags 2 ⟨familyDB, []⟩ = (Except.ok sampleChildTask, ⟨familyDB, []⟩) ∧
    sampleChildTask.ParentTaskID = some 1 ∧ (2 : Int) ≠ 1 ∧
    Store.DeleteTask 1 ⟨familyDB, []⟩
      = (Except.ok (), (Store.DeleteTask 1 ⟨familyDB, []⟩).2) ∧
    Store.GetTaskWithTags 2 ⟨(Store.DeleteTask 1 ⟨familyDB, []⟩).2.db, []⟩
      = (Except.ok { sampleChildTask with ParentTaskID := none },
          ⟨(Store.DeleteTask 1 ⟨familyDB, []⟩).2.db, []⟩) :=
  ⟨rfl, rfl, by decide, rfl,
    (C18_child_kept 1 2 ⟨familyDB, []⟩ (Store.DeleteTask 1 ⟨familyDB, []⟩).2 () sampleChildTask
      rfl rfl (by decide) rfl).1⟩

/-! ## `SetTaskTags` twice -/

theorem linkTag_withTags (taskID tagID : Int) (s : DB) (tags : List TagRow) (next : Int) :
    linkTag taskID tagID (s.withTags tags next) = (linkTag taskID tagID s).withTags tags next := by
  unfold linkTag DB.withTags
  by_cases h : (taskID, tagID) ∈ s.taskTags <;> simp [h]

theorem linkTag_tags (taskID tagID : Int) (s : DB) :
    (linkTag taskID tagID s).tags = s.tags ∧
    (linkTag taskID tagID s).nextTagID = s.nextTagID := by
  unfold linkTag
  by_cases h : (taskID, tagID) ∈ s.taskTags <;> simp [h]

theorem getOrCreate_found (lower : Char → Char) (name : String) (s : DB) (T : TagRow)
    (h : s.tags.find? (fun t => toLower lower t.Name == toLower lower name) = some T) :
    getOrCreateTag lower name s = (T, s) := by
  unfold getOrCreateTag
  rw [h]

theorem getOrCreate_new (lower : Char → Char) (name : String) (s : DB)
    (h : s.tags.find? (fun t => toLower lower t.Name == toLower lower name) = none) :
    getOrCreateTag lower name s
      = (⟨s.nextTagID, name, s.now⟩,
          { s with tags := s.tags ++ [⟨s.nextTagID, name, s.now⟩],
                   nextTagID := s.nextTagID + 1 }) := by
  unfold getOrCreateTag
  rw [h]

theorem assign_tags_prefix (lower : Char → Char) (taskID : Int) (names : List String) :
    ∀ s : DB, ∃ Y, (assignTagsDB lower taskID names s).tags = s.tags ++ Y := by
  induction names with
  | nil => intro s; exact ⟨[], by simp [assignTagsDB]⟩
  | cons n rest ih =>
    intro s
    rw [assignTagsDB]
    obtain ⟨Y, hY⟩ := ih (linkTag taskID (getOrCreateTag lower n s).1.ID
      (getOrCreateTag lower n s).2)
    rw [hY, (linkTag_tags _ _ _).1]
    cases hf : s.tags.find? (fun t => toLower lower t.Name == toLower lower n) with
    | some T =>
      rw [getOrCreate_found lower n s T hf]
      exact ⟨Y, rfl⟩
    | none =>
      rw [getOrCreate_new lower n s hf]
      exact ⟨⟨s.nextTagID, n, s.now⟩ :: Y, by simp⟩

/-- A second run of the loop on the tag relation that the first run has left
finds every tag and repeats the links of the first run. -/
theorem assign_again (lower : Char → Char) (taskID : Int) (names : List String) :
    ∀ (s : DB) (X : List TagRow) (m : Int),
      (assignTagsDB lower taskID names s).tags = s.tags ++ X →
      (assignTagsDB lower taskID names s).nextTagID = m →
      assignTagsDB lower taskID names (s.withTags (s.tags ++ X) m)
        = assignTagsDB lower taskID names s := by
  induction names with
  | nil =>
    intro s X m h hm
    simp only [assignTagsDB] at h hm ⊢
    have hX : X = [] := by simpa using h
    subst hX
    subst hm
    cases s
    simp [DB.withTags]
  | cons n rest ih =>
    intro s X m h hm
    rw [assignTagsDB] at h hm ⊢
    rw [assignTagsDB]
    cases hf : s.tags.find? (fun t => toLower lower t.Name == toLower lower n) with
    | some T =>
      rw [getOrCreate_found lower n s T hf] at h hm ⊢
      have hf2 : (s.withTags (s.tags ++ X) m).tags.find?
          (fun t => toLower lower t.Name == toLower lower n) = some T := by
        show (s.tags ++ X).find? _ = some T
        rw [List.find?_append, hf]
        rfl
      rw [getOrCreate_found lower n _ T hf2]
      simp only []
      rw [linkTag_withTags]
      simp only [] at h hm
      have h2 := ih (linkTag taskID T.ID s) X m (by rw [h, (linkTag_tags _ _ _).1]) hm
      rw [(linkTag_tags _ _ _).1] at h2
      exact h2
    | none =>
      rw [getOrCreate_new lower n s hf] at h hm ⊢
      simp only [] at h hm ⊢
      obtain ⟨Y, hY⟩ := assign_tags_prefix lower taskID rest (linkTag taskID s.nextTagID
        { s with tags := s.tags ++ [⟨s.nextTagID, n, s.now⟩], nextTagID := s.nextTagID + 1 })
      have hX : X = ⟨s.nextTagID, n, s.now⟩ :: Y := by
        rw [hY, (linkTag_tags _ _ _).1] at h
        simp only [List.append_assoc, List.singleton_append] at h
        exact (List.append_cancel_left h).symm
      have hf2 : (s.withTags (s.tags ++ X) m).tags.find?
          (fun t => toLower lower t.Name == toLower lower n) = some ⟨s.nextTagID, n, s.now⟩ := by
        show (s.tags ++ X).find? _ = some _
        rw [List.find?_append, hf, hX]
        simp
      rw [getOrCreate_found lower n _ _ hf2]
      simp only []
      rw [linkTag_withTags]
      have h2 := ih (linkTag taskID s.nextTagID
        { s with tags := s.tags ++ [⟨s.nextTagID, n, s.now⟩], nextTagID := s.nextTagID + 1 })
        Y m hY hm
      rw [(linkTag_tags _ _ _).1] at h2
      rw [← h2]
      congr 1
      rw [← linkTag_withTags, ← linkTag_withTags]
      congr 1
      rw [hX]
      simp [DB.withTags]

theorem assign_links_others (lower : Char → Char) (taskID : Int) (names : List String) :
    ∀ s : DB, (assignTagsDB lower taskID names s).taskTags.filter (fun l => l.1 != taskID)
      = s.taskTags.filter (fun l => l.1 != taskID) := by
  induction names with
  | nil => intro s; rfl
  | cons n rest ih =>
    intro s
    rw [assignTagsDB, ih]
    have h1 : (getOrCreateTag lower n s).2.taskTags = s.taskTags := by
      unfold getOrCreateTag
      cases s.tags.find? (fun t => toLower lower t.Name == toLower lower n) <;> rfl
    unfold linkTag
    by_cases hm : (taskID, (getOrCreateTag lower n s).1.ID) ∈ (getOrCreateTag lower n s).2.taskTags
    · rw [if_pos hm, h1]
    · rw [if_neg hm]
      simp [List.filter_append, h1]

theorem db_ext (a b : DB) (hcore : a.core = b.core) (htags : a.tags = b.tags)
    (hlinks : a.taskTags = b.taskTags) (hnext : a.nextTagID = b.nextTagID) : a = b := by
  cases a
  cases b
  simp only [DB.core, Prod.mk.injEq] at hcore
  simp_all

/-- Without failing queries a second `SetTaskTags` with the same names leaves
the database as the first one left it. -/
theorem setTagsDB_idem (lower : Char → Char) (taskID : Int) (names : List String) (db : DB) :
    setTagsDB lower taskID names (setTagsDB lower taskID names db)
      = setTagsDB lower taskID names db := by
  obtain ⟨X, hX⟩ := assign_tags_prefix lower taskID (normalizeTags lower names)
    (clearLinks taskID db)
  have hagain := assign_again lower taskID (normalizeTags lower names) (clearLinks taskID db) X
    _ hX rfl
  unfold setTagsDB
  rw [← hagain]
  congr 1
  rw [hagain]
  apply db_ext
  · have := assignTagsDB_core lower taskID (normalizeTags lower names) (clearLinks taskID db)
    simp only [DB.core, clearLinks, DB.withTags, Prod.mk.injEq] at this ⊢
    exact this
  · simp only [clearLinks, DB.withTags]
    exact hX
  · have := assign_links_others lower taskID (normalizeTags lower names) (clearLinks taskID db)
    simp only [clearLinks, DB.withTags] at this ⊢
    rw [this]
    simp [List.filter_filter]
  · simp only [clearLinks, DB.withTags]

/-- Claim C19. `SetTaskTags` is idempotent: when two calls in a row with the
same task id and names succeed, the second leaves the database exactly as the
first left it, so the task has the same tag links and the store the same tags
as after one call. After the first call the tags that `ListTagsForTask`
returns for the task are exactly those named by `normalizeTags names` (one
tag per normalised name, names compared without case as the tag relation
does), whatever links the task had before. With no failing query both calls
do succeed. -/
theorem C19_set_tags_idempotent (lower : Char → Char) (taskID : Int) (names : List String)
    (c c1 c2 : Conn) (u1 u2 : Unit) (hok : c.db.tagsOk)
    (h1 : Store.SetTaskTags lower taskID names c = (Except.ok u1, c1))
    (h2 : Store.SetTaskTags lower taskID names c1 = (Except.ok u2, c2)) :
    c2.db = c1.db ∧
    (∃ tags : List TagRow,
      dbListTagsForTask taskID c1.db = Except.ok (tags, c1.db) ∧
      dbListTagsForTask taskID c2.db = Except.ok (tags, c2.db) ∧
      (tags.map (fun t => toLower lower t.Name)).Perm
        ((normalizeTags lower names).map (toLower lower)) ∧
      tags.length = (normalizeTags lower names).length) ∧
    (∃ c3 c4 : Conn,
      Store.SetTaskTags lower taskID names ⟨c.db, []⟩ = (Except.ok (), c3) ∧
      Store.SetTaskTags lower taskID names ⟨c3.db, []⟩ = (Except.ok (), c4) ∧
      c4.db = c3.db) := by
  have e1 := setTags_ok lower taskID names c c1 u1 h1
  have e2 := setTags_ok lower taskID names c1 c2 u2 h2
  have heq : c2.db = c1.db := by
    rw [e2, e1, setTagsDB_idem]
  obtain ⟨_, hperm⟩ := setTags_linked lower taskID names c.db hok
  rw [← e1] at hperm
  refine ⟨heq, ⟨linkedTags taskID c1.db, rfl, ?_, hperm, ?_⟩, ?_⟩
  · rw [heq]
    rfl
  · have := hperm.length_eq
    simpa using this
  · refine ⟨_, _, setTags_run lower taskID names c.db, setTags_run lower taskID names _, ?_⟩
    exact setTagsDB_idem lower taskID names c.db

/-- Witness of `C19_set_tags_idempotent`: new tags for the task of
`createdDB`, which is linked to "Work" and "Home". -/
theorem C19_set_tags_idempotent_witness :
    createdDB.tagsOk ∧
    (Store.SetTaskTags Char.toLower 1 ["home", "urgent", " Home "]
        (Store.SetTaskTags Char.toLower 1 ["home", "urgent", " Home "] ⟨createdDB, []⟩).2).2.db
      = (Store.SetTaskTags Char.toLower 1 ["home", "urgent", " Home "] ⟨createdDB, []⟩).2.db ∧
    (Store.SetTaskTags Char.toLower 1 ["home", "urgent", " Home "] ⟨createdDB, []⟩).2.db.taskTags
      = [(1, 2), (1, 3)] :=
  ⟨by decide,
    (C19_set_tags_idempotent Char.toLower 1 ["home", "urgent", " Home "] ⟨createdDB, []⟩
      (Store.SetTaskTags Char.toLower 1 ["home", "urgent", " Home "] ⟨createdDB, []⟩).2
      (Store.SetTaskTags Char.toLower 1 ["home", "urgent", " Home "]
        (Store.SetTaskTags Char.toLower 1 ["home", "urgent", " Home "] ⟨createdDB, []⟩).2).2
      () () (by decide) rfl rfl).1,
    by decide⟩

/-! ## Failing steps -/

theorem query_cases {α : Type} (c : Conn) (f : DB → Except DBError (α × DB)) :
    (∃ e, c.query f = (Except.error e, ⟨c.db, c.faults.tail⟩)) ∨
    (∃ a db2, f c.db = Except.ok (a, db2) ∧ c.query f = (Except.ok a, ⟨db2, c.faults.tail⟩)) := by
  unfold Conn.query
  by_cases hf : c.faults.head? = some true
  · exact Or.inl ⟨DBError.failed, by simp [hf]⟩
  · cases hr : f c.db with
    | error e => exact Or.inl ⟨e, by simp [hf]⟩
    | ok p => exact Or.inr ⟨p.1, p.2, rfl, by simp [hf]⟩

theorem getTask_db (taskID : Int) (c : Conn) : (Store.GetTaskWithTags taskID c).2.db = c.db := by
  cases h : Store.GetTaskWithTags taskID c with
  | mk r c2 =>
    cases r with
    | error e => exact getTask_err taskID c c2 e h
    | ok t =>
      obtain ⟨_, _, _, hc⟩ := getTask_ok taskID c c2 t h
      rw [hc]

theorem assignTags_core (lower : Char → Char) (taskID : Int) (names : List String) :
    ∀ c : Conn, (Store.assignTags lower taskID names c).2.db.core = c.db.core := by
  induction names with
  | nil => intro c; rfl
  | cons name rest ih =>
    intro c
    simp only [Store.assignTags]
    rcases query_cases c (dbCreateTag lower name) with ⟨e, he⟩ | ⟨tag, db2, hf, hq⟩
    · rw [he]
    · rw [hq]
      simp only []
      have hdb2 : db2.core = c.db.core := by
        rw [dbCreateTag_eq] at hf
        simp only [Except.ok.injEq] at hf
        have := getOrCreate_core lower name c.db
        rw [hf] at this
        exact this
      rcases query_cases ⟨db2, c.faults.tail⟩ (dbAssignTagToTask taskID tag.ID)
        with ⟨e, he⟩ | ⟨u, db3, hf3, hq3⟩
      · rw [he]
        exact hdb2
      · rw [hq3]
        simp only []
        rw [ih]
        rw [dbAssign_eq] at hf3
        simp only [Except.ok.injEq, Prod.mk.injEq, true_and] at hf3
        show db3.core = c.db.core
        rw [← hf3, linkTag_core]
        exact hdb2

theorem setTags_core (lower : Char → Char) (taskID : Int) (names : List String) (c : Conn) :
    (Store.SetTaskTags lower taskID names c).2.db.core = c.db.core := by
  unfold Store.SetTaskTags
  rcases query_cases c (dbClearTagsForTask taskID) with ⟨e, he⟩ | ⟨u, db2, hf, hq⟩
  · rw [he]
  · rw [hq]
    simp only []
    rw [assignTags_core]
    simp only [dbClearTagsForTask, Except.ok.injEq, Prod.mk.injEq, true_and] at hf
    rw [← hf]
    rfl

/-- When `CreateTask` returns an error it has added no history row. -/
theorem createTask_err_history (lower : Char → Char) (input : TaskInput) (c c2 : Conn)
    (e : DBError) (h : Store.CreateTask lower input c = (Except.error e, c2)) :
    c2.db.history = c.db.history := by
  unfold Store.CreateTask at h
  simp only [] at h
  rcases query_cases c (dbCreateTask input.Title input.Description
      (normalizeStatus lower input.Status) input.Priority input.DueAt input.ParentTaskID)
    with ⟨e1, he1⟩ | ⟨created, db1, hf1, hq1⟩
  · rw [he1] at h
    simp only [Prod.mk.injEq] at h
    rw [← h.2]
  · rw [hq1] at h
    simp only [] at h
    have hdb1 : db1.history = c.db.history := by
      simp only [dbCreateTask, Except.ok.injEq, Prod.mk.injEq] at hf1
      rw [← hf1.2]
    have hs := setTags_core lower created.ID input.Tags ⟨db1, c.faults.tail⟩
    cases h2 : Store.SetTaskTags lower created.ID input.Tags ⟨db1, c.faults.tail⟩ with
    | mk r2 c3 =>
      rw [h2] at h hs
      have hc3 : c3.db.history = c.db.history := by
        rw [← hdb1]
        exact (core_fields _ _ hs).2.1
      cases r2 with
      | error e2 =>
        simp only [Prod.mk.injEq] at h
        rw [← h.2]
        exact hc3
      | ok u =>
        simp only [] at h
        have hg := getTask_db created.ID c3
        cases h3 : Store.GetTaskWithTags created.ID c3 with
        | mk r3 c4 =>
          rw [h3] at h hg
          simp only [] at hg
          cases r3 with
          | error e3 =>
            simp only [Prod.mk.injEq] at h
            rw [← h.2, hg]
            exact hc3
          | ok createdTask =>
            simp only [] at h
            rcases query_cases c4 (dbAddHistory created.ID "created"
                (formatCreatedDetails createdTask)) with ⟨e4, he4⟩ | ⟨a, db5, hf5, hq5⟩
            · rw [he4] at h
              simp only [Prod.mk.injEq] at h
              rw [← h.2]
              show c4.db.history = c.db.history
              rw [hg]
              exact hc3
            · rw [hq5] at h
              simp at h

/-- When `UpdateTask` returns an error it has added no history row. -/
theorem updateTask_err_history (lower : Char → Char) (taskID : Int) (input : TaskInput)
    (c c2 : Conn) (e : DBError)
    (h : Store.UpdateTask lower taskID input c = (Except.error e, c2)) :
    c2.db.history = c.db.history := by
  unfold Store.UpdateTask at h
  have hg0 := getTask_db taskID c
  cases h0 : Store.GetTaskWithTags taskID c with
  | mk r0 c0 =>
    rw [h0] at h hg0
    simp only [] at hg0
    cases r0 with
    | error e0 =>
      simp only [Prod.mk.injEq] at h
      rw [← h.2, hg0]
    | ok before =>
      simp only [] at h
      rcases query_cases c0 (dbUpdateTask input.Title input.Description
          (normalizeStatus lower input.Status) input.Priority input.DueAt input.ParentTaskID
          taskID) with ⟨e1, he1⟩ | ⟨updated, db1, hf1, hq1⟩
      · rw [he1] at h
        simp only [Prod.mk.injEq] at h
        rw [← h.2]
        show c0.db.history = c.db.history
        rw [hg0]
      · rw [hq1] at h
        simp only [] at h
        have hdb1 : db1.history = c.db.history := by
          unfold dbUpdateTask at hf1
          cases hfind : c0.db.tasks.find? (fun r => r.ID == taskID) with
          | none => simp [hfind] at hf1
          | some old =>
            simp only [hfind, Except.ok.injEq, Prod.mk.injEq] at hf1
            rw [← hf1.2]
            show c0.db.history = c.db.history
            rw [hg0]
        have hs := setTags_core lower updated.ID input.Tags ⟨db1, c0.faults.tail⟩
        cases h2 : Store.SetTaskTags lower updated.ID input.Tags ⟨db1, c0.faults.tail⟩ with
        | mk r2 c3 =>
          rw [h2] at h hs
          have hc3 : c3.db.history = c.db.history := by
            rw [← hdb1]
            exact (core_fields _ _ hs).2.1
          cases r2 with
          | error e2 =>
            simp only [Prod.mk.injEq] at h
            rw [← h.2]
            exact hc3
          | ok u =>
            simp only [] at h
            have hg := getTask_db updated.ID c3
            cases h3 : Store.GetTaskWithTags updated.ID c3 with
            | mk r3 c4 =>
              rw [h3] at h hg
              simp only [] at hg
              cases r3 with
              | error e3 =>
                simp only [Prod.mk.injEq] at h
                rw [← h.2, hg]
                exact hc3
              | ok after =>
                simp only [] at h
                rcases query_cases c4 (dbAddHistory updated.ID "updated"
                    (formatTaskDiff before after)) with ⟨e4, he4⟩ | ⟨a, db5, hf5, hq5⟩
                · rw [he4] at h
                  simp only [Prod.mk.injEq] at h
                  rw [← h.2]
                  show c4.db.history = c.db.history
                  rw [hg]
                  exact hc3
                · rw [hq5] at h
                  simp at h

/-- When `DeleteTask` returns an error it has removed no task row and changed
no tag and no tag link. -/
theorem deleteTask_err_rows (taskID : Int) (c c2 : Conn) (e : DBError)
    (h : Store.DeleteTask taskID c = (Except.error e, c2)) :
    c2.db.tasks = c.db.tasks ∧ c2.db.tags = c.db.tags ∧ c2.db.taskTags = c.db.taskTags := by
  unfold Store.DeleteTask at h
  have hg0 := getTask_db taskID c
  cases h0 : Store.GetTaskWithTags taskID c with
  | mk r0 c0 =>
    rw [h0] at h hg0
    simp only [] at hg0
    cases r0 with
    | error e0 =>
      simp only [Prod.mk.injEq] at h
      rw [← h.2, hg0]
      exact ⟨rfl, rfl, rfl⟩
    | ok before =>
      simp only [] at h
      rcases query_cases c0 (dbAddHistory taskID "deleted" (formatDeletedDetails before))
        with ⟨e1, he1⟩ | ⟨a, db1, hf1, hq1⟩
      · rw [he1] at h
        simp only [Prod.mk.injEq] at h
        rw [← h.2]
        show c0.db.tasks = c.db.tasks ∧ c0.db.tags = c.db.tags ∧ c0.db.taskTags = c.db.taskTags
        rw [hg0]
        exact ⟨rfl, rfl, rfl⟩
      · rw [hq1] at h
        simp only [] at h
        simp only [dbAddHistory, Except.ok.injEq, Prod.mk.injEq] at hf1
        rcases query_cases ⟨db1, c0.faults.tail⟩ (dbDeleteTask taskID)
          with ⟨e2, he2⟩ | ⟨u, db3, hf3, hq3⟩
        · rw [he2] at h
          simp only [Prod.mk.injEq] at h
          rw [← h.2]
          show db1.tasks = c.db.tasks ∧ db1.tags = c.db.tags ∧ db1.taskTags = c.db.taskTags
          rw [← hf1.2, hg0]
          exact ⟨rfl, rfl, rfl⟩
        · rw [hq3] at h
          simp at h

theorem getTask_pass (taskID : Int) (db : DB) (fs : List Bool) (row : TaskRow)
    (hfind : db.tasks.find? (fun r => r.ID == taskID) = some row) :
    Store.GetTaskWithTags taskID ⟨db, false :: false :: fs⟩
      = (Except.ok (mapTask row (linkedTags taskID db)), ⟨db, fs⟩) := by
  unfold Store.GetTaskWithTags
  rw [query_pass]
  simp only [dbGetTask, hfind]
  rw [query_pass]
  rfl

/-- Counterexample to claim C20: on the empty store, with a tag-link
replacement that fails, `CreateTask` returns an error and the task row it
has written stays in the store. -/
theorem C20_counterexample :
    (Store.CreateTask Char.toLower sampleInput ⟨emptyDB, [false, true]⟩).1
      = Except.error DBError.failed ∧
    (Store.CreateTask Char.toLower sampleInput ⟨emptyDB, [false, true]⟩).2.db ≠ emptyDB ∧
    (Store.CreateTask Char.toLower sampleInput ⟨emptyDB, [false, true]⟩).2.db.tasks.length = 1 ∧
    emptyDB.tasks.length = 0 := by
  refine ⟨rfl, ?_, rfl, rfl⟩
  intro h
  have := congrArg (fun d => d.tasks.length) h
  exact absurd this (by decide)

/-- Claim C20, amended. The mutations run their steps one after another and
nothing is rolled back. A failure of the first query leaves the store
unchanged. When `CreateTask` or `UpdateTask` returns an error no history row
has been added, and when `DeleteTask` returns an error no task row, tag or
tag link has changed. But the writes of the steps before the failing one
stay: the row that `CreateTask` has written when the tag replacement fails,
the row that `UpdateTask` has rewritten when the tag replacement fails, and
the "deleted" history row of `DeleteTask` when the removal of the row
fails. -/
theorem C20_no_rollback (lower : Char → Char) (input : TaskInput) (taskID : Int) (db : DB)
    (fs : List Bool) :
    (Store.CreateTask lower input ⟨db, true :: fs⟩ = (Except.error DBError.failed, ⟨db, fs⟩) ∧
      Store.UpdateTask lower taskID input ⟨db, true :: fs⟩
        = (Except.error DBError.failed, ⟨db, fs⟩) ∧
      Store.DeleteTask taskID ⟨db, true :: fs⟩ = (Except.error DBError.failed, ⟨db, fs⟩)) ∧
    (∀ (e : DBError) (c2 : Conn),
      Store.CreateTask lower input ⟨db, fs⟩ = (Except.error e, c2) →
        c2.db.history = db.history) ∧
    (∀ (e : DBError) (c2 : Conn),
      Store.UpdateTask lower taskID input ⟨db, fs⟩ = (Except.error e, c2) →
        c2.db.history = db.history) ∧
    (∀ (e : DBError) (c2 : Conn),
      Store.DeleteTask taskID ⟨db, fs⟩ = (Except.error e, c2) →
        c2.db.tasks = db.tasks ∧ c2.db.tags = db.tags ∧ c2.db.taskTags = db.taskTags) ∧
    Store.CreateTask lower input ⟨db, false :: true :: fs⟩
      = (Except.error DBError.failed,
          ⟨{ db with
              tasks := db.tasks ++ [⟨db.nextTaskID, input.Title, input.Description,
                normalizeStatus lower input.Status, input.Priority, input.DueAt,
                input.ParentTaskID, db.now, db.now⟩],
              nextTaskID := db.nextTaskID + 1 }, fs⟩) ∧
    (∀ row : TaskRow, db.tasks.find? (fun r => r.ID == taskID) = some row →
      Store.UpdateTask lower taskID input ⟨db, false :: false :: false :: true :: fs⟩
        = (Except.error DBError.failed,
            ⟨{ db with
                tasks := db.tasks.map (fun r => if r.ID == taskID then
                  (⟨taskID, input.Title, input.Description, normalizeStatus lower input.Status,
                    input.Priority, input.DueAt, input.ParentTaskID, row.CreatedAt,
                    db.now⟩ : TaskRow)
                  else r) }, fs⟩) ∧
      Store.DeleteTask taskID ⟨db, false :: false :: false :: true :: fs⟩
        = (Except.error DBError.failed,
            ⟨{ db with
                history := db.history ++ [⟨db.nextHistoryID, taskID, "deleted",
                  formatDeletedDetails (mapTask row (linkedTags taskID db)), db.now⟩],
                nextHistoryID := db.nextHistoryID + 1 }, fs⟩)) := by
  refine ⟨⟨?_, ?_, ?_⟩, ?_, ?_, ?_, ?_, ?_⟩
  · unfold Store.CreateTask
    simp only [query_fault]
  · unfold Store.UpdateTask Store.GetTaskWithTags
    simp only [query_fault]
  · unfold Store.DeleteTask Store.GetTaskWithTags
    simp only [query_fault]
  · intro e c2 h
    exact createTask_err_history lower input ⟨db, fs⟩ c2 e h
  · intro e c2 h
    exact updateTask_err_history lower taskID input ⟨db, fs⟩ c2 e h
  · intro e c2 h
    exact deleteTask_err_rows taskID ⟨db, fs⟩ c2 e h
  · unfold Store.CreateTask Store.SetTaskTags
    simp only [query_pass, dbCreateTask, query_fault]
  · intro row hfind
    constructor
    · unfold Store.UpdateTask Store.SetTaskTags
      rw [getTask_pass taskID db (false :: true :: fs) row hfind]
      simp only [query_pass, dbUpdateTask, hfind, query_fault]
    · unfold Store.DeleteTask
      rw [getTask_pass taskID db (false :: true :: fs) row hfind]
      simp only [query_pass, dbAddHistory, query_fault]

/-- Witness of `C20_no_rollback`: the failing calls on `createdDB`. -/
theorem C20_no_rollback_witness :
    createdDB.tasks.find? (fun r => r.ID == 1)
      = some ⟨1, "Write tests", "Add coverage", "todo", 2, none, none, none, none⟩ ∧
    (Store.DeleteTask 1 ⟨createdDB, [false, false, false, true]⟩).1
      = Except.error DBError.failed ∧
    (Store.DeleteTask 1 ⟨createdDB, [false, false, false, true]⟩).2.db.history.length = 2 ∧
    (Store.DeleteTask 1 ⟨createdDB, [false, false, false, true]⟩).2.db.tasks = createdDB.tasks ∧
    (Store.UpdateTask Char.toLower 1 sampleUpdate ⟨createdDB, [false, false, false, true]⟩).2.db.history
      = createdDB.history :=
  ⟨rfl, rfl, rfl,
    ((C20_no_rollback Char.toLower sampleUpdate 1 createdDB [false, false, false, true]).2.2.2.1
      DBError.failed (Store.DeleteTask 1 ⟨createdDB, [false, false, false, true]⟩).2 rfl).1,
    (C20_no_rollback Char.toLower sampleUpdate 1 createdDB [false, false, false, true]).2.2.1
      DBError.failed
      (Store.UpdateTask Char.toLower 1 sampleUpdate ⟨createdDB, [false, false, false, true]⟩).2
      rfl⟩

/-! ## The web rows and the terminal tree -/

theorem web_walk_eq (cbp : IntMap (List Task)) (hc : IntMap Bool)
    (collapsed : Option (IntMap Bool)) (hcoll : ∀ id, collapsedAt collapsed id = false) :
    ∀ (fuel : Nat) (p : Int) (d : Nat) (st : WalkState),
      web.walk cbp fuel p d st = walk cbp hc collapsed fuel p d st := by
  intro fuel
  induction fuel with
  | zero => intro p d st; rfl
  | succ fuel ih =>
    intro p d st
    simp only [web.walk, walk]
    congr 1
    funext st task
    simp only [isCollapsed, hcoll, Bool.and_false, Bool.false_eq_true, if_false]
    exact ih _ _ _

theorem web_rows_eq (fuel : Nat) (tasks : List Task) (collapsed : Option (IntMap Bool))
    (hcoll : ∀ id, collapsedAt collapsed id = false) :
    web.buildTaskRows fuel tasks
      = (buildVisibleTaskTree fuel tasks collapsed).map rowsOfTree := by
  unfold web.buildTaskRows buildVisibleTaskTree
  by_cases h0 : tasks.length = 0
  · simp [h0, rowsOfTree]
  · simp only [h0, if_false]
    rw [web_walk_eq _ (buildHasChildren (sortChildren (buildIndexByID tasks)
      (groupChildren (buildExistsByID tasks) tasks))) collapsed hcoll]
    cases walk (sortChildren (buildIndexByID tasks) (groupChildren (buildExistsByID tasks) tasks))
      (buildHasChildren (sortChildren (buildIndexByID tasks)
        (groupChildren (buildExistsByID tasks) tasks))) collapsed fuel 0 0 ⟨[], []⟩ with
    | none => rfl
    | some st => rfl

theorem depth_get_isSome (l : List (Task × Nat)) :
    ∀ (m : IntMap Nat) (id : Int), ((IntMap.get m id).isSome = true ∨ ∃ e ∈ l, e.1.ID = id) →
      (IntMap.get (l.foldl (fun m e => IntMap.set m e.1.ID e.2) m) id).isSome = true := by
  induction l with
  | nil =>
    intro m id h
    rcases h with h | ⟨e, he, _⟩
    · exact h
    · simp at he
  | cons a l ih =>
    intro m id h
    rw [List.foldl_cons]
    apply ih
    by_cases ha : a.1.ID = id
    · left
      rw [IntMap.get_set, if_pos ha.symm]
      rfl
    · rcases h with h | ⟨e, he, hid⟩
      · left
        rw [IntMap.get_set, if_neg (fun h2 => ha h2.symm)]
        exact h
      · rcases List.mem_cons.mp he with rfl | he2
        · exact absurd hid ha
        · exact Or.inr ⟨e, he2, hid⟩

/-- Claim C23. The web rows are the terminal tree: for every task list and
every nesting bound, `web.buildTaskRows` returns exactly when
`buildVisibleTaskTree` with an empty (or nil) collapsed set returns, the tasks
of the rows are the visible tasks in the same order, and the `IndentPx` of
each row is 20 times the depth that `buildVisibleTaskTree` has recorded for
the id of its task, which is always there. On distinct non-zero ids both
return as soon as the bound exceeds the number of tasks. -/
theorem C23_web_rows (fuel : Nat) (tasks : List Task) :
    web.buildTaskRows fuel tasks
      = (buildVisibleTaskTree fuel tasks (some [])).map rowsOfTree ∧
    web.buildTaskRows fuel tasks = (buildVisibleTaskTree fuel tasks none).map rowsOfTree ∧
    (∀ r, buildVisibleTaskTree fuel tasks (some []) = some r →
      ∃ rows, web.buildTaskRows fuel tasks = some rows ∧
        rows.map (fun row => row.Task) = r.visible ∧
        ∀ row ∈ rows, ∃ d, r.depthByID.get row.Task.ID = some d ∧ row.IndentPx = 20 * d) ∧
    (WellFormed tasks → tasks.length < fuel →
      ∃ r rows, buildVisibleTaskTree fuel tasks (some []) = some r ∧
        web.buildTaskRows fuel tasks = some rows ∧
        rows.map (fun row => row.Task) = r.visible) := by
  have h1 := web_rows_eq fuel tasks (some []) (fun id => rfl)
  have h2 := web_rows_eq fuel tasks none (fun id => rfl)
  have h3 : ∀ r, buildVisibleTaskTree fuel tasks (some []) = some r →
      ∃ rows, web.buildTaskRows fuel tasks = some rows ∧
        rows.map (fun row => row.Task) = r.visible ∧
        ∀ row ∈ rows, ∃ d, r.depthByID.get row.Task.ID = some d ∧ row.IndentPx = 20 * d := by
    intro r hr
    refine ⟨rowsOfTree r, by rw [h1, hr]; rfl, ?_, ?_⟩
    · simp [rowsOfTree, List.map_map, Function.comp_def]
    · intro row hrow
      simp only [rowsOfTree, List.mem_map] at hrow
      obtain ⟨t, ht, rfl⟩ := hrow
      have hsome : (r.depthByID.get t.ID).isSome = true := by
        unfold buildVisibleTaskTree at hr
        by_cases h0 : tasks.length = 0
        · simp only [h0, if_true, Option.some.injEq] at hr
          rw [← hr] at ht
          simp at ht
        · simp only [h0, if_false] at hr
          rw [walk_eq] at hr
          cases hw : walkList (childrenOf (sortChildren (buildIndexByID tasks)
              (groupChildren (buildExistsByID tasks) tasks)))
              (isCollapsed (buildHasChildren (sortChildren (buildIndexByID tasks)
                (groupChildren (buildExistsByID tasks) tasks))) (some [])) fuel 0 0 with
          | none => simp [hw] at hr
          | some l =>
            simp only [hw, Option.map_some', Option.some.injEq] at hr
            rw [← hr] at ht ⊢
            simp only [applyEmits, List.nil_append, List.mem_map] at ht ⊢
            obtain ⟨e, he, hte⟩ := ht
            exact depth_get_isSome l [] t.ID (Or.inr ⟨e, he, by rw [hte]⟩)
      obtain ⟨d, hd⟩ := Option.isSome_iff_exists.mp hsome
      exact ⟨d, hd, by simp [hd, Nat.mul_comm]⟩
  refine ⟨h1, h2, h3, ?_⟩
  intro hwf hfuel
  obtain ⟨l, _, hb⟩ := build_run tasks (some []) fuel hwf hfuel
  obtain ⟨rows, hrows, hmap, _⟩ := h3 _ hb
  exact ⟨_, rows, hb, hrows, hmap⟩

/-- Witness of `C23_web_rows`: the chain example with its second child. -/
theorem C23_web_rows_witness :
    WellFormed [sampleA, sampleB, sampleC, sampleD] ∧
    web.buildTaskRows 5 [sampleA, sampleB, sampleC, sampleD]
      = some [⟨sampleA, 0⟩, ⟨sampleB, 20⟩, ⟨sampleC, 40⟩, ⟨sampleD, 20⟩] ∧
    web.buildTaskRows 5 [sampleA, sampleB, sampleC, sampleD]
      = (buildVisibleTaskTree 5 [sampleA, sampleB, sampleC, sampleD] (some [])).map rowsOfTree ∧
    (∃ r rows, buildVisibleTaskTree 5 [sampleA, sampleB, sampleC, sampleD] (some []) = some r ∧
        web.buildTaskRows 5 [sampleA, sampleB, sampleC, sampleD] = some rows ∧
        rows.map (fun row => row.Task) = r.visible) :=
  ⟨⟨by decide, by decide⟩, by decide,
    (C23_web_rows 5 [sampleA, sampleB, sampleC, sampleD]).1,
    (C23_web_rows 5 [sampleA, sampleB, sampleC, sampleD]).2.2.2 ⟨by decide, by decide⟩
      (by decide)⟩

/-! ## Cycles and the tasks that the walk reaches -/

theorem walk_children (tasks : List Task) (coll : Int → Bool) :
    (∀ fuel p d l, walkList (kidsOf tasks) coll fuel p d = some l →
      ∀ q e, (q, e) ∈ l → coll q.ID = false → ∀ c ∈ kidsOf tasks q.ID, (c, e + 1) ∈ l) ∧
    (∀ fuel p d cs r, cs <:+ kidsOf tasks p →
      emitBlocks (subWalk (kidsOf tasks) coll fuel d) d cs = some r →
      ∀ q e, (q, e) ∈ r → coll q.ID = false → ∀ c ∈ kidsOf tasks q.ID, (c, e + 1) ∈ r) := by
  apply walkList_induct (kidsOf tasks) coll
    (fun _ _ l => ∀ q e, (q, e) ∈ l → coll q.ID = false →
      ∀ c ∈ kidsOf tasks q.ID, (c, e + 1) ∈ l)
    (fun _ _ _ r => ∀ q e, (q, e) ∈ r → coll q.ID = false →
      ∀ c ∈ kidsOf tasks q.ID, (c, e + 1) ∈ r)
  · intro p d q e h
    simp at h
  · intro fuel p c cs d r _ hc _ ih q e h hq x hx
    rcases List.mem_cons.mp h with heq | hmem
    · obtain ⟨rfl, rfl⟩ := Prod.mk.inj heq
      rw [hc] at hq
      exact absurd hq (by decide)
    · exact List.mem_cons_of_mem _ (ih q e hmem hq x hx)
  · intro fuel p c cs d s r _ _ hs _ ihs ih q e h hq x hx
    rcases List.mem_cons.mp h with heq | hmem
    · obtain ⟨rfl, rfl⟩ := Prod.mk.inj heq
      have := (walk_emits_group tasks coll).1 fuel q.ID (e + 1) s hs x hx
      exact List.mem_cons_of_mem _ (List.mem_append_left _ this)
    · rcases List.mem_append.mp hmem with h1 | h2
      · exact List.mem_cons_of_mem _ (List.mem_append_left _ (ihs q e h1 hq x hx))
      · exact List.mem_cons_of_mem _ (List.mem_append_right _ (ih q e h2 hq x hx))
  · intro p d l h
    exact h

theorem rank_of_reaches (tasks : List Task) (id : Int)
    (h : ∃ k : Nat, (parId tasks)^[k] id = 0) : ∃ r, Rank tasks id r := by
  classical
  refine ⟨Nat.find h, Nat.find_spec h, ?_⟩
  intro k hk
  exact Nat.find_min h hk

/-- With nothing collapsed the walk from the root key emits every task whose
chain of grouping keys reaches the root key. -/
theorem walk_complete (tasks : List Task) (hwf : WellFormed tasks) (fuel : Nat)
    (l : List (Task × Nat))
    (hl : walkList (kidsOf tasks) (fun _ => false) fuel 0 0 = some l) :
    ∀ (r : Nat) (u : Task), u ∈ tasks → Rank tasks u.ID (r + 1) → (u, r) ∈ l := by
  intro r
  induction r with
  | zero =>
    intro u hu hr
    have hk : effKey tasks u = 0 := by
      rw [← parId_of_mem tasks hwf.1 u hu]
      exact hr.1
    exact (walk_emits_group tasks _).1 fuel 0 0 l hl u ((mem_kidsOf _ _ _).mpr ⟨hu, hk⟩)
  | succ r ih =>
    intro u hu hr
    have hpar : parId tasks u.ID = effKey tasks u := parId_of_mem tasks hwf.1 u hu
    have hne : effKey tasks u ≠ 0 := by
      rw [← hpar]
      exact hr.2 1 (by omega)
    have hid : hasID tasks (effKey tasks u) = true := (effKey_ne_zero tasks u hne).2
    obtain ⟨q, hq, hqid⟩ := (hasID_iff _ _).mp hid
    have hrq : Rank tasks q.ID (r + 1) := by
      rw [hqid, ← hpar]
      refine ⟨?_, ?_⟩
      · have := hr.1
        rw [Function.iterate_succ_apply] at this
        exact this
      · intro k hk
        have := hr.2 (k + 1) (by omega)
        rw [Function.iterate_succ_apply] at this
        exact this
    have hql := ih q hq hrq
    exact (walk_children tasks _).1 fuel 0 0 l hl q r hql rfl u
      ((mem_kidsOf _ _ _).mpr ⟨hu, hqid.symm⟩)

theorem iterate_cycle (f : Int → Int) (x : Int) (k : Nat) (h : f^[k] x = x) :
    ∀ n : Nat, f^[k * n] x = x := by
  intro n
  induction n with
  | zero => rfl
  | succ n ih =>
    rw [Nat.mul_succ, Function.iterate_add_apply, h, ih]

/-- A task on or below a parent cycle never reaches the root key. -/
theorem cycle_never_root (tasks : List Task) (hz : ∀ t ∈ tasks, t.ID ≠ 0) (t : Task)
    (hc : OnCycle tasks t) : ¬ ReachesRoot tasks t := by
  rintro ⟨j, hj⟩
  obtain ⟨m, k, hk, hne, hloop⟩ := hc
  have hall := iterate_cycle (parId tasks) _ k hloop (j + 1)
  have hzero : (parId tasks)^[k * (j + 1)] ((parId tasks)^[m] t.ID) = 0 := by
    have hle : j ≤ k * (j + 1) + m := by nlinarith
    rw [← Function.iterate_add_apply]
    obtain ⟨n, hn⟩ := Nat.exists_eq_add_of_le hle
    rw [hn, Nat.add_comm j n, Function.iterate_add_apply, hj]
    exact parId_iter_zero tasks hz n
  rw [hall] at hzero
  exact hne hzero

/-- Without a cycle every chain of grouping keys reaches the root key. -/
theorem reaches_of_noCycle (tasks : List Task) (hnc : NoCycle tasks) (t : Task)
    (ht : t ∈ tasks) : ReachesRoot tasks t := by
  by_contra hcon
  have hnz : ∀ k : Nat, (parId tasks)^[k] t.ID ≠ 0 := fun k hk => hcon ⟨k, hk⟩
  have hids : ∀ k : Nat, (parId tasks)^[k] t.ID ∈ (idsOf tasks).toFinset := by
    intro k
    rw [List.mem_toFinset]
    have hmem : hasID tasks ((parId tasks)^[k] t.ID) = true := by
      cases k with
      | zero => exact (hasID_iff _ _).mpr ⟨t, ht, rfl⟩
      | succ k =>
        rw [Function.iterate_succ_apply']
        rcases parId_zero_or_hasID tasks ((parId tasks)^[k] t.ID) with h0 | h1
        · exact absurd (by rw [Function.iterate_succ_apply', h0]) (hnz (k + 1))
        · exact h1
    obtain ⟨q, hq, hqe⟩ := (hasID_iff _ _).mp hmem
    exact List.mem_map.mpr ⟨q, hq, hqe⟩
  have hcard : (idsOf tasks).toFinset.card < (Finset.range (tasks.length + 1)).card := by
    rw [Finset.card_range]
    have h1 := List.toFinset_card_le (idsOf tasks)
    have h2 : (idsOf tasks).length = tasks.length := by simp [idsOf]
    omega
  obtain ⟨i, _, j, _, hij, heq⟩ := Finset.exists_ne_map_eq_of_card_lt_of_maps_to hcard
    (fun k _ => hids k)
  have key : ∀ a b : Nat, a < b → (parId tasks)^[a] t.ID = (parId tasks)^[b] t.ID → False := by
    intro a b hab h
    have hin := hids a
    rw [List.mem_toFinset] at hin
    obtain ⟨q, hq, hqe⟩ := List.mem_map.mp hin
    have hloop : (parId tasks)^[b - a] q.ID = q.ID := by
      rw [hqe, ← Function.iterate_add_apply, Nat.sub_add_cancel (le_of_lt hab)]
      exact h.symm
    exact hnc q hq (b - a) (by omega) hloop
  rcases Nat.lt_or_gt_of_ne hij with h | h
  · exact key i j h heq
  · exact key j i h heq.symm

theorem collOf_empty (tasks : List Task) (collapsed : Option (IntMap Bool))
    (hcoll : ∀ id, collapsedAt collapsed id = false) :
    collOf tasks collapsed = fun _ => false := by
  funext id
  simp [collOf, hcoll]

/-- What the walk emits on distinct non-zero ids: it returns, every emitted
task is a task of the input whose chain reaches the root key, no task is
emitted twice, and a task that is not emitted has no entry in the depth map. -/
theorem tree_facts (tasks : List Task) (collapsed : Option (IntMap Bool)) (fuel : Nat)
    (hwf : WellFormed tasks) (hfuel : tasks.length < fuel) :
    ∃ r, buildVisibleTaskTree fuel tasks collapsed = some r ∧ r.visible.Nodup ∧
      (∀ t ∈ r.visible, t ∈ tasks ∧ ReachesRoot tasks t ∧ (r.depthByID.get t.ID).isSome = true) ∧
      (∀ t ∈ tasks, t ∉ r.visible → r.depthByID.get t.ID = none) ∧
      ((∀ id, collapsedAt collapsed id = false) →
        ∀ t ∈ tasks, ReachesRoot tasks t → t ∈ r.visible) := by
  obtain ⟨l, hl, hb⟩ := build_run tasks collapsed fuel hwf hfuel
  obtain ⟨_, hnd, hmem, hdepth⟩ := top_facts tasks hwf _ fuel l hl
  refine ⟨_, hb, hnd, ?_, ?_, ?_⟩
  · intro t ht
    obtain ⟨e, hte⟩ := mem_visible l t ht
    have := hmem t e hte
    refine ⟨this.1, ⟨e + 1, this.2.1⟩, ?_⟩
    show (IntMap.get (l.foldl (fun m e => IntMap.set m e.1.ID e.2) []) t.ID).isSome = true
    rw [hdepth t e hte []]
    rfl
  · intro t ht hnot
    show IntMap.get (l.foldl (fun m e => IntMap.set m e.1.ID e.2) []) t.ID = none
    rw [depth_get_not_mem l [] t.ID]
    · rfl
    · intro e he hid
      have hu := (hmem e.1 e.2 he).1
      have : e.1 = t := ids_inj tasks hwf.1 e.1 t hu ht hid
      apply hnot
      show t ∈ l.map Prod.fst
      rw [← this]
      exact List.mem_map.mpr ⟨e, he, rfl⟩
  · intro hcoll t ht hreach
    rw [collOf_empty tasks collapsed hcoll] at hl
    obtain ⟨r, hr⟩ := rank_of_reaches tasks t.ID hreach
    cases r with
    | zero => exact absurd hr.1 (hwf.2 t ht)
    | succ r =>
      have := walk_complete tasks hwf fuel l hl r t ht hr
      show t ∈ l.map Prod.fst
      exact List.mem_map.mpr ⟨(t, r), this, rfl⟩

theorem emitBlocks_none (sub : Task → Option (List (Task × Nat))) (d : Nat) (c : Task)
    (hsub : sub c = none) : ∀ cs : List Task, c ∈ cs → emitBlocks sub d cs = none := by
  intro cs
  induction cs with
  | nil => intro h; simp at h
  | cons a cs ih =>
    intro h
    rcases List.mem_cons.mp h with rfl | h2
    · simp [emitBlocks, hsub]
    · simp only [emitBlocks, ih h2]
      cases sub a <;> rfl

/-- A task with id 0 in the group of the root key sends the walk back to that
group: no nesting bound is enough. -/
theorem zero_loop (kids : Int → List Task) (coll : Int → Bool) (z : Task) (hz : z.ID = 0)
    (hmem : z ∈ kids 0) (hcoll : coll 0 = false) :
    ∀ (fuel d : Nat), walkList kids coll fuel 0 d = none := by
  intro fuel
  induction fuel with
  | zero => intro d; rfl
  | succ fuel ih =>
    intro d
    rw [walkList_succ]
    apply emitBlocks_none _ d z _ _ hmem
    simp only [subWalk, hz, hcoll, Bool.false_eq_true, if_false]
    exact ih (d + 1)

/-- Counterexample to claim C24: on two tasks that are each other's parent, and
on a task that is its own parent, the walk returns at once with an empty
output (the nesting bound 1 is enough). -/
theorem C24_counterexample :
    (buildVisibleTaskTree 1 cycleTasks none).map (fun r => (r.visible, r.depthByID))
      = some ([], []) ∧
    (buildVisibleTaskTree 1 selfParentTasks none).map (fun r => (r.visible, r.depthByID))
      = some ([], []) := by
  decide

/-- Claim C24, amended. `buildVisibleTaskTree` has no cycle detection, but on
distinct non-zero ids a loop of parent pointers does not make it recurse
without bound: the walk starts at the root key 0, returns within a nesting
bound of the number of tasks plus one, and a task that its effective parents
lead back to is left out of the output and of the depth map. The walk does
recurse without bound, for every collapsed set, when a task with id 0 is
grouped under the root key. -/
theorem C24_loops_are_skipped (tasks : List Task) (collapsed : Option (IntMap Bool))
    (fuel : Nat) :
    ((idsOf tasks).Nodup → (∀ t ∈ tasks, t.ID ≠ 0) → tasks.length < fuel →
      ∃ r, buildVisibleTaskTree fuel tasks collapsed = some r ∧
        ∀ t ∈ tasks, ∀ k : Nat, 0 < k → (parId tasks)^[k] t.ID = t.ID →
          t ∉ r.visible ∧ r.depthByID.get t.ID = none) ∧
    (∀ z ∈ tasks, z.ID = 0 → effKey tasks z = 0 →
      buildVisibleTaskTree fuel tasks collapsed = none) := by
  constructor
  · intro hdistinct hnonzero hfuel
    obtain ⟨r, hr, _, hvis, hdepth, _⟩ :=
      tree_facts tasks collapsed fuel ⟨hdistinct, hnonzero⟩ hfuel
    refine ⟨r, hr, ?_⟩
    intro t ht k hk hloop
    have hnot : t ∉ r.visible := by
      intro hin
      exact cycle_never_root tasks hnonzero t ⟨0, k, hk, hnonzero t ht, hloop⟩ (hvis t hin).2.1
    exact ⟨hnot, hdepth t ht hnot⟩
  · intro z hz hid hkey
    have hne : tasks ≠ [] := List.ne_nil_of_mem hz
    rw [build_eq fuel tasks collapsed hne]
    have hmem : z ∈ sortedKids tasks 0 := by
      unfold sortedKids
      rw [(List.perm_insertionSort _ _).mem_iff]
      exact (mem_kidsOf _ _ _).mpr ⟨hz, hkey⟩
    rw [zero_loop (sortedKids tasks) (collOf tasks collapsed) z hid hmem (by simp [collOf, hasKids])]
    rfl

/-- Witness of `C24_loops_are_skipped`: the two tasks that are each other's
parent, and a list with a root of id 0. -/
theorem C24_loops_are_skipped_witness :
    (idsOf cycleTasks).Nodup ∧ (∀ t ∈ cycleTasks, t.ID ≠ 0) ∧ cycleTasks.length < 3 ∧
    (∃ r, buildVisibleTaskTree 3 cycleTasks none = some r ∧
        ∀ t ∈ cycleTasks, ∀ k : Nat, 0 < k → (parId cycleTasks)^[k] t.ID = t.ID →
          t ∉ r.visible ∧ r.depthByID.get t.ID = none) ∧
    zeroRoot ∈ [zeroRoot, sampleA] ∧ zeroRoot.ID = 0 ∧ effKey [zeroRoot, sampleA] zeroRoot = 0 ∧
    buildVisibleTaskTree 3 [zeroRoot, sampleA] none = none :=
  ⟨by decide, by decide, by decide,
    (C24_loops_are_skipped cycleTasks none 3).1 (by decide) (by decide) (by decide),
    by decide, rfl, by decide,
    (C24_loops_are_skipped [zeroRoot, sampleA] none 3).2 zeroRoot (by decide) rfl (by decide)⟩

/-- Claim C27. On distinct non-zero ids, whatever the parent pointers and the
collapsed set, `buildVisibleTaskTree` returns (a nesting bound above the
number of tasks is enough), emits only tasks of the input and none twice.
With an empty collapsed set it emits exactly the tasks whose chain of
effective parents ends at a root. A task that lies on a parent cycle or
hangs below one is in neither the output nor the depth map. -/
theorem C27_cycles_left_out (tasks : List Task) (collapsed : Option (IntMap Bool)) (fuel : Nat)
    (hdistinct : (idsOf tasks).Nodup) (hnonzero : ∀ t ∈ tasks, t.ID ≠ 0)
    (hfuel : tasks.length < fuel) :
    ∃ r r0, buildVisibleTaskTree fuel tasks collapsed = some r ∧
      buildVisibleTaskTree fuel tasks (some []) = some r0 ∧
      r.visible.Nodup ∧ (∀ t ∈ r.visible, t ∈ tasks) ∧
      (∀ t, t ∈ r0.visible ↔ t ∈ tasks ∧ ReachesRoot tasks t) ∧
      (∀ t ∈ tasks, OnCycle tasks t →
        t ∉ r.visible ∧ r.depthByID.get t.ID = none ∧
        t ∉ r0.visible ∧ r0.depthByID.get t.ID = none) := by
  obtain ⟨r, hr, hnd, hvis, hdepth, _⟩ :=
    tree_facts tasks collapsed fuel ⟨hdistinct, hnonzero⟩ hfuel
  obtain ⟨r0, hr0, _, hvis0, hdepth0, hall0⟩ :=
    tree_facts tasks (some []) fuel ⟨hdistinct, hnonzero⟩ hfuel
  refine ⟨r, r0, hr, hr0, hnd, fun t ht => (hvis t ht).1, ?_, ?_⟩
  · intro t
    constructor
    · intro ht
      exact ⟨(hvis0 t ht).1, (hvis0 t ht).2.1⟩
    · intro ht
      exact hall0 (fun _ => rfl) t ht.1 ht.2
  · intro t ht hc
    have hnr := cycle_never_root tasks hnonzero t hc
    have h1 : t ∉ r.visible := fun hin => hnr (hvis t hin).2.1
    have h2 : t ∉ r0.visible := fun hin => hnr (hvis0 t hin).2.1
    exact ⟨h1, hdepth t ht h1, h2, hdepth0 t ht h2⟩

/-- Witness of `C27_cycles_left_out`: a root with a child, beside a cycle of
two tasks with a task hanging below it. -/
theorem C27_cycles_left_out_witness :
    (idsOf mixedTasks).Nodup ∧ (∀ t ∈ mixedTasks, t.ID ≠ 0) ∧
    (buildVisibleTaskTree 6 mixedTasks (some [])).map (fun r => r.visible.map (fun t => t.ID))
      = some [1, 5] ∧
    (∃ r r0, buildVisibleTaskTree 6 mixedTasks none = some r ∧
      buildVisibleTaskTree 6 mixedTasks (some []) = some r0 ∧
      r.visible.Nodup ∧ (∀ t ∈ r.visible, t ∈ mixedTasks) ∧
      (∀ t, t ∈ r0.visible ↔ t ∈ mixedTasks ∧ ReachesRoot mixedTasks t) ∧
      (∀ t ∈ mixedTasks, OnCycle mixedTasks t →
        t ∉ r.visible ∧ r.depthByID.get t.ID = none ∧
        t ∉ r0.visible ∧ r0.depthByID.get t.ID = none)) :=
  ⟨by decide, by decide, by decide,
    C27_cycles_left_out mixedTasks none 6 (by decide) (by decide) (by decide)⟩

theorem noCycle_of_reaches (tasks : List Task) (hz : ∀ t ∈ tasks, t.ID ≠ 0)
    (h : ∀ t ∈ tasks, ReachesRoot tasks t) : NoCycle tasks := by
  intro t ht k hk hloop
  exact cycle_never_root tasks hz t ⟨0, k, hk, hz t ht, hloop⟩ (h t ht)

/-- Claim C28. On distinct non-zero ids whose effective-parent relation has no
cycle, `buildVisibleTaskTree` with an empty or nil collapsed set returns a
permutation of the input: every input task is in the output exactly once,
the output is as long as the input, and the depth map has an entry for every
input id. -/
theorem C28_acyclic_permutation (tasks : List Task) (collapsed : Option (IntMap Bool))
    (fuel : Nat) (hdistinct : (idsOf tasks).Nodup) (hnonzero : ∀ t ∈ tasks, t.ID ≠ 0)
    (hacyclic : NoCycle tasks) (hempty : collapsed = none ∨ collapsed = some [])
    (hfuel : tasks.length < fuel) :
    ∃ r, buildVisibleTaskTree fuel tasks collapsed = some r ∧
      r.visible.Perm tasks ∧ r.visible.Nodup ∧ (∀ t ∈ tasks, t ∈ r.visible) ∧
      (∀ t ∈ tasks, r.visible.count t = 1) ∧
      r.visible.length = tasks.length ∧
      (∀ t ∈ tasks, ∃ d, r.depthByID.get t.ID = some d) := by
  obtain ⟨r, hr, hnd, hvis, _, hall⟩ :=
    tree_facts tasks collapsed fuel ⟨hdistinct, hnonzero⟩ hfuel
  have hcoll : ∀ id, collapsedAt collapsed id = false := by
    intro id
    rcases hempty with h | h <;> rw [h] <;> rfl
  have hin : ∀ t ∈ tasks, t ∈ r.visible :=
    fun t ht => hall hcoll t ht (reaches_of_noCycle tasks hacyclic t ht)
  have hperm : r.visible.Perm tasks :=
    (List.perm_ext_iff_of_nodup hnd (tasks_nodup tasks hdistinct)).mpr
      (fun t => ⟨fun h => (hvis t h).1, hin t⟩)
  refine ⟨r, hr, hperm, hnd, hin, ?_, hperm.length_eq, ?_⟩
  · intro t ht
    exact List.count_eq_one_of_mem hnd (hin t ht)
  · intro t ht
    exact Option.isSome_iff_exists.mp (hvis t (hin t ht)).2.2

/-- Witness of `C28_acyclic_permutation`: the chain example with its second
child, given with the children first. -/
theorem C28_acyclic_permutation_witness :
    (idsOf [sampleD, sampleC, sampleB, sampleA]).Nodup ∧
    NoCycle [sampleD, sampleC, sampleB, sampleA] ∧
    (buildVisibleTaskTree 5 [sampleD, sampleC, sampleB, sampleA] none).map (fun r => r.visible)
      = some [sampleA, sampleD, sampleB, sampleC] ∧
    (∃ r, buildVisibleTaskTree 5 [sampleD, sampleC, sampleB, sampleA] none = some r ∧
      r.visible.Perm [sampleD, sampleC, sampleB, sampleA] ∧ r.visible.Nodup ∧
      (∀ t ∈ [sampleD, sampleC, sampleB, sampleA], t ∈ r.visible) ∧
      (∀ t ∈ [sampleD, sampleC, sampleB, sampleA], r.visible.count t = 1) ∧
      r.visible.length = [sampleD, sampleC, sampleB, sampleA].length ∧
      (∀ t ∈ [sampleD, sampleC, sampleB, sampleA], ∃ d, r.depthByID.get t.ID = some d)) :=
  ⟨by decide,
    noCycle_of_reaches _ (by decide)
      (by
        intro t ht
        simp only [List.mem_cons, List.mem_singleton, List.not_mem_nil, or_false] at ht
        rcases ht with rfl | rfl | rfl | rfl
        · exact ⟨2, by decide⟩
        · exact ⟨3, by decide⟩
        · exact ⟨2, by decide⟩
        · exact ⟨1, by decide⟩),
    by decide,
    C28_acyclic_permutation [sampleD, sampleC, sampleB, sampleA] none 5 (by decide) (by decide)
      (noCycle_of_reaches _ (by decide)
        (by
          intro t ht
          simp only [List.mem_cons, List.mem_singleton, List.not_mem_nil, or_false] at ht
          rcases ht with rfl | rfl | rfl | rfl
          · exact ⟨2, by decide⟩
          · exact ⟨3, by decide⟩
          · exact ⟨2, by decide⟩
          · exact ⟨1, by decide⟩))
      (Or.inl rfl) (by decide)⟩

/-! ## What a fragment shows -/

theorem mem_ite_singleton {α : Type} (c : Prop) [Decidable c] (x y : α) :
    x ∈ (if c then [y] else []) ↔ c ∧ x = y := by
  by_cases h : c <;> simp [h]

theorem trim_clean (l : List Char) (h : ∀ c ∈ l, isSpace c = false) :
    (l.dropWhile isSpace).rdropWhile isSpace = l := by
  have h1 : l.dropWhile isSpace = l := by
    cases l with
    | nil => rfl
    | cons a l => simp [List.dropWhile, h a (List.mem_cons_self _ _)]
  rw [h1]
  unfold List.rdropWhile
  have h2 : l.reverse.dropWhile isSpace = l.reverse := by
    cases hr : l.reverse with
    | nil => rfl
    | cons a r =>
      have ha : a ∈ l := by
        rw [← List.mem_reverse, hr]
        exact List.mem_cons_self _ _
      simp [List.dropWhile, h a ha]
  rw [h2, List.reverse_reverse]

theorem valueOrNone_clean (s : String) (hne : s ≠ "") (h : ∀ c ∈ s.data, isSpace c = false) :
    valueOrNone s = s := by
  have ht : trimSpace s = s := by
    unfold trimSpace
    rw [trim_clean s.data h]
  simp only [valueOrNone, ht, hne, if_false]

theorem isSpace_digit (c : Char) (h : c = '-' ∨ c.isDigit = true) : isSpace c = false := by
  rcases h with rfl | h
  · decide
  · simp only [Char.isDigit, Bool.and_eq_true, decide_eq_true_eq] at h
    have h1 : 48 ≤ c.toNat := h.1
    have h2 : c.toNat ≤ 57 := h.2
    simp only [isSpace, Bool.or_eq_false_iff, Bool.and_eq_false_iff, decide_eq_false_iff_not,
      beq_eq_false_iff_ne, ne_eq]
    omega

theorem formatInt_clean (x : Int) : valueOrNone (formatInt x) = formatInt x := by
  apply valueOrNone_clean
  · intro h
    have : (formatInt x).data = [] := by rw [h]
    exact padded_ne_nil _ _ (List.append_eq_nil.mp this).2
  · intro c hc
    exact isSpace_digit c (appendInt_chars x 0 c hc)

theorem formatDate_clean (t : Time) : valueOrNone (formatDate t) = formatDate t := by
  apply valueOrNone_clean
  · intro h
    have : (formatDate t).data = [] := by rw [h]
    rw [formatDate_split] at this
    simp at this
  · intro c hc
    rw [formatDate_split] at hc
    simp only [List.mem_append, List.mem_cons] at hc
    rcases hc with h | (rfl | h) | (rfl | h)
    · exact isSpace_digit c (appendInt_chars _ _ c h)
    · decide
    · exact isSpace_digit c (appendInt_chars _ _ c h)
    · decide
    · exact isSpace_digit c (appendInt_chars _ _ c h)

theorem formatParent_clean (p : Option Int) :
    valueOrNone (formatParent p) = formatParent p := by
  unfold formatParent
  cases p with
  | none => decide
  | some q =>
    by_cases hq : q = 0
    · simp only [hq, if_true]
      decide
    · simp only [hq, if_false]
      exact formatInt_clean q

theorem formatDue_clean (d : Option Time) : valueOrNone (formatDue d) = formatDue d := by
  unfold formatDue
  cases d with
  | none => decide
  | some t => exact formatDate_clean t

/-- When two values are shown alike. -/
theorem valueOrNone_eq_iff (a b : String) :
    valueOrNone a = valueOrNone b ↔
      (trimSpace a = trimSpace b ∨ (trimSpace a = "" ∧ trimSpace b = "none") ∨
        (trimSpace a = "none" ∧ trimSpace b = "")) := by
  have hn : ("none" : String) ≠ "" := by decide
  have hva : valueOrNone a = if trimSpace a = "" then "none" else trimSpace a := rfl
  have hvb : valueOrNone b = if trimSpace b = "" then "none" else trimSpace b := rfl
  rw [hva, hvb]
  by_cases ha : trimSpace a = "" <;> by_cases hb : trimSpace b = ""
  · rw [if_pos ha, if_pos hb]
    exact ⟨fun _ => Or.inl (ha.trans hb.symm), fun _ => rfl⟩
  · rw [if_pos ha, if_neg hb]
    constructor
    · intro h
      exact Or.inr (Or.inl ⟨ha, h.symm⟩)
    · rintro (h | ⟨_, h⟩ | ⟨h, _⟩)
      · exact absurd (h.symm.trans ha) hb
      · exact h.symm
      · exact absurd (h.symm.trans ha) hn
  · rw [if_neg ha, if_pos hb]
    constructor
    · intro h
      exact Or.inr (Or.inr ⟨h, hb⟩)
    · rintro (h | ⟨h, _⟩ | ⟨h, _⟩)
      · exact absurd (h.trans hb) ha
      · exact absurd h ha
      · exact h
  · rw [if_neg ha, if_neg hb]
    constructor
    · intro h
      exact Or.inl h
    · rintro (h | ⟨h, _⟩ | ⟨_, h⟩)
      · exact h
      · exact absurd h ha
      · exact absurd h hb

/-- Counterexample to claim C30: a title that gains a space and a description
that goes from empty to one space give fragments that show the same text on
both sides. -/
theorem C30_counterexample :
    diffChanges sampleA sampleAPadded
      = ["title: 'A' -> 'A'", "description: 'none' -> 'none'"] ∧
    formatTaskDiff sampleA sampleAPadded
      = "updated: title: 'A' -> 'A'; description: 'none' -> 'none'" := by
  decide

/-- Claim C30, amended. Every fragment of `formatTaskDiff` stands for a field
whose compared values differ: the title, description and status as stored,
the priority, and the rendered parent, due date and tag list. The fragment
shows the two values trimmed, with `none` for a blank one. For priority,
parent and due date the two shown values always differ. For the other fields
they are the same string exactly when the values differ in surrounding white
space only (both blank included), or one is blank and the other is the text
`none`. -/
theorem C30_fragments (before after : Task) (frag : String)
    (hfrag : frag ∈ diffChanges before after) :
    ∃ field a b,
      (field, a, b) ∈
        [("title", before.Title, after.Title),
         ("description", before.Description, after.Description),
         ("status", before.Status, after.Status),
         ("priority", formatInt before.Priority, formatInt after.Priority),
         ("parent", formatParent before.ParentTaskID, formatParent after.ParentTaskID),
         ("due", formatDue before.DueAt, formatDue after.DueAt),
         ("tags", formatTags before.Tags, formatTags after.Tags)] ∧
      a ≠ b ∧
      frag = field ++ ": '" ++ valueOrNone a ++ "' -> '" ++ valueOrNone b ++ "'" ∧
      ((field = "priority" ∨ field = "parent" ∨ field = "due") →
        valueOrNone a ≠ valueOrNone b) ∧
      (valueOrNone a = valueOrNone b ↔
        (trimSpace a = trimSpace b ∨ (trimSpace a = "" ∧ trimSpace b = "none") ∨
          (trimSpace a = "none" ∧ trimSpace b = ""))) := by
  simp only [diffChanges, List.mem_append, mem_ite_singleton] at hfrag
  rcases hfrag with (((((⟨hc, rfl⟩ | ⟨hc, rfl⟩) | ⟨hc, rfl⟩) | ⟨hc, rfl⟩) | ⟨hc, rfl⟩) | ⟨hc, rfl⟩) |
    ⟨hc, rfl⟩
  · refine ⟨"title", before.Title, after.Title, by simp, hc, rfl, ?_, valueOrNone_eq_iff _ _⟩
    intro h
    rcases h with h | h | h <;> exact absurd h (by decide)
  · refine ⟨"description", before.Description, after.Description, by simp, hc, rfl, ?_,
      valueOrNone_eq_iff _ _⟩
    intro h
    rcases h with h | h | h <;> exact absurd h (by decide)
  · refine ⟨"status", before.Status, after.Status, by simp, hc, rfl, ?_, valueOrNone_eq_iff _ _⟩
    intro h
    rcases h with h | h | h <;> exact absurd h (by decide)
  · have hne : formatInt before.Priority ≠ formatInt after.Priority :=
      fun h => hc (formatInt_inj _ _ h)
    refine ⟨"priority", _, _, by simp, hne, rfl, ?_, valueOrNone_eq_iff _ _⟩
    intro _
    rw [formatInt_clean, formatInt_clean]
    exact hne
  · refine ⟨"parent", _, _, by simp, hc, rfl, ?_, valueOrNone_eq_iff _ _⟩
    intro _
    rw [formatParent_clean, formatParent_clean]
    exact hc
  · refine ⟨"due", _, _, by simp, hc, rfl, ?_, valueOrNone_eq_iff _ _⟩
    intro _
    rw [formatDue_clean, formatDue_clean]
    exact hc
  · refine ⟨"tags", _, _, by simp, hc, rfl, ?_, valueOrNone_eq_iff _ _⟩
    intro h
    rcases h with h | h | h <;> exact absurd h (by decide)

/-- Witness of `C30_fragments`: the title fragment of the tasks A and B. -/
theorem C30_fragments_witness :
    "title: 'A' -> 'B'" ∈ diffChanges sampleA sampleB ∧
    (∃ field a b,
      (field, a, b) ∈
        [("title", sampleA.Title, sampleB.Title),
         ("description", sampleA.Description, sampleB.Description),
         ("status", sampleA.Status, sampleB.Status),
         ("priority", formatInt sampleA.Priority, formatInt sampleB.Priority),
         ("parent", formatParent sampleA.ParentTaskID, formatParent sampleB.ParentTaskID),
         ("due", formatDue sampleA.DueAt, formatDue sampleB.DueAt),
         ("tags", formatTags sampleA.Tags, formatTags sampleB.Tags)] ∧
      a ≠ b ∧
      "title: 'A' -> 'B'" = field ++ ": '" ++ valueOrNone a ++ "' -> '" ++ valueOrNone b ++ "'" ∧
      ((field = "priority" ∨ field = "parent" ∨ field = "due") →
        valueOrNone a ≠ valueOrNone b) ∧
      (valueOrNone a = valueOrNone b ↔
        (trimSpace a = trimSpace b ∨ (trimSpace a = "" ∧ trimSpace b = "none") ∨
          (trimSpace a = "none" ∧ trimSpace b = "")))) :=
  ⟨by decide, C30_fragments sampleA sampleB "title: 'A' -> 'B'" (by decide)⟩

/-! ## Status toggles -/

/-- What `GetTaskWithTags` reads after a successful `UpdateTask`: the returned
task, which has the fields of the input. -/
theorem updateTask_stored (lower : Char → Char) (taskID : Int) (input : TaskInput) (c c2 : Conn)
    (task : Task) (h : Store.UpdateTask lower taskID input c = (Except.ok task, c2)) :
    Store.GetTaskWithTags taskID ⟨c2.db, []⟩ = (Except.ok task, ⟨c2.db, []⟩) ∧
    (∃ row, c.db.tasks.find? (fun r => r.ID == taskID) = some row) ∧
    task.ID = taskID ∧ task.Status = normalizeStatus lower input.Status ∧
    task.Title = input.Title ∧ task.Description = input.Description ∧
    task.Priority = input.Priority ∧ task.DueAt = input.DueAt ∧
    task.ParentTaskID = input.ParentTaskID := by
  obtain ⟨rowB, db2, hfindB, hdb2, htask, hc2⟩ := updateTask_ok lower taskID input c c2 task h
  have hcore := core_fields _ _ (setTagsDB_core lower taskID input.Tags
    { c.db with
      tasks := c.db.tasks.map (fun r => if r.ID == taskID then
        (⟨taskID, input.Title, input.Description, normalizeStatus lower input.Status,
          input.Priority, input.DueAt, input.ParentTaskID, rowB.CreatedAt, c.db.now⟩ : TaskRow)
        else r) })
  rw [← hdb2] at hcore
  have hfindA : db2.tasks.find? (fun r => r.ID == taskID) = some ⟨taskID, input.Title,
      input.Description, normalizeStatus lower input.Status, input.Priority, input.DueAt,
      input.ParentTaskID, rowB.CreatedAt, c.db.now⟩ := by
    rw [hcore.1]
    exact find_replace_some taskID _ rfl c.db.tasks rowB hfindB
  have hf2 : c2.db.tasks.find? (fun r => r.ID == taskID) = some ⟨taskID, input.Title,
      input.Description, normalizeStatus lower input.Status, input.Priority, input.DueAt,
      input.ParentTaskID, rowB.CreatedAt, c.db.now⟩ := by
    rw [hc2]
    exact hfindA
  have hl : linkedTags taskID c2.db = linkedTags taskID db2 := by
    rw [hc2]
    rfl
  refine ⟨?_, ⟨rowB, hfindB⟩, ?_, ?_, ?_, ?_, ?_, ?_, ?_⟩
  · rw [getTask_run, hf2]
    simp only []
    rw [hl, ← htask]
  all_goals rw [htask]; rfl

theorem normalizeStatus_plain (lower : Char → Char)
    (hascii : ∀ c : Char, c.toNat < 128 → lower c = c.toLower) (s : String)
    (h : ∀ c ∈ s.data, c.toNat < 128) :
    normalizeStatus lower s = normalizeStatus Char.toLower s := by
  unfold normalizeStatus
  rw [toLower_ascii lower hascii s h]

theorem toggleDoing_eq (lower : Char → Char) (selected : Task) (c : Conn) :
    UI.toggleDoing lower false (some selected) c
      = match Store.UpdateTask lower selected.ID (toggleInput "doing" selected) c with
        | (Except.error err, c1) => (some err, c1)
        | (Except.ok _, c1) => (none, c1) := by
  unfold UI.toggleDoing toggleInput
  by_cases hs : selected.Status = "doing" <;> simp [hs]

theorem toggleDone_eq (lower : Char → Char) (selected : Task) (c : Conn) :
    UI.toggleDone lower false (some selected) c
      = match Store.UpdateTask lower selected.ID (toggleInput "done" selected) c with
        | (Except.error err, c1) => (some err, c1)
        | (Except.ok _, c1) => (none, c1) := by
  unfold UI.toggleDone toggleInput
  by_cases hs : selected.Status = "done" <;> simp [hs]

theorem toggleEventually_eq (lower : Char → Char) (selected : Task) (c : Conn) :
    UI.toggleEventually lower false (some selected) c
      = match Store.UpdateTask lower selected.ID (toggleInput "eventually" selected) c with
        | (Except.error err, c1) => (some err, c1)
        | (Except.ok _, c1) => (none, c1) := by
  unfold UI.toggleEventually toggleInput
  by_cases hs : selected.Status = "eventually" <;> simp [hs]

/-- A toggle that leaves the status line empty has stored the task with the
toggled status; the parent it reads back is the absent parent of the input,
as the modelled query `UpdateTask` stores the parameters it is given. -/
theorem toggle_stored (lower : Char → Char) (target : String)
    (htarget : normalizeStatus lower target = target)
    (htodo : normalizeStatus lower "todo" = "todo") (selected : Task) (c c1 : Conn)
    (h : (match Store.UpdateTask lower selected.ID (toggleInput target selected) c with
        | (Except.error err, c2) => ((some err : Option DBError), c2)
        | (Except.ok _, c2) => (none, c2)) = (none, c1)) :
    ∃ t, Store.GetTaskWithTags selected.ID ⟨c1.db, []⟩ = (Except.ok t, ⟨c1.db, []⟩) ∧
      t.ID = selected.ID ∧
      t.Status = (if selected.Status = target then "todo" else target) ∧
      t.Title = selected.Title ∧ t.Description = selected.Description ∧
      t.Priority = selected.Priority ∧ t.DueAt = selected.DueAt ∧
      t.ParentTaskID = none := by
  cases hu : Store.UpdateTask lower selected.ID (toggleInput target selected) c with
  | mk r c2 =>
    cases r with
    | error e => simp [hu] at h
    | ok task =>
      simp only [hu, Prod.mk.injEq, true_and] at h
      subst h
      obtain ⟨hget, _, hid, hst, htitle, hdesc, hprio, hdue, hpar⟩ :=
        updateTask_stored lower selected.ID _ c c2 task hu
      refine ⟨task, hget, hid, ?_, ?_, ?_, ?_, ?_, ?_⟩
      · rw [hst]
        unfold toggleInput
        by_cases hs : selected.Status = target
        · simp only [hs, if_true]
          exact htodo
        · simp only [hs, if_false]
          exact htarget
      all_goals
        first
        | rw [htitle]
        | rw [hdesc]
        | rw [hprio]
        | rw [hdue]
        | rw [hpar]
        unfold toggleInput taskInputFromTask
        by_cases hs : selected.Status = target <;> simp [hs]

theorem toggle_runs (lower : Char → Char) (target : String) (selected : Task) (db : DB)
    (row : TaskRow) (hfind : db.tasks.find? (fun r => r.ID == selected.ID) = some row) :
    ∃ c1, (match Store.UpdateTask lower selected.ID (toggleInput target selected) ⟨db, []⟩ with
        | (Except.error err, c2) => ((some err : Option DBError), c2)
        | (Except.ok _, c2) => (none, c2)) = (none, c1) := by
  obtain ⟨t, c3, h⟩ := updateTask_run lower selected.ID (toggleInput target selected) db row hfind
  rw [h]
  exact ⟨c3, rfl⟩

theorem toggle_claim (lower : Char → Char)
    (hascii : ∀ c : Char, c.toNat < 128 → lower c = c.toLower)
    (f : Bool → Option Task → Conn → Option DBError × Conn) (target : String)
    (hf : ∀ (sel : Task) (c : Conn), f false (some sel) c
      = match Store.UpdateTask lower sel.ID (toggleInput target sel) c with
        | (Except.error err, c1) => (some err, c1)
        | (Except.ok _, c1) => (none, c1))
    (hplain : ∀ ch ∈ target.data, ch.toNat < 128)
    (hnorm : normalizeStatus Char.toLower target = target) (hne : "todo" ≠ target)
    (selected : Task) (c : Conn) :
    (∀ c1, f false (some selected) c = (none, c1) →
      ∃ t, Store.GetTaskWithTags selected.ID ⟨c1.db, []⟩ = (Except.ok t, ⟨c1.db, []⟩) ∧
        t.Status = (if selected.Status = target then "todo" else target)) ∧
    (selected.Status = "todo" → ∀ (c1 c2 : Conn) (t1 : Task) (fs : List Bool),
      f false (some selected) c = (none, c1) →
      Store.GetTaskWithTags selected.ID ⟨c1.db, []⟩ = (Except.ok t1, ⟨c1.db, []⟩) →
      f false (some t1) ⟨c1.db, fs⟩ = (none, c2) →
      t1.Status = target ∧
      ∃ t2, Store.GetTaskWithTags selected.ID ⟨c2.db, []⟩ = (Except.ok t2, ⟨c2.db, []⟩) ∧
        t2.Status = "todo") ∧
    ((∃ row, c.db.tasks.find? (fun r => r.ID == selected.ID) = some row) →
      ∃ c1, f false (some selected) ⟨c.db, []⟩ = (none, c1)) := by
  have htarget : normalizeStatus lower target = target := by
    rw [normalizeStatus_plain lower hascii target hplain, hnorm]
  have htodo : normalizeStatus lower "todo" = "todo" := by
    rw [normalizeStatus_plain lower hascii "todo" (by decide)]
    decide
  refine ⟨?_, ?_, ?_⟩
  · intro c1 h
    rw [hf] at h
    obtain ⟨t, hget, _, hst, _⟩ := toggle_stored lower target htarget htodo selected c c1 h
    exact ⟨t, hget, hst⟩
  · intro hs c1 c2 t1 fs h1 hget1 h2
    rw [hf] at h1 h2
    obtain ⟨t, hget, hid, hst, _⟩ := toggle_stored lower target htarget htodo selected c c1 h1
    rw [hget] at hget1
    simp only [Prod.mk.injEq, Except.ok.injEq, and_true] at hget1
    subst hget1
    have hst1 : t.Status = target := by
      rw [hst, hs, if_neg hne]
    obtain ⟨t2, hget2, _, hst2, _⟩ :=
      toggle_stored lower target htarget htodo t ⟨c1.db, fs⟩ c2 h2
    rw [hid] at hget2
    refine ⟨hst1, t2, hget2, ?_⟩
    rw [hst2, if_pos hst1]
  · rintro ⟨row, hrow⟩
    obtain ⟨c1, h⟩ := toggle_runs lower target selected c.db row hrow
    exact ⟨c1, by rw [hf]; exact h⟩

/-- Claim C25. For a selected task and no active input, a toggle that goes
through (empty status line) leaves the task stored with the status `doing`
when the status of the selected task is not `doing`, and `todo` when it is;
`toggleDone` and `toggleEventually` do the same with `done` and
`eventually`. So the same toggle applied twice to a `todo` task, the second
time to the task as it is read back, stores `todo` again. A toggle on a task
of the store goes through when no query fails. -/
theorem C25_toggle_status (lower : Char → Char)
    (hascii : ∀ c : Char, c.toNat < 128 → lower c = c.toLower) (selected : Task) (c : Conn) :
    ∀ p ∈ [(UI.toggleDoing lower, "doing"), (UI.toggleDone lower, "done"),
        (UI.toggleEventually lower, "eventually")],
      (∀ c1, p.1 false (some selected) c = (none, c1) →
        ∃ t, Store.GetTaskWithTags selected.ID ⟨c1.db, []⟩ = (Except.ok t, ⟨c1.db, []⟩) ∧
          t.Status = (if selected.Status = p.2 then "todo" else p.2)) ∧
      (selected.Status = "todo" → ∀ (c1 c2 : Conn) (t1 : Task) (fs : List Bool),
        p.1 false (some selected) c = (none, c1) →
        Store.GetTaskWithTags selected.ID ⟨c1.db, []⟩ = (Except.ok t1, ⟨c1.db, []⟩) →
        p.1 false (some t1) ⟨c1.db, fs⟩ = (none, c2) →
        t1.Status = p.2 ∧
        ∃ t2, Store.GetTaskWithTags selected.ID ⟨c2.db, []⟩ = (Except.ok t2, ⟨c2.db, []⟩) ∧
          t2.Status = "todo") ∧
      ((∃ row, c.db.tasks.find? (fun r => r.ID == selected.ID) = some row) →
        ∃ c1, p.1 false (some selected) ⟨c.db, []⟩ = (none, c1)) := by
  intro p hp
  simp only [List.mem_cons, List.mem_singleton, List.not_mem_nil, or_false] at hp
  rcases hp with rfl | rfl | rfl
  · exact toggle_claim lower hascii _ "doing" (toggleDoing_eq lower) (by decide) (by decide)
      (by decide) selected c
  · exact toggle_claim lower hascii _ "done" (toggleDone_eq lower) (by decide) (by decide)
      (by decide) selected c
  · exact toggle_claim lower hascii _ "eventually" (toggleEventually_eq lower) (by decide)
      (by decide) (by decide) selected c

/-- Witness of `C25_toggle_status`: `toggleDoing` on the task of the test. -/
theorem C25_toggle_status_witness :
    (∀ c : Char, c.toNat < 128 → Char.toLower c = c.toLower) ∧
    UI.toggleDoing Char.toLower false (some toggleTask) ⟨toggleDB, []⟩
      = (none, (UI.toggleDoing Char.toLower false (some toggleTask) ⟨toggleDB, []⟩).2) ∧
    (∃ t, Store.GetTaskWithTags toggleTask.ID
        ⟨(UI.toggleDoing Char.toLower false (some toggleTask) ⟨toggleDB, []⟩).2.db, []⟩
        = (Except.ok t,
            ⟨(UI.toggleDoing Char.toLower false (some toggleTask) ⟨toggleDB, []⟩).2.db, []⟩) ∧
      t.Status = (if toggleTask.Status = "doing" then "todo" else "doing")) :=
  ⟨fun _ _ => rfl, rfl,
    ((C25_toggle_status Char.toLower (fun _ _ => rfl) toggleTask ⟨toggleDB, []⟩)
      (UI.toggleDoing Char.toLower, "doing") (List.mem_cons_self _ _)).1 _ rfl⟩

theorem formatInt_one : formatInt 1 = "1" := by
  have h : Nat.digits 10 1 = [1] := by norm_num
  simp only [formatInt, appendInt, decimalNat, Int.natAbs_one, h]
  decide

/-! ## Status toggles and the other fields -/

/-- With a non-empty tag list the result of `ListTasks` does not depend on the
status and the due bounds of the filter: they are not handed to the query. -/
theorem listTasks_tags_only (lower : Char → Char) (filter : Filter String) (c : Conn)
    (htags : sliceItems filter.Tags ≠ []) (status : String)
    (dueBefore dueAfter : Option Time) :
    Store.ListTasks lower filter c
      = Store.ListTasks lower
          { filter with Status := status, DueBefore := dueBefore, DueAfter := dueAfter } c := by
  have hlen : (sliceItems filter.Tags).length > 0 := List.length_pos.mpr htags
  unfold Store.ListTasks
  simp only [hlen, if_true]

/-- Claim C22 fails on the code: in the store that holds one task with status
`todo` and the tags `Work` and `Home`, the filter with the tag `Work` and
the status `done` returns that task, which does not have the status `done`;
without the tag (a nil or an empty tag list) the same filter returns nothing.
A due bound given together with a tag is dropped in the same way. -/
theorem C22_tags_drop_status :
    (Store.ListTasks Char.toLower doneWorkFilter ⟨createdDB, []⟩).1
      = Except.ok [sampleCreated] ∧
    trimSpace doneWorkFilter.Status = "done" ∧ sampleCreated.Status = "todo" ∧
    satisfiesFilter Char.toLower doneWorkFilter sampleCreated = false ∧
    (Store.ListTasks Char.toLower { doneWorkFilter with Tags := none } ⟨createdDB, []⟩).1
      = Except.ok [] ∧
    (Store.ListTasks Char.toLower { doneWorkFilter with Tags := some [] } ⟨createdDB, []⟩).1
      = Except.ok [] ∧
    (Store.ListTasks Char.toLower ⟨"", "", some ["Work"], some jan1of2025, none⟩
        ⟨createdDB, []⟩).1
      = Except.ok [sampleCreated] ∧
    sampleCreated.DueAt = none ∧
    satisfiesFilter Char.toLower ⟨"", "", some ["Work"], some jan1of2025, none⟩ sampleCreated
      = false := by
  refine ⟨rfl, by decide, rfl, by decide, rfl, rfl, rfl, rfl, by decide⟩

/-! ## Strings through `encoding/json` -/

theorem validUTF8_ofString (s : String) : GoString.validUTF8 (GoString.ofString s) = true := by
  unfold GoString.validUTF8 GoString.ofString
  rw [List.all_eq_true]
  intro r hr
  obtain ⟨c, _, rfl⟩ := List.mem_map.mp hr
  rfl

theorem marshal_ok (f : Filter GoString)
    (hb : ∀ t, f.DueBefore = some t → 0 ≤ t.year ∧ t.year ≤ 9999)
    (ha : ∀ t, f.DueAfter = some t → 0 ≤ t.year ∧ t.year ≤ 9999) :
    ∃ payload, jsonMarshal f = some payload := by
  have key : ∀ b : Option Time, (∀ t, b = some t → 0 ≤ t.year ∧ t.year ≤ 9999) →
      ∃ text, jsonBound b = some text := by
    intro b hbnd
    cases b with
    | none => exact ⟨_, rfl⟩
    | some t =>
      have := hbnd t rfl
      simp only [jsonBound, jsonTime, this, and_self, if_true]
      exact ⟨_, rfl⟩
  obtain ⟨b, hbb⟩ := key f.DueBefore hb
  obtain ⟨a, haa⟩ := key f.DueAfter ha
  unfold jsonMarshal
  rw [hbb, haa]
  exact ⟨_, rfl⟩

/-- A filter that `json.Marshal` cannot write has a bound with a year outside of
0..9999. -/
theorem marshal_none (f : Filter GoString) (h : jsonMarshal f = none) :
    ∃ t, (f.DueBefore = some t ∨ f.DueAfter = some t) ∧ ¬ (0 ≤ t.year ∧ t.year ≤ 9999) := by
  by_contra hcon
  push_neg at hcon
  obtain ⟨payload, hp⟩ := marshal_ok f (fun t ht => hcon t (Or.inl ht))
    (fun t ht => hcon t (Or.inr ht))
  rw [h] at hp
  cases hp

/-! ## Saved views -/

end LazyTask
